import Mathlib

/-!
CreaGrafo: shortest paths on the actor graph of `cammini.c`.

A shallow embedding of the sequential core of `cammini.c`: the key transformation
`shuffle`, the node table with its binary-search lookup, the FIFO frontier, the
explored/parent index (an unbalanced binary search tree) and the BFS worker.

Conventions of the embedding.

* A C `int` is an `Int` in the range `[-2^31, 2^31)` (`isInt32`); its bit pattern is the
  natural number `toU32 n < 2^32`, and `toI32` goes back.
* The pair `(attori_arr, tota_attori)` is a `List attore`; `tota_attori` is its length.
  The pair `(cop, numcop)` of a record is a `List Int`; `numcop` is its length.
* Loops whose number of iterations is not bounded syntactically take a `fuel` argument and
  return `none` when it runs out; the theorems show that enough fuel always gives a result.
* The elapsed CPU time printed by the worker is not part of the model.
-/

namespace CreaGrafo

/-! ## Machine integers -/

/-- Range of a C `int` (32 bits, two's complement). -/
def isInt32 (n : Int) : Prop := -2147483648 ≤ n ∧ n < 2147483648

instance (n : Int) : Decidable (isInt32 n) := by
  unfold isInt32; infer_instance

/-- Bit pattern of a C `int`, as a natural number below `2^32`. -/
def toU32 (n : Int) : Nat := (n % 4294967296).toNat

/-- The C `int` whose bit pattern is `u` (taken modulo `2^32`). -/
def toI32 (u : Nat) : Int :=
  if u % 4294967296 < 2147483648 then ((u % 4294967296 : Nat) : Int)
  else ((u % 4294967296 : Nat) : Int) - 4294967296

/-! ## `shuffle` -/

/-- `shuffle` of `cammini.c`:
`((((n & 0x3F) << 26) | ((n >> 6) & 0x3FFFFFF)) ^ 0x55555555)`.
The operators act on bit patterns; `n >> 6` is the arithmetic shift of the signed value,
and the left shift is taken modulo `2^32`. -/
def shuffle (n : Int) : Int :=
  toI32 (((((toU32 n &&& 0x3F) <<< 26) % 4294967296) ||| (toU32 (n >>> (6 : Nat)) &&& 0x3FFFFFF))
    ^^^ 0x55555555)

/-- Rotation of a 32-bit word to the right by `k` bits (`0 < k < 32`), written as in the
specification: the low `k` bits go to the top, the others move down. -/
def rotr32 (u k : Nat) : Nat := ((u >>> k) ||| (u <<< (32 - k))) % 4294967296

/-! ## Node table -/

/-- Record `attore` of `cammini.c`; `cop` holds the cells `cop[0..numcop)`. -/
structure attore where
  codice : Int
  nome : String
  anno : Int
  cop : List Int
deriving DecidableEq, Repr

/-- Field `numcop` of a record. -/
def attore.numcop (a : attore) : Nat := a.cop.length

/-- `compare_attori` of `cammini.c`. -/
def compare_attori (att_a att_b : attore) : Int :=
  if att_a.codice < att_b.codice then -1
  else if att_a.codice > att_b.codice then 1
  else 0

/-- Loop of the C library's `bsearch` on the half-open index range `[l, u)`.
The range shrinks at every iteration, so `u - l` units of fuel are enough; with no fuel
left the range is empty and the loop's exit value `NULL` is returned. -/
def bsearch_loop (key : attore) (base : List attore) : Nat → Nat → Nat → Option attore
  | 0, _, _ => none
  | fuel + 1, l, u =>
    if l < u then
      let idx := (l + u) / 2
      match base[idx]? with
      | none => none
      | some p =>
        let comparison := compare_attori key p
        if comparison < 0 then bsearch_loop key base fuel l idx
        else if comparison > 0 then bsearch_loop key base fuel (idx + 1) u
        else some p
    else none

/-- The C library's `bsearch(key, base, nmemb, size, compare_attori)`. -/
def bsearch (key : attore) (base : List attore) (nmemb : Nat) : Option attore :=
  bsearch_loop key base nmemb 0 nmemb

/-- `find_attore_by_codice` of `cammini.c`; the key record has only its code set. -/
def find_attore_by_codice (codice : Int) (attori_arr : List attore) : Option attore :=
  bsearch { codice := codice, nome := "", anno := 0, cop := [] } attori_arr attori_arr.length

/-! ## FIFO frontier -/

/-- The linked list of `fifo_queue_t`, from `head` to `tail`. -/
abbrev fifo_queue_t := List Int

/-- `fifo_queue_create`. -/
def fifo_queue_create : fifo_queue_t := []

/-- `fifo_queue_enqueue`: the new node is linked after `tail`. -/
def fifo_queue_enqueue (q : fifo_queue_t) (codice : Int) : fifo_queue_t := q ++ [codice]

/-- `fifo_queue_dequeue`: `none` stands for the return value 0, `some (codice_out, q)` for 1. -/
def fifo_queue_dequeue (q : fifo_queue_t) : Option (Int × fifo_queue_t) :=
  match q with
  | [] => none
  | codice :: next => some (codice, next)

/-- `fifo_queue_is_empty`. -/
def fifo_queue_is_empty (q : fifo_queue_t) : Bool := q.isEmpty

/-! ## Explored/parent index -/

/-- Tree of `abr_node_t` cells; `NULL` is the null pointer. -/
inductive abr_node_t where
  | NULL : abr_node_t
  | node (shuffled_codice original_codice parent_codice : Int)
      (left right : abr_node_t) : abr_node_t
deriving DecidableEq, Repr

/-- `abr_insert`: the tree reachable from `*root_ptr` after the call. -/
def abr_insert (root : abr_node_t) (shuffled_key original_key parent_key : Int) : abr_node_t :=
  match root with
  | .NULL => .node shuffled_key original_key parent_key .NULL .NULL
  | .node sc oc pc left right =>
    if shuffled_key < sc then
      .node sc oc pc (abr_insert left shuffled_key original_key parent_key) right
    else if shuffled_key > sc then
      .node sc oc pc left (abr_insert right shuffled_key original_key parent_key)
    else .node sc oc pc left right

/-- `abr_search`: the subtree whose root has the key, or `NULL`. -/
def abr_search (root : abr_node_t) (shuffled_key : Int) : abr_node_t :=
  match root with
  | .NULL => .NULL
  | .node sc oc pc left right =>
    if sc = shuffled_key then .node sc oc pc left right
    else if shuffled_key < sc then abr_search left shuffled_key
    else abr_search right shuffled_key

/-! ## BFS worker -/

/-- A line of the per-request output file. -/
inductive out_line where
  | codice_non_valido (codice : Int)
  | nodo (codice : Int) (nome : String) (anno : Int)
  | non_esistono_cammini (start_codice end_codice : Int)
deriving DecidableEq, Repr

/-- The summary line on standard output (without the elapsed time). -/
inductive stdout_line where
  | lunghezza_minima (start_codice end_codice : Int) (lunghezza : Nat)
  | nessun_cammino (start_codice end_codice : Int)
deriving DecidableEq, Repr

/-- What one run of the worker writes: the lines of the file `<start>.<end>` and the
summary line on standard output, if any. -/
structure bfs_output where
  file : List out_line
  stdout : Option stdout_line
deriving DecidableEq, Repr

/-- Text of an output-file line, as formatted by the `fprintf` calls of the worker. -/
def out_line.render : out_line → String
  | .codice_non_valido c => "codice " ++ toString c ++ " non valido\n"
  | .nodo c nome anno => toString c ++ "\t" ++ nome ++ "\t" ++ toString anno ++ "\n"
  | .non_esistono_cammini s e =>
    "non esistono cammini da " ++ toString s ++ " a " ++ toString e ++ "\n"

/-- Text of the summary line up to the elapsed time. -/
def stdout_line.render : stdout_line → String
  | .lunghezza_minima s e l =>
    toString s ++ "." ++ toString e ++ ": Lunghezza minima " ++ toString l ++ "."
  | .nessun_cammino s e => toString s ++ "." ++ toString e ++ ": Nessun cammino."

/-- State of the search loop: the flag `path_found`, the frontier and the index. -/
structure bfs_state where
  path_found : Bool
  queue : fifo_queue_t
  explored_root : abr_node_t
deriving DecidableEq, Repr

/-- The `for` loop over `cop[0..numcop)` of the dequeued record: every neighbor whose key
is not in the index is inserted with `current_codice` as parent and enqueued. -/
def bfs_visit (key : Int → Int) (current_codice : Int) :
    List Int → fifo_queue_t → abr_node_t → fifo_queue_t × abr_node_t
  | [], queue, explored_root => (queue, explored_root)
  | neighbor_codice :: rest, queue, explored_root =>
    match abr_search explored_root (key neighbor_codice) with
    | .NULL =>
      bfs_visit key current_codice rest (fifo_queue_enqueue queue neighbor_codice)
        (abr_insert explored_root (key neighbor_codice) neighbor_codice current_codice)
    | .node _ _ _ _ _ => bfs_visit key current_codice rest queue explored_root

/-- The `while (!fifo_queue_is_empty(queue) && !path_found)` loop of `bfs_thread_func`,
one unit of fuel per iteration test. `key` is the key transformation of the index
(`shuffle` in the source). -/
def bfs_loop (key : Int → Int) (attori_arr : List attore) (end_codice_orig : Int) :
    Nat → fifo_queue_t → abr_node_t → Option bfs_state
  | 0, _, _ => none
  | fuel + 1, queue, explored_root =>
    if fifo_queue_is_empty queue then some ⟨false, queue, explored_root⟩
    else
      match fifo_queue_dequeue queue with
      | none => some ⟨false, queue, explored_root⟩
      | some (current_codice, queue1) =>
        if current_codice = end_codice_orig then some ⟨true, queue1, explored_root⟩
        else
          match find_attore_by_codice current_codice attori_arr with
          | none => bfs_loop key attori_arr end_codice_orig fuel queue1 explored_root
          | some current_attore_obj =>
            let r := bfs_visit key current_codice current_attore_obj.cop queue1 explored_root
            bfs_loop key attori_arr end_codice_orig fuel r.1 r.2

/-- The `while (trace_codice != -1)` loop of the path reconstruction. `path` holds the
cells `path[0..path_len)`; the result `[]` is `path_len = 0` after one of the two error
exits. -/
def trace_loop (key : Int → Int) (explored_root : abr_node_t) (tota_attori : Nat) :
    Nat → Int → List Int → Option (List Int)
  | 0, _, _ => none
  | fuel + 1, trace_codice, path =>
    if trace_codice = -1 then some path
    else if path.length ≥ tota_attori then some []
    else
      match abr_search explored_root (key trace_codice) with
      | .NULL => some []
      | .node _ _ parent_codice _ _ =>
        trace_loop key explored_root tota_attori fuel parent_codice (path ++ [trace_codice])

/-- The printing loop `for (i = path_len - 1; i >= 0; --i)`: one line per cell whose code
is found in the table. -/
def print_path (attori_arr : List attore) (path : List Int) : List out_line :=
  path.reverse.filterMap fun c =>
    match find_attore_by_codice c attori_arr with
    | some actor_on_path =>
      some (.nodo actor_on_path.codice actor_on_path.nome actor_on_path.anno)
    | none => none

/-- The body of `bfs_thread_func` after the output file has been opened, with the index
keyed by `key`. -/
def bfs_worker (key : Int → Int) (fuel : Nat) (attori_arr : List attore)
    (start_codice_orig end_codice_orig : Int) : Option bfs_output :=
  match find_attore_by_codice start_codice_orig attori_arr,
        find_attore_by_codice end_codice_orig attori_arr with
  | none, _ => some ⟨[.codice_non_valido start_codice_orig], none⟩
  | some _, none => some ⟨[.codice_non_valido end_codice_orig], none⟩
  | some _, some _ =>
    let queue := fifo_queue_enqueue fifo_queue_create start_codice_orig
    let explored_root := abr_insert .NULL (key start_codice_orig) start_codice_orig (-1)
    match bfs_loop key attori_arr end_codice_orig fuel queue explored_root with
    | none => none
    | some st =>
      if st.path_found then
        match trace_loop key st.explored_root attori_arr.length fuel end_codice_orig [] with
        | none => none
        | some path =>
          some ⟨print_path attori_arr path,
            some (.lunghezza_minima start_codice_orig end_codice_orig
              (if path.length > 0 then path.length - 1 else 0))⟩
      else
        some ⟨[.non_esistono_cammini start_codice_orig end_codice_orig],
          some (.nessun_cammino start_codice_orig end_codice_orig)⟩

/-- `bfs_thread_func` of `cammini.c` (the case in which the output file was opened):
the index is keyed by `shuffle`. -/
def bfs_thread_func (fuel : Nat) (attori_arr : List attore)
    (start_codice_orig end_codice_orig : Int) : Option bfs_output :=
  bfs_worker shuffle fuel attori_arr start_codice_orig end_codice_orig

/-- Fuel that is enough for both loops of the worker on this table. -/
def bfs_fuel (attori_arr : List attore) : Nat :=
  attori_arr.length + (attori_arr.map attore.numcop).sum + 2

/-! ## Vocabulary of the statements -/

/-- The table is sorted ascending by code, duplicates allowed: what `bsearch` needs. -/
def sorted_by_codice (attori_arr : List attore) : Prop :=
  attori_arr.Pairwise fun a b => a.codice ≤ b.codice

instance (attori_arr : List attore) : Decidable (sorted_by_codice attori_arr) := by
  unfold sorted_by_codice; infer_instance

/-- The table is sorted strictly ascending by code (property P1 of the specification):
codes are unique. -/
def strictly_sorted (attori_arr : List attore) : Prop :=
  attori_arr.Pairwise fun a b => a.codice < b.codice

instance (attori_arr : List attore) : Decidable (strictly_sorted attori_arr) := by
  unfold strictly_sorted; infer_instance

/-- Some record of the table has code `c`. -/
def has_codice (attori_arr : List attore) (c : Int) : Prop :=
  ∃ r ∈ attori_arr, r.codice = c

instance (attori_arr : List attore) (c : Int) : Decidable (has_codice attori_arr c) := by
  unfold has_codice; infer_instance

/-- Every code of the table, heads and neighbors, is a C `int`. -/
def table_int32 (attori_arr : List attore) : Prop :=
  ∀ r ∈ attori_arr, isInt32 r.codice ∧ ∀ n ∈ r.cop, isInt32 n

instance (attori_arr : List attore) : Decidable (table_int32 attori_arr) := by
  unfold table_int32; infer_instance

/-- What a successful `abr_search` for `shuffled_key` reads from the node it returns:
`original_codice` and `parent_codice`; `none` when the search returns `NULL`. -/
def abr_lookup (root : abr_node_t) (shuffled_key : Int) : Option (Int × Int) :=
  match abr_search root shuffled_key with
  | .NULL => none
  | .node _ oc pc _ _ => some (oc, pc)

/-- The table has an edge from `u` to `v`: `v` is in the neighbor list of the record that
the lookup of `u` returns. -/
def edge (attori_arr : List attore) (u v : Int) : Prop :=
  ∃ r, find_attore_by_codice u attori_arr = some r ∧ v ∈ r.cop

/-- There is a path `s = v0, ..., vk = e` with `v(i+1)` in the neighbor list of the record
with code `vi`, for some `k ≥ 0`. -/
def reachable (attori_arr : List attore) (s e : Int) : Prop :=
  Relation.ReflTransGen (fun u v => ∃ r ∈ attori_arr, r.codice = u ∧ v ∈ r.cop) s e

/-- The codes of the node lines of an output file, in file order. -/
def written_codes (file : List out_line) : List Int :=
  file.filterMap fun l =>
    match l with
    | .nodo c _ _ => some c
    | _ => none

/-- The index `t`, keyed by `key`, and the index `u`, keyed by the codes themselves, bind
the same 32-bit codes to the same pairs, and the parents recorded in `u` are 32-bit. -/
def idx_sim (key : Int → Int) (t u : abr_node_t) : Prop :=
  (∀ c, isInt32 c → abr_lookup t (key c) = abr_lookup u c) ∧
  (∀ c x, abr_lookup u c = some x → isInt32 x.2)

/-- The distinct neighbor codes of the table. -/
def neighbor_codes (attori_arr : List attore) : Finset Int :=
  (attori_arr.flatMap attore.cop).toFinset

/-- The neighbor codes of the table that are not bound in the index `u` (keyed by the
codes themselves). -/
def unexplored (attori_arr : List attore) (u : abr_node_t) : Finset Int :=
  (neighbor_codes attori_arr).filter fun c => abr_lookup u c = none

/-- Invariant of the search loop on the index keyed by the codes, for the request
`(s, e)`: the start is bound; the frontier cells are bound; every bound code is reached
from `s` along edges; every bound code is still in the frontier or is not `e` and has all
its neighbors bound; and every bound code is the start with parent `-1` or a neighbor of
its recorded parent. -/
def bfs_inv (attori_arr : List attore) (s e : Int) (q : fifo_queue_t) (t : abr_node_t) :
    Prop :=
  abr_lookup t s ≠ none ∧
  (∀ x ∈ q, abr_lookup t x ≠ none) ∧
  (∀ c, abr_lookup t c ≠ none → Relation.ReflTransGen (edge attori_arr) s c) ∧
  (∀ c, abr_lookup t c ≠ none →
    c ∈ q ∨ (c ≠ e ∧ ∀ n, edge attori_arr c n → abr_lookup t n ≠ none)) ∧
  (∀ c x, abr_lookup t c = some x → (c = s ∧ x.2 = -1) ∨ edge attori_arr x.2 c)

/-! ## Concrete tables -/

/-- The two-hop table of the specification's scenario 3. -/
def table_two_hop : List attore :=
  [⟨1, "Alice", 1970, [2]⟩, ⟨2, "Bob", 1971, [1, 3]⟩, ⟨3, "Carol", 1972, [2]⟩]

/-- A table with the extreme codes, the code `-1` and an isolated record. -/
def table_extremes : List attore :=
  [⟨-2147483648, "Min", 1900, [-1]⟩, ⟨-1, "Minus", 1950, [2147483647]⟩,
   ⟨0, "Zero", 1960, []⟩, ⟨2147483647, "Max", 2000, [-2147483648]⟩]

/-- A table in which the record with code `-1` is adjacent to the record with code `5`. -/
def table_minus_one : List attore :=
  [⟨-1, "Alice", 1970, [5]⟩, ⟨5, "Bob", 1971, [-1]⟩]

/-- A table in which the only path from `1` to `5` goes through the code `-1`. -/
def table_through_minus_one : List attore :=
  [⟨-1, "Alice", 1970, [5]⟩, ⟨1, "Carol", 1972, [-1]⟩, ⟨5, "Bob", 1971, []⟩]

/-- A table whose only record has code `-1`. -/
def table_only_minus_one : List attore :=
  [⟨-1, "Alice", 1970, []⟩]

/-! ## Bounded line buffer

The operations are the critical sections of `line_buffer_put`, `line_buffer_get` and
`line_buffer_set_done`, executed under the buffer's mutex. A thread whose wait condition
holds stays in its `while` loop and changes nothing; the body after the loop runs in a
state in which the wait condition is false. -/

/-- Record `line_buffer_t` of `cammini.c` without the mutex and the condition variables;
`buffer` holds the `capacity` cells of the array of lines. -/
structure line_buffer_t where
  buffer : List String
  capacity : Int
  count : Int
  head : Int
  tail : Int
  done_producing : Bool
deriving DecidableEq, Repr

/-- `line_buffer_init`: the cells of the fresh array are not initialised by the source and
hold the empty string here. -/
def line_buffer_init (capacity : Int) : line_buffer_t :=
  { buffer := List.replicate capacity.toNat "", capacity := capacity, count := 0,
    head := 0, tail := 0, done_producing := false }

/-- Condition of the `while` loop of `line_buffer_put`: the producer waits. -/
def line_buffer_put_waits (lb : line_buffer_t) : Bool :=
  lb.count == lb.capacity && !lb.done_producing

/-- Body of `line_buffer_put` after its wait loop; the `else` branch frees the line. -/
def line_buffer_put (lb : line_buffer_t) (line : String) : line_buffer_t :=
  if lb.count < lb.capacity then
    { lb with
      buffer := lb.buffer.set lb.tail.toNat line
      tail := (lb.tail + 1).tmod lb.capacity
      count := lb.count + 1 }
  else lb

/-- Condition of the `while` loop of `line_buffer_get`: the consumer waits. -/
def line_buffer_get_waits (lb : line_buffer_t) : Bool :=
  lb.count == 0 && !lb.done_producing

/-- Body of `line_buffer_get` after its wait loop: the returned line (`none` is `NULL`)
and the buffer after the call. -/
def line_buffer_get (lb : line_buffer_t) : Option String × line_buffer_t :=
  if lb.count > 0 then
    (some (lb.buffer.getD lb.head.toNat ""),
      { lb with head := (lb.head + 1).tmod lb.capacity, count := lb.count - 1 })
  else if lb.done_producing && lb.count == 0 then (none, lb)
  else (none, lb)

/-- `line_buffer_set_done`. -/
def line_buffer_set_done (lb : line_buffer_t) : line_buffer_t :=
  { lb with done_producing := true }

/-- One call on the buffer, by any thread. -/
inductive lb_op where
  | put (line : String)
  | get
  | set_done
deriving DecidableEq, Repr

/-- A buffer together with the history of its use: the lines that `line_buffer_put` has
stored and the lines that `line_buffer_get` has returned, both in order of occurrence. -/
structure lb_history where
  lb : line_buffer_t
  enqueued : List String
  returned : List String
deriving DecidableEq, Repr

/-- One call taken to its end, or left waiting (nothing changes) when its wait condition
holds. -/
def lb_step (h : lb_history) : lb_op → lb_history
  | .put line =>
    if line_buffer_put_waits h.lb then h
    else
      { h with
        lb := line_buffer_put h.lb line
        enqueued := if h.lb.count < h.lb.capacity then h.enqueued ++ [line] else h.enqueued }
  | .get =>
    if line_buffer_get_waits h.lb then h
    else
      match (line_buffer_get h.lb).1 with
      | some line => { h with lb := (line_buffer_get h.lb).2, returned := h.returned ++ [line] }
      | none => { h with lb := (line_buffer_get h.lb).2 }
  | .set_done => { h with lb := line_buffer_set_done h.lb }

/-- A sequence of calls on a buffer created by `line_buffer_init capacity`. -/
def lb_run (capacity : Int) (ops : List lb_op) : lb_history :=
  ops.foldl lb_step ⟨line_buffer_init capacity, [], []⟩

/-- Data-model invariant of the buffer: `0 ≤ count ≤ capacity`, `head` and `tail` inside
`[0, capacity)`, `tail` is `count` cells after `head` around the ring, and the array has
`capacity` cells. -/
def lb_inv (lb : line_buffer_t) : Prop :=
  0 < lb.capacity ∧ 0 ≤ lb.count ∧ lb.count ≤ lb.capacity ∧
  0 ≤ lb.head ∧ lb.head < lb.capacity ∧ 0 ≤ lb.tail ∧ lb.tail < lb.capacity ∧
  lb.tail = (lb.head + lb.count) % lb.capacity ∧
  (lb.buffer.length : Int) = lb.capacity

instance (lb : line_buffer_t) : Decidable (lb_inv lb) := by
  unfold lb_inv; infer_instance

/-- The lines queued in the buffer, oldest first: the `n` cells from `head` around the
ring. -/
def lb_cells (buffer : List String) (capacity : Int) : Nat → Int → List String
  | 0, _ => []
  | n + 1, head => buffer.getD head.toNat "" :: lb_cells buffer capacity n ((head + 1) % capacity)

/-- The queued lines of a buffer. -/
def lb_contents (lb : line_buffer_t) : List String :=
  lb_cells lb.buffer lb.capacity lb.count.toNat lb.head

/-- A buffer of capacity 2 with one queued line, after `line_buffer_set_done`. -/
def lb_queued_done : line_buffer_t := ⟨["a", "b"], 2, 1, 1, 0, true⟩

/-- A full buffer of capacity 2, after `line_buffer_set_done`. -/
def lb_full_done : line_buffer_t := ⟨["a", "b"], 2, 2, 1, 1, true⟩

/-! ## Ingest: names file, graph lines

Text is modelled by `String`; a file is the list of the lines that `getline` returns,
each with its final newline when it has one. `strtok`, `strtok_r`, `atoi` and `qsort`
belong to the C library and are modelled by their contracts' usual implementations. -/

/-- The successive tokens that `strtok` or `strtok_r` returns on a string: the maximal
runs of characters that are not in the delimiter set. `tok` is the run being read,
reversed. -/
def strtok_loop (delim : List Char) : List Char → List Char → List String
  | [], tok => if tok.isEmpty then [] else [String.mk tok.reverse]
  | c :: cs, tok =>
    if c ∈ delim then
      if tok.isEmpty then strtok_loop delim cs []
      else String.mk tok.reverse :: strtok_loop delim cs []
    else strtok_loop delim cs (c :: tok)

/-- All the tokens of `s` for the delimiter set `delim`. -/
def strtok_tokens (s : String) (delim : List Char) : List String :=
  strtok_loop delim s.data []

/-- C `isspace` in the C locale. -/
def isspace (c : Char) : Bool :=
  c = ' ' || c = '\t' || c = '\n' || c = '\r' || c.toNat = 11 || c.toNat = 12

/-- Value of the leading decimal digits of a character list, after the value `acc`. -/
def atoi_digits : List Char → Nat → Nat
  | [], acc => acc
  | c :: cs, acc =>
    if c.isDigit then atoi_digits cs (acc * 10 + (c.toNat - 48)) else acc

/-- The C library's `atoi`: leading white space, an optional sign, decimal digits. A value
outside the range of `long` is clamped as `strtol` does, and the conversion to `int`
keeps the low 32 bits (the C standard leaves this case undefined). -/
def atoi (s : String) : Int :=
  let cs := s.data.dropWhile isspace
  let v : Int :=
    match cs with
    | '-' :: ds => -(atoi_digits ds 0 : Int)
    | '+' :: ds => (atoi_digits ds 0 : Int)
    | ds => (atoi_digits ds 0 : Int)
  toI32 (toU32 (max (-9223372036854775808) (min 9223372036854775807 v)))

/-- The line without its final newline, as after `line[read_len - 1] = 0`. -/
def strip_newline (line : String) : String :=
  if line.data.getLast? = some '\n' then String.mk line.data.dropLast else line

/-- The C string that starts at the first byte of a buffer: the bytes before the first
NUL byte. -/
def c_string (buf : String) : String :=
  String.mk (buf.data.takeWhile fun c => c.toNat ≠ 0)

/-- One iteration of the second `getline` loop of `main` on the names file: the record
of a line of more than one byte that has three TAB-separated fields. `getline` returns
the bytes of the line, NUL bytes included; `strtok` reads the buffer as a C string. -/
def parse_nomi_line (line : String) : Option attore :=
  if line.utf8ByteSize ≤ 1 then none
  else
    match strtok_tokens (c_string (strip_newline line)) ['\t'] with
    | codice_str :: nome_str :: anno_str :: _ =>
      some { codice := atoi codice_str, nome := nome_str, anno := atoi anno_str, cop := [] }
    | _ => none

/-- The first `getline` loop of `main`: the number of lines of more than one byte. -/
def count_nomi_lines (lines : List String) : Nat :=
  (lines.filter fun line => line.utf8ByteSize > 1).length

/-- The second `getline` loop of `main`, `while (getline(...) != -1 && current_idx <
tota_attori)`; `attori_arr` holds the cells `[0, current_idx)`. -/
def read_nomi_loop (tota_attori : Nat) : List String → List attore → List attore
  | [], attori_arr => attori_arr
  | line :: rest, attori_arr =>
    if attori_arr.length < tota_attori then
      match parse_nomi_line line with
      | some a => read_nomi_loop tota_attori rest (attori_arr ++ [a])
      | none => read_nomi_loop tota_attori rest attori_arr
    else attori_arr

/-- The C library's `qsort` with `compare_attori`: some rearrangement of the array that
is sorted for the comparison function. The order it gives to records that compare equal
is not fixed by the standard; this model keeps their input order. -/
def qsort (attori_arr : List attore) : List attore :=
  attori_arr.insertionSort fun a b => compare_attori a b ≤ 0

/-- Construction of the node table in `main` from the lines of the names file; `none` is
the `exit(EXIT_FAILURE)` taken when no line has more than one byte. -/
def build_node_table (lines : List String) : Option (List attore) :=
  if count_nomi_lines lines = 0 then none
  else some (qsort (read_nomi_loop (count_nomi_lines lines) lines []))

/-- The loop of `bsearch` of `bsearch_loop`, returning the index of the cell instead of
the record: the pointer that `find_attore_by_codice` returns. -/
def bsearch_index_loop (key : attore) (base : List attore) : Nat → Nat → Nat → Option Nat
  | 0, _, _ => none
  | fuel + 1, l, u =>
    if l < u then
      let idx := (l + u) / 2
      match base[idx]? with
      | none => none
      | some p =>
        let comparison := compare_attori key p
        if comparison < 0 then bsearch_index_loop key base fuel l idx
        else if comparison > 0 then bsearch_index_loop key base fuel (idx + 1) u
        else some idx
    else none

/-- Index of the cell that `find_attore_by_codice` points to. -/
def find_attore_index (codice : Int) (attori_arr : List attore) : Option Nat :=
  bsearch_index_loop { codice := codice, nome := "", anno := 0, cop := [] } attori_arr
    attori_arr.length 0 attori_arr.length

/-- The `while (token != NULL)` loop of `consumer_thread_func`: every token is converted
and appended to `cop` (the array grows by doubling when it is full). -/
def consumer_cop_loop : List String → List Int → List Int
  | [], cop => cop
  | token :: rest, cop => consumer_cop_loop rest (cop ++ [atoi token])

/-- One iteration of the loop of `consumer_thread_func` on a line of the graph file: the
table after the line has been processed. -/
def consumer_line (attori_arr : List attore) (line : String) : List attore :=
  match strtok_tokens line [' ', '\t', '\n'] with
  | [] => attori_arr
  | token :: rest =>
    match find_attore_index (atoi token) attori_arr with
    | none => attori_arr
    | some i =>
      match attori_arr[i]? with
      | none => attori_arr
      | some current_actor =>
        attori_arr.set i { current_actor with cop := consumer_cop_loop rest [] }

/-- The lines that the consumers take from the buffer, processed one after the other. -/
def consumer_thread_func (attori_arr : List attore) (lines : List String) : List attore :=
  lines.foldl consumer_line attori_arr

/-- Code of the head of a graph line: the value of its first token, if it has one. -/
def head_codice (line : String) : Option Int :=
  (strtok_tokens line [' ', '\t', '\n']).head?.map atoi

/-- A names file in which two records have the same code. -/
def nomi_duplicate_code : List String := ["1\tAlice\t1970\n", "1\tBob\t1971\n"]

/-- A names file whose only line has a NUL byte inside its second field. -/
def nomi_nul : List String := ["1\tAl\x00ice\t1970\n"]

/-- A names file in file order 3, 1, 2, with an empty line and a line of two fields. -/
def nomi_three : List String :=
  ["3\tCarol\t1972\n", "\n", "1\tAlice\t1970\n", "x\ty\n", "2\tBob\t1971\n"]

/-- The lines of the graph file of the specification's scenario 3. -/
def grafo_two_hop : List String := ["1 2\n", "2 1 3\n", "3 2\n"]

/-- The node table of the specification's scenarios before the graph file is read. -/
def table_no_edges : List attore :=
  [⟨1, "Alice", 1970, []⟩, ⟨2, "Bob", 1971, []⟩, ⟨3, "Carol", 1972, []⟩]

/-! ## Index entries, instrumented search, loop states -/

/-- The cells of the index, in order of the tree from left to right: for each cell its
`shuffled_codice`, `original_codice` and `parent_codice`. -/
def abr_entries : abr_node_t → List (Int × Int × Int)
  | .NULL => []
  | .node sc oc pc left right => abr_entries left ++ (sc, oc, pc) :: abr_entries right

/-- The tree built from the empty tree by a sequence of `abr_insert` calls, each given as
(shuffled key, original key, parent key). -/
def abr_build (calls : List (Int × Int × Int)) : abr_node_t :=
  calls.foldl (fun t c => abr_insert t c.1 c.2.1 c.2.2) .NULL

/-- The `for` loop `bfs_visit` with a log: `log` receives the code of every
`abr_insert` / `fifo_queue_enqueue` pair that is executed, in order. -/
def bfs_visit_log (key : Int → Int) (current_codice : Int) :
    List Int → fifo_queue_t → abr_node_t → List Int → fifo_queue_t × abr_node_t × List Int
  | [], queue, explored_root, log => (queue, explored_root, log)
  | neighbor_codice :: rest, queue, explored_root, log =>
    match abr_search explored_root (key neighbor_codice) with
    | .NULL =>
      bfs_visit_log key current_codice rest (fifo_queue_enqueue queue neighbor_codice)
        (abr_insert explored_root (key neighbor_codice) neighbor_codice current_codice)
        (log ++ [neighbor_codice])
    | .node _ _ _ _ _ => bfs_visit_log key current_codice rest queue explored_root log

/-- The search loop `bfs_loop` with the log of the inserted and enqueued codes. -/
def bfs_loop_log (key : Int → Int) (attori_arr : List attore) (end_codice_orig : Int) :
    Nat → fifo_queue_t → abr_node_t → List Int → Option (bfs_state × List Int)
  | 0, _, _, _ => none
  | fuel + 1, queue, explored_root, log =>
    if fifo_queue_is_empty queue then some (⟨false, queue, explored_root⟩, log)
    else
      match fifo_queue_dequeue queue with
      | none => some (⟨false, queue, explored_root⟩, log)
      | some (current_codice, queue1) =>
        if current_codice = end_codice_orig then some (⟨true, queue1, explored_root⟩, log)
        else
          match find_attore_by_codice current_codice attori_arr with
          | none => bfs_loop_log key attori_arr end_codice_orig fuel queue1 explored_root log
          | some current_attore_obj =>
            let r := bfs_visit_log key current_codice current_attore_obj.cop queue1
              explored_root log
            bfs_loop_log key attori_arr end_codice_orig fuel r.1 r.2.1 r.2.2

/-- One iteration of the search loop that does not leave it: the frontier and the index
at the next loop test. `none` when the loop is left (empty frontier, or the end code is
dequeued). -/
def bfs_step (key : Int → Int) (attori_arr : List attore) (end_codice_orig : Int)
    (queue : fifo_queue_t) (explored_root : abr_node_t) :
    Option (fifo_queue_t × abr_node_t) :=
  match fifo_queue_dequeue queue with
  | none => none
  | some (current_codice, queue1) =>
    if current_codice = end_codice_orig then none
    else
      match find_attore_by_codice current_codice attori_arr with
      | none => some (queue1, explored_root)
      | some current_attore_obj =>
        some (bfs_visit key current_codice current_attore_obj.cop queue1 explored_root)

/-- The frontier and the index at the loop test that follows `n` iterations, when the
loop runs that long. -/
def bfs_iterate (key : Int → Int) (attori_arr : List attore) (end_codice_orig : Int) :
    Nat → fifo_queue_t → abr_node_t → Option (fifo_queue_t × abr_node_t)
  | 0, queue, explored_root => some (queue, explored_root)
  | n + 1, queue, explored_root =>
    match bfs_step key attori_arr end_codice_orig queue explored_root with
    | none => none
    | some r => bfs_iterate key attori_arr end_codice_orig n r.1 r.2

/-- The `if (path_found)` branch of `bfs_thread_func` on the index `explored_root`: path
reconstruction, printing loop and summary line. -/
def bfs_report_path (key : Int → Int) (fuel : Nat) (attori_arr : List attore)
    (start_codice_orig end_codice_orig : Int) (explored_root : abr_node_t) :
    Option bfs_output :=
  match trace_loop key explored_root attori_arr.length fuel end_codice_orig [] with
  | none => none
  | some path =>
    some ⟨print_path attori_arr path,
      some (.lunghezza_minima start_codice_orig end_codice_orig
        (if path.length > 0 then path.length - 1 else 0))⟩

/-- Following parent fields from `c` in the index reaches the sentinel `-1` within `n`
cells, every cell on the way being found by `abr_search`. -/
def chain_reaches_sentinel (key : Int → Int) (t : abr_node_t) : Nat → Int → Bool
  | 0, c => c == -1
  | n + 1, c =>
    c == -1 ||
      match abr_lookup t (key c) with
      | none => false
      | some x => chain_reaches_sentinel key t n x.2

/-- There is a path of exactly `n` edges from `u` to `v`. -/
def walk (attori_arr : List attore) : Nat → Int → Int → Prop
  | 0, u, v => u = v
  | n + 1, u, v => ∃ w, walk attori_arr n u w ∧ edge attori_arr w v

/-- Following parent fields from `c` in the index reaches the start code `s` after
exactly `n` steps. -/
def parent_chain (key : Int → Int) (t : abr_node_t) (s : Int) : Nat → Int → Prop
  | 0, c => c = s
  | n + 1, c => c ≠ s ∧ ∃ x, abr_lookup t (key c) = some x ∧ parent_chain key t s n x.2

/-- Invariant of the search loop on the index keyed by the codes, with the depth `lev` of
every bound code: the start is bound at depth 0; a bound code other than the start has a
bound parent one level up of which it is a neighbor; the frontier is sorted by depth and
spans at most two depths; no bound code is deeper than one level below the frontier's
cells; a bound code is in the frontier or is not deeper than the frontier and has all
its neighbors bound at most one level down; and no path from the start to a bound code
is shorter than its depth. -/
def bfs_level_inv (attori_arr : List attore) (s : Int) (lev : Int → Nat)
    (q : fifo_queue_t) (t : abr_node_t) : Prop :=
  (abr_lookup t s = some (s, -1) ∧ lev s = 0) ∧
  (∀ c x, abr_lookup t c = some x →
    x.1 = c ∧ (c = s ∨ (abr_lookup t x.2 ≠ none ∧ edge attori_arr x.2 c ∧
      lev c = lev x.2 + 1))) ∧
  q.Pairwise (fun x y => lev x ≤ lev y) ∧
  (∀ x ∈ q, ∀ y ∈ q, lev y ≤ lev x + 1) ∧
  (∀ x ∈ q, abr_lookup t x ≠ none) ∧
  (∀ c, abr_lookup t c ≠ none →
    c ∈ q ∨ ((∀ x ∈ q, lev c ≤ lev x) ∧
      ∀ n, edge attori_arr c n → abr_lookup t n ≠ none ∧ lev n ≤ lev c + 1)) ∧
  (∀ c, abr_lookup t c ≠ none → ∀ x ∈ q, lev c ≤ lev x + 1) ∧
  (∀ c, abr_lookup t c ≠ none → ∀ m, walk attori_arr m s c → lev c ≤ m)

/-- A table of two records. -/
def table_pair : List attore := [⟨1, "Alice", 1970, [2]⟩, ⟨2, "Bob", 1971, [1]⟩]

/-- An index keyed by `shuffle` in which the parent of 1 is 2 and the parent of 2 is 1:
the parent chain from 1 is a cycle. -/
def abr_cyclic : abr_node_t :=
  abr_insert (abr_insert .NULL (shuffle 1) 1 2) (shuffle 2) 2 1

/-- Every cell of the tree is the one that `abr_search` returns for its key. -/
def abr_found (t : abr_node_t) : Prop :=
  ∀ e ∈ abr_entries t, abr_lookup t e.1 = some e.2

/-- Every cell of the index keyed by `key` is found by `abr_search`, is stored under the
key of its original code, and its original code is a C `int`. -/
def idx_wf (key : Int → Int) (t : abr_node_t) : Prop :=
  abr_found t ∧ ∀ c ∈ abr_entries t, c.1 = key c.2.1 ∧ isInt32 c.2.1

/-- The index that the search on `table_two_hop` from 1 has built when it reaches 3. -/
def abr_two_hop : abr_node_t :=
  abr_insert (abr_insert (abr_insert .NULL (shuffle 1) 1 (-1)) (shuffle 2) 2 1) (shuffle 3) 3 2

/-! ## FIFO frontier in memory

The frontier as `cammini.c` lays it out: `q_node_t` cells linked by `next` pointers and
the two pointers `head` and `tail` of `fifo_queue_t`. An address is a position of the
heap; `xmalloc` returns the first position after the heap, `free` empties a position.
A function that dereferences a pointer to no cell has no result (`none`). -/

/-- Cell `q_node_t`; `next` is an address, `none` is `NULL`. -/
structure q_node_t where
  codice : Int
  next : Option Nat
deriving DecidableEq, Repr

/-- The heap of `q_node_t` cells (a freed position is `none`) and the fields `head` and
`tail` of the `fifo_queue_t` that `fifo_queue_create` allocated. -/
structure fifo_queue_mem where
  heap : List (Option q_node_t)
  head : Option Nat
  tail : Option Nat
deriving DecidableEq, Repr

/-- `fifo_queue_create`: `q->head = q->tail = NULL`. -/
def fifo_queue_create_mem : fifo_queue_mem := ⟨[], none, none⟩

/-- `fifo_queue_enqueue`, on the memory. -/
def fifo_queue_enqueue_mem (q : fifo_queue_mem) (codice : Int) : Option fifo_queue_mem :=
  let newNode := q.heap.length
  let heap1 := q.heap ++ [some ⟨codice, none⟩]
  match q.tail with
  | none => some ⟨heap1, some newNode, some newNode⟩
  | some tail =>
    match heap1[tail]? with
    | some (some cell) =>
      some ⟨heap1.set tail (some ⟨cell.codice, some newNode⟩), q.head, some newNode⟩
    | _ => none

/-- `fifo_queue_dequeue`, on the memory. `codice_out` is the value of `*codice_out`
before the call; the result is the return value, the value of `*codice_out` after the
call, and the memory. -/
def fifo_queue_dequeue_mem (q : fifo_queue_mem) (codice_out : Int) :
    Option (Int × Int × fifo_queue_mem) :=
  match q.head with
  | none => some (0, codice_out, q)
  | some temp =>
    match q.heap[temp]? with
    | some (some cell) =>
      let head1 := cell.next
      let tail1 := if head1 = none then none else q.tail
      some (1, cell.codice, ⟨q.heap.set temp none, head1, tail1⟩)
    | _ => none

/-- `fifo_queue_is_empty`, on the memory. -/
def fifo_queue_is_empty_mem (q : fifo_queue_mem) : Bool := q.head == none

/-- A call of the queue interface. -/
inductive fifo_op where
  | enqueue (codice : Int)
  | dequeue
deriving DecidableEq, Repr

/-- The memory of the queue and of the variable that receives the dequeued codes, with
the history of the calls: the codes passed to `fifo_queue_enqueue`, and the codes written
by the calls of `fifo_queue_dequeue` that returned 1, both in call order. -/
structure fifo_history where
  q : fifo_queue_mem
  codice_out : Int
  enqueued : List Int
  returned : List Int
deriving DecidableEq, Repr

/-- One call on the memory, recorded in the history. -/
def fifo_step (h : fifo_history) : fifo_op → Option fifo_history
  | .enqueue codice =>
    match fifo_queue_enqueue_mem h.q codice with
    | none => none
    | some q1 => some ⟨q1, h.codice_out, h.enqueued ++ [codice], h.returned⟩
  | .dequeue =>
    match fifo_queue_dequeue_mem h.q h.codice_out with
    | none => none
    | some (ret, out, q1) =>
      some ⟨q1, out, h.enqueued, if ret = 0 then h.returned else h.returned ++ [out]⟩

/-- A sequence of calls on the queue that `fifo_queue_create` returns; `codice_out` is
the initial value of the receiving variable. -/
def fifo_run (codice_out : Int) (ops : List fifo_op) : Option fifo_history :=
  ops.foldlM fifo_step ⟨fifo_queue_create_mem, codice_out, [], []⟩

/-- The cells `cells` (address and code) are linked from the pointer `p` to `NULL`. -/
def fifo_linked (heap : List (Option q_node_t)) : Option Nat → List (Nat × Int) → Prop
  | p, [] => p = none
  | p, n :: rest =>
    p = some n.1 ∧ ∃ nx, heap[n.1]? = some (some ⟨n.2, nx⟩) ∧ fifo_linked heap nx rest

/-- The memory holds the queue made of `cells`: they are linked from `head`, their
addresses are distinct, and `tail` is the address of the last one (`NULL` with no
cell). -/
def fifo_repr (q : fifo_queue_mem) (cells : List (Nat × Int)) : Prop :=
  fifo_linked q.heap q.head cells ∧ (cells.map Prod.fst).Nodup ∧
    q.tail = cells.getLast?.map Prod.fst

/-! ## Order of the explored/parent index -/

/-- Binary-search-tree order on `shuffled_codice`: at every cell the keys of the left
subtree are smaller and the keys of the right subtree are larger. The order is that of
`Int`, the one that `<` has on the C type `int`. -/
def abr_ordered : abr_node_t → Prop
  | .NULL => True
  | .node sc _ _ left right =>
    (∀ e ∈ abr_entries left, e.1 < sc) ∧ (∀ e ∈ abr_entries right, sc < e.1) ∧
      abr_ordered left ∧ abr_ordered right

/-- A sequence of three `abr_insert` calls, the last with the key of the first. -/
def calls_repeated_key : List (Int × Int × Int) := [(5, 50, -1), (3, 30, 50), (5, 51, 30)]

/-! ## Counting the dequeues of the search loop -/

/-- The search loop `bfs_loop` with the count of its `fifo_queue_dequeue` calls: one per
iteration that passes the loop test. -/
def bfs_loop_count (key : Int → Int) (attori_arr : List attore) (end_codice_orig : Int) :
    Nat → fifo_queue_t → abr_node_t → Nat → Option (bfs_state × Nat)
  | 0, _, _, _ => none
  | fuel + 1, queue, explored_root, dequeues =>
    if fifo_queue_is_empty queue then some (⟨false, queue, explored_root⟩, dequeues)
    else
      match fifo_queue_dequeue queue with
      | none => some (⟨false, queue, explored_root⟩, dequeues)
      | some (current_codice, queue1) =>
        if current_codice = end_codice_orig then
          some (⟨true, queue1, explored_root⟩, dequeues + 1)
        else
          match find_attore_by_codice current_codice attori_arr with
          | none =>
            bfs_loop_count key attori_arr end_codice_orig fuel queue1 explored_root
              (dequeues + 1)
          | some current_attore_obj =>
            let r := bfs_visit key current_codice current_attore_obj.cop queue1 explored_root
            bfs_loop_count key attori_arr end_codice_orig fuel r.1 r.2 (dequeues + 1)

/-- The neighbor codes of the table whose key is not bound in the index keyed by `key`. -/
def unexplored_key (key : Int → Int) (attori_arr : List attore) (t : abr_node_t) :
    Finset Int :=
  (neighbor_codes attori_arr).filter fun c => abr_lookup t (key c) = none

/-- A table with a cycle, a self-loop, a duplicate neighbor and a neighbor code that no
record has. -/
def table_cyclic : List attore :=
  [⟨1, "Alice", 1970, [1, 2, 2, 9]⟩, ⟨2, "Bob", 1971, [3, 1]⟩, ⟨3, "Carol", 1972, [1]⟩]

/-! ## Exits of the path reconstruction -/

/-- How the reconstruction loop `while (trace_codice != -1)` is left: by its condition,
with the cells `path[0..path_len)` written; by the `break` of the branch
`path_len >= tota_attori`; or by the `break` of the branch `!node_in_path`. -/
inductive trace_exit where
  | sentinel (path : List Int)
  | path_too_long
  | node_not_found
deriving DecidableEq, Repr

/-- The reconstruction loop `trace_loop`, with the exit taken. -/
def trace_loop_exit (key : Int → Int) (explored_root : abr_node_t) (tota_attori : Nat) :
    Nat → Int → List Int → Option trace_exit
  | 0, _, _ => none
  | fuel + 1, trace_codice, path =>
    if trace_codice = -1 then some (.sentinel path)
    else if path.length ≥ tota_attori then some .path_too_long
    else
      match abr_search explored_root (key trace_codice) with
      | .NULL => some .node_not_found
      | .node _ _ parent_codice _ _ =>
        trace_loop_exit key explored_root tota_attori fuel parent_codice
          (path ++ [trace_codice])

/-- The cells `path[0..path_len)` after the loop: both error branches set
`path_len = 0`. -/
def trace_exit.cells : trace_exit → List Int
  | .sentinel path => path
  | .path_too_long => []
  | .node_not_found => []

/-! ## Theorems: machine integers and `shuffle` -/

theorem toU32_lt (n : Int) : toU32 n < 4294967296 := by
  unfold toU32; omega

theorem toI32_toU32 (n : Int) (h : isInt32 n) : toI32 (toU32 n) = n := by
  unfold isInt32 at h
  unfold toI32 toU32
  split <;> omega

theorem toU32_toI32 (u : Nat) (h : u < 4294967296) : toU32 (toI32 u) = u := by
  unfold toI32 toU32
  split <;> omega

theorem isInt32_toI32 (u : Nat) : isInt32 (toI32 u) := by
  unfold isInt32 toI32
  split <;> omega

theorem land_63 (u : Nat) : u &&& 0x3F = u % 64 :=
  Nat.and_pow_two_sub_one_eq_mod u 6

theorem land_3FFFFFF (u : Nat) : u &&& 0x3FFFFFF = u % 67108864 :=
  Nat.and_pow_two_sub_one_eq_mod u 26

theorem lor_high_low (a b : Nat) (hb : b < 67108864) :
    a * 67108864 ||| b = a * 67108864 + b := by
  have h := Nat.mul_add_lt_is_or (i := 26) (b := b) (by simpa using hb) a
  rw [Nat.mul_comm] at h
  simpa using h.symm

theorem toU32_shiftRight6 (n : Int) :
    toU32 (n >>> (6 : Nat)) % 67108864 = toU32 n / 64 := by
  have : n >>> (6 : Nat) = n / 64 := by
    rw [Int.shiftRight_eq_div_pow]; norm_num
  rw [this]
  unfold toU32
  omega

/-- Arithmetic form of the bit pattern computed by `shuffle` before the final XOR. -/
theorem shuffle_pattern (n : Int) :
    toU32 (shuffle n) = ((toU32 n % 64) * 67108864 + toU32 n / 64) ^^^ 0x55555555 := by
  have hu := toU32_lt n
  unfold shuffle
  rw [land_63, land_3FFFFFF, toU32_shiftRight6 n, Nat.shiftLeft_eq]
  have h1 : toU32 n % 64 * 2 ^ 26 % 4294967296 = toU32 n % 64 * 67108864 := by omega
  rw [h1, lor_high_low _ _ (by omega)]
  apply toU32_toI32
  exact Nat.xor_lt_two_pow (n := 32) (by norm_num; omega) (by norm_num)

theorem rotr32_6 (u : Nat) (hu : u < 4294967296) :
    rotr32 u 6 = (u % 64) * 67108864 + u / 64 := by
  unfold rotr32
  rw [Nat.shiftLeft_eq, Nat.shiftRight_eq_div_pow, Nat.lor_comm]
  have : u * 2 ^ (32 - 6) = u * 67108864 := by norm_num
  rw [this, lor_high_low _ _ (by omega)]
  omega

theorem isInt32_shuffle (n : Int) : isInt32 (shuffle n) := isInt32_toI32 _

theorem shuffle_inj (a b : Int) (ha : isInt32 a) (hb : isInt32 b)
    (h : shuffle a = shuffle b) : a = b := by
  have hp : toU32 (shuffle a) = toU32 (shuffle b) := by rw [h]
  rw [shuffle_pattern, shuffle_pattern] at hp
  have hq := congrArg (fun x => x ^^^ 0x55555555) hp
  simp only [Nat.xor_cancel_right] at hq
  have hua := toU32_lt a
  have hub := toU32_lt b
  have : toU32 a = toU32 b := by omega
  rw [← toI32_toU32 a ha, ← toI32_toU32 b hb, this]

theorem shuffle_surj (y : Int) (hy : isInt32 y) : ∃ n, isInt32 n ∧ shuffle n = y := by
  have hv : toU32 y ^^^ 0x55555555 < 4294967296 :=
    Nat.xor_lt_two_pow (n := 32) (by have := toU32_lt y; norm_num; omega) (by norm_num)
  generalize hvd : toU32 y ^^^ 0x55555555 = v at hv
  refine ⟨toI32 ((v % 67108864) * 64 + v / 67108864), isInt32_toI32 _, ?_⟩
  have hu : toU32 (toI32 ((v % 67108864) * 64 + v / 67108864))
      = (v % 67108864) * 64 + v / 67108864 := toU32_toI32 _ (by omega)
  have hp := shuffle_pattern (toI32 ((v % 67108864) * 64 + v / 67108864))
  rw [hu] at hp
  have hv2 : ((v % 67108864) * 64 + v / 67108864) % 64 * 67108864
      + ((v % 67108864) * 64 + v / 67108864) / 64 = v := by omega
  have hx : v ^^^ 0x55555555 = toU32 y := by rw [← hvd, Nat.xor_cancel_right]
  rw [hv2, hx] at hp
  rw [← toI32_toU32 _ (isInt32_shuffle _), hp, toI32_toU32 y hy]

/-- C7. `shuffle` is a bijection on the 32-bit integers: it maps them to 32-bit integers,
it is injective on them, and every 32-bit integer is the image of one. -/
theorem shuffle_bijective_on_int32 :
    (∀ n : Int, isInt32 (shuffle n)) ∧
    (∀ a b : Int, isInt32 a → isInt32 b → shuffle a = shuffle b → a = b) ∧
    (∀ y : Int, isInt32 y → ∃ n : Int, isInt32 n ∧ shuffle n = y) :=
  ⟨isInt32_shuffle, shuffle_inj, shuffle_surj⟩

theorem shuffle_bijective_on_int32_witness :
    isInt32 (-1) ∧ (shuffle (-1) = shuffle (-1) → (-1 : Int) = -1) ∧
      ∃ n : Int, isInt32 n ∧ shuffle n = -1 :=
  ⟨by decide,
   shuffle_bijective_on_int32.2.1 (-1) (-1) (by decide) (by decide),
   shuffle_bijective_on_int32.2.2 (-1) (by decide)⟩

/-- C8. For every 32-bit integer `n`, negative or not, the bit pattern of `shuffle n` is
the pattern of `n` rotated right by 6 bits, XOR `0x55555555`; the rotation puts the low
6 bits of `n` on top of its upper 26 bits, which move down with no sign extension. -/
theorem shuffle_eq_rotr6_xor (n : Int) (h : isInt32 n) :
    toU32 (shuffle n) = rotr32 (toU32 n) 6 ^^^ 0x55555555 ∧
    rotr32 (toU32 n) 6 = (toU32 n % 64) * 67108864 + toU32 n / 64 ∧
    toI32 (toU32 n) = n := by
  refine ⟨?_, rotr32_6 _ (toU32_lt n), toI32_toU32 n h⟩
  rw [shuffle_pattern, rotr32_6 _ (toU32_lt n)]

theorem shuffle_eq_rotr6_xor_witness :
    isInt32 (-2147483648) ∧
    toU32 (shuffle (-2147483648)) = rotr32 (toU32 (-2147483648)) 6 ^^^ 0x55555555 ∧
    rotr32 (toU32 (-2147483648)) 6
      = (toU32 (-2147483648) % 64) * 67108864 + toU32 (-2147483648) / 64 ∧
    toI32 (toU32 (-2147483648)) = -2147483648 :=
  ⟨by decide, shuffle_eq_rotr6_xor (-2147483648) (by decide)⟩

/-! ## Theorems: node table lookup -/

theorem compare_attori_lt (a b : attore) : compare_attori a b < 0 ↔ a.codice < b.codice := by
  unfold compare_attori
  split
  · simp [*]
  · split <;> simp [*]

theorem compare_attori_gt (a b : attore) : compare_attori a b > 0 ↔ a.codice > b.codice := by
  unfold compare_attori
  split
  · simp; omega
  · split <;> simp [*]

theorem compare_attori_eq (a b : attore) : compare_attori a b = 0 ↔ a.codice = b.codice := by
  unfold compare_attori
  split
  · simp; omega
  · split
    · simp; omega
    · simp; omega

/-- A record returned by the binary search is in the table and compares equal to the key. -/
theorem bsearch_loop_some (key : attore) (base : List attore) (fuel l u : Nat) (p : attore)
    (h : bsearch_loop key base fuel l u = some p) : p ∈ base ∧ p.codice = key.codice := by
  induction fuel generalizing l u with
  | zero => simp [bsearch_loop] at h
  | succ fuel ih =>
    unfold bsearch_loop at h
    split at h
    · dsimp only at h
      split at h
      · simp at h
      · rename_i q hq
        split at h
        · exact ih _ _ h
        · split at h
          · exact ih _ _ h
          · rename_i h1 h2
            have : compare_attori key q = 0 := by omega
            have hc := (compare_attori_eq key q).1 this
            simp only [Option.some.injEq] at h
            subst h
            exact ⟨List.getElem?_mem hq, hc.symm⟩
    · simp at h

theorem sorted_by_codice_getElem (base : List attore) (hs : sorted_by_codice base)
    (i j : Nat) (a b : attore) (hi : base[i]? = some a) (hj : base[j]? = some b)
    (hij : i ≤ j) : a.codice ≤ b.codice := by
  rcases Nat.eq_or_lt_of_le hij with h | h
  · subst h
    rw [hi] at hj
    simp only [Option.some.injEq] at hj
    subst hj
    exact le_refl _
  · obtain ⟨hi1, hi2⟩ := List.getElem?_eq_some.1 hi
    obtain ⟨hj1, hj2⟩ := List.getElem?_eq_some.1 hj
    have := (List.pairwise_iff_getElem.1 hs) i j hi1 hj1 h
    rw [hi2, hj2] at this
    exact this

/-- When the binary search on `[l, u)` of a sorted table fails, no cell of the range has
the key's code. -/
theorem bsearch_loop_none (key : attore) (base : List attore) (hs : sorted_by_codice base)
    (fuel l u : Nat) (hu : u ≤ base.length) (hf : u - l ≤ fuel)
    (h : bsearch_loop key base fuel l u = none) :
    ∀ i r, l ≤ i → i < u → base[i]? = some r → r.codice ≠ key.codice := by
  induction fuel generalizing l u with
  | zero => intro i r h1 h2; omega
  | succ fuel ih =>
    intro i r h1 h2 hr
    unfold bsearch_loop at h
    rw [if_pos (by omega : l < u)] at h
    dsimp only at h
    have hidx : (l + u) / 2 < base.length := by omega
    have hq : base[(l + u) / 2]? = some (base[(l + u) / 2]) := List.getElem?_eq_getElem hidx
    rw [hq] at h
    simp only at h
    split at h
    · rename_i hlt
      have hlt2 := (compare_attori_lt _ _).1 hlt
      by_cases hi : i < (l + u) / 2
      · exact ih l _ (by omega) (by omega) h i r h1 hi hr
      · have := sorted_by_codice_getElem base hs _ _ _ _ hq hr (by omega)
        omega
    · split at h
      · rename_i hgt
        have hgt2 := (compare_attori_gt _ _).1 hgt
        by_cases hi : (l + u) / 2 + 1 ≤ i
        · exact ih _ u hu (by omega) h i r hi h2 hr
        · have := sorted_by_codice_getElem base hs _ _ _ _ hr hq (by omega)
          omega
      · simp at h

theorem find_attore_by_codice_some (c : Int) (tbl : List attore) (p : attore)
    (h : find_attore_by_codice c tbl = some p) : p ∈ tbl ∧ p.codice = c :=
  bsearch_loop_some _ tbl _ _ _ p h

theorem find_attore_by_codice_none (c : Int) (tbl : List attore) (hs : sorted_by_codice tbl)
    (h : find_attore_by_codice c tbl = none) : ¬ has_codice tbl c := by
  rintro ⟨r, hr, hc⟩
  obtain ⟨i, hi, hir⟩ := List.getElem_of_mem hr
  have hir2 : tbl[i]? = some r := by rw [List.getElem?_eq_getElem hi, hir]
  exact bsearch_loop_none _ tbl hs _ 0 _ (le_refl _) (by omega) h i r (Nat.zero_le _) hi hir2 hc

theorem find_attore_by_codice_isSome (c : Int) (tbl : List attore) (hs : sorted_by_codice tbl)
    (h : has_codice tbl c) : ∃ r, find_attore_by_codice c tbl = some r := by
  cases hf : find_attore_by_codice c tbl with
  | none => exact absurd h (find_attore_by_codice_none c tbl hs hf)
  | some r => exact ⟨r, rfl⟩

theorem not_has_codice_find (c : Int) (tbl : List attore) (h : ¬ has_codice tbl c) :
    find_attore_by_codice c tbl = none := by
  cases hf : find_attore_by_codice c tbl with
  | none => rfl
  | some r =>
    have := find_attore_by_codice_some c tbl r hf
    exact absurd ⟨r, this.1, this.2⟩ h

theorem strictly_sorted_sorted (tbl : List attore) (h : strictly_sorted tbl) :
    sorted_by_codice tbl :=
  List.Pairwise.imp (fun hab => le_of_lt hab) h

/-- In a strictly sorted table the lookup of a record's code returns that record. -/
theorem find_attore_by_codice_mem (tbl : List attore) (hs : strictly_sorted tbl)
    (r : attore) (hr : r ∈ tbl) : find_attore_by_codice r.codice tbl = some r := by
  obtain ⟨p, hp⟩ := find_attore_by_codice_isSome r.codice tbl (strictly_sorted_sorted tbl hs)
    ⟨r, hr, rfl⟩
  obtain ⟨hp1, hp2⟩ := find_attore_by_codice_some _ _ _ hp
  rw [hp]
  by_contra hne
  have hne2 : p ≠ r := fun h => hne (by rw [h])
  have := List.Pairwise.forall_of_forall_of_flip (l := tbl)
    (R := fun a b => a.codice ≠ b.codice ∨ a = b) (fun _ _ => Or.inr rfl)
    (List.Pairwise.imp (fun hab => Or.inl (ne_of_lt hab)) hs)
    (List.Pairwise.imp (fun hab => Or.inl (ne_of_gt hab)) hs) hp1 hr
  rcases this with h | h
  · exact h hp2
  · exact hne2 h

/-- C10. On a table sorted ascending by code, `find_attore_by_codice` returns a record of
the table whose code is `c` when some record has code `c`, and none otherwise; and
`compare_attori` gives the sign of the comparison of the two codes, for all codes
(it compares, it does not subtract, so the extreme values do not overflow). -/
theorem find_attore_by_codice_correct (attori_arr : List attore) (c : Int)
    (hs : sorted_by_codice attori_arr) :
    (has_codice attori_arr c →
      ∃ r, find_attore_by_codice c attori_arr = some r ∧ r ∈ attori_arr ∧ r.codice = c) ∧
    (¬ has_codice attori_arr c → find_attore_by_codice c attori_arr = none) ∧
    (∀ a b : attore, (compare_attori a b < 0 ↔ a.codice < b.codice) ∧
      (compare_attori a b = 0 ↔ a.codice = b.codice) ∧
      (compare_attori a b > 0 ↔ a.codice > b.codice)) := by
  refine ⟨fun h => ?_, not_has_codice_find c attori_arr, fun a b =>
    ⟨compare_attori_lt a b, compare_attori_eq a b, compare_attori_gt a b⟩⟩
  obtain ⟨r, hr⟩ := find_attore_by_codice_isSome c attori_arr hs h
  exact ⟨r, hr, find_attore_by_codice_some c attori_arr r hr⟩

theorem find_attore_by_codice_correct_witness :
    (has_codice table_extremes 2147483647 →
      ∃ r, find_attore_by_codice 2147483647 table_extremes = some r ∧
        r ∈ table_extremes ∧ r.codice = 2147483647) ∧
    (¬ has_codice table_extremes 2147483647 →
      find_attore_by_codice 2147483647 table_extremes = none) ∧
    (∀ a b : attore, (compare_attori a b < 0 ↔ a.codice < b.codice) ∧
      (compare_attori a b = 0 ↔ a.codice = b.codice) ∧
      (compare_attori a b > 0 ↔ a.codice > b.codice)) :=
  find_attore_by_codice_correct table_extremes 2147483647 (by decide)

/-! ## Theorems: the explored/parent index as a map -/

theorem abr_lookup_NULL (k : Int) : abr_lookup .NULL k = none := rfl

theorem abr_lookup_node (sc oc pc : Int) (l r : abr_node_t) (k : Int) :
    abr_lookup (.node sc oc pc l r) k =
      if sc = k then some (oc, pc) else if k < sc then abr_lookup l k else abr_lookup r k := by
  unfold abr_lookup
  rw [abr_search]
  split_ifs <;> rfl

theorem abr_search_NULL_iff (t : abr_node_t) (k : Int) :
    abr_search t k = .NULL ↔ abr_lookup t k = none := by
  unfold abr_lookup
  split <;> simp [*]

/-- Lookup after `abr_insert`: the inserted key is bound to the new pair unless it was
already bound, in which case nothing changes; the other keys are not affected. -/
theorem abr_lookup_insert (t : abr_node_t) (k o p k2 : Int) :
    abr_lookup (abr_insert t k o p) k2 =
      if k2 = k then (match abr_lookup t k with
        | some x => some x
        | none => some (o, p))
      else abr_lookup t k2 := by
  induction t with
  | NULL =>
    rw [abr_insert, abr_lookup_node, abr_lookup_NULL, abr_lookup_NULL]
    by_cases h : k2 = k
    · simp [h]
    · have : ¬ k = k2 := fun h2 => h h2.symm
      simp [h, this]
  | node sc oc pc l r ihl ihr =>
    rw [abr_insert]
    by_cases h1 : k < sc
    · rw [if_pos h1, abr_lookup_node, abr_lookup_node, abr_lookup_node, ihl]
      by_cases h : k2 = k
      · subst h
        have : ¬ sc = k2 := by omega
        simp [this, h1]
      · simp only [h, if_false]
    · rw [if_neg h1]
      by_cases h2 : k > sc
      · rw [if_pos h2, abr_lookup_node, abr_lookup_node, abr_lookup_node, ihr]
        by_cases h : k2 = k
        · subst h
          have : ¬ sc = k2 := by omega
          simp [this, h1]
        · simp only [h, if_false]
      · rw [if_neg h2]
        have hk : sc = k := by omega
        subst hk
        by_cases h : k2 = sc
        · subst h
          simp [abr_lookup_node]
        · simp [h]

/-! ## Theorems: unfolding lemmas of the worker's loops -/

theorem bfs_visit_nil (key : Int → Int) (cur : Int) (q : fifo_queue_t) (t : abr_node_t) :
    bfs_visit key cur [] q t = (q, t) := rfl

theorem bfs_visit_cons (key : Int → Int) (cur n : Int) (rest : List Int) (q : fifo_queue_t)
    (t : abr_node_t) :
    bfs_visit key cur (n :: rest) q t =
      if abr_lookup t (key n) = none then
        bfs_visit key cur rest (q ++ [n]) (abr_insert t (key n) n cur)
      else bfs_visit key cur rest q t := by
  rw [bfs_visit]
  split
  · rename_i h
    rw [if_pos ((abr_search_NULL_iff _ _).1 h)]
    rfl
  · rename_i h
    have : ¬ abr_lookup t (key n) = none := by
      rw [← abr_search_NULL_iff, h]; simp
    rw [if_neg this]

theorem bfs_loop_zero (key : Int → Int) (tbl : List attore) (e : Int) (q : fifo_queue_t)
    (t : abr_node_t) : bfs_loop key tbl e 0 q t = none := rfl

theorem bfs_loop_nil (key : Int → Int) (tbl : List attore) (e : Int) (fuel : Nat)
    (t : abr_node_t) : bfs_loop key tbl e (fuel + 1) [] t = some ⟨false, [], t⟩ := rfl

theorem bfs_loop_cons (key : Int → Int) (tbl : List attore) (e : Int) (fuel : Nat)
    (c : Int) (q : fifo_queue_t) (t : abr_node_t) :
    bfs_loop key tbl e (fuel + 1) (c :: q) t =
      if c = e then some ⟨true, q, t⟩
      else match find_attore_by_codice c tbl with
        | none => bfs_loop key tbl e fuel q t
        | some a =>
          bfs_loop key tbl e fuel (bfs_visit key c a.cop q t).1 (bfs_visit key c a.cop q t).2 := by
  rw [bfs_loop]
  simp only [fifo_queue_is_empty, List.isEmpty_cons, Bool.false_eq_true, if_false,
    fifo_queue_dequeue]

theorem trace_loop_zero (key : Int → Int) (t : abr_node_t) (tota : Nat) (c : Int)
    (path : List Int) : trace_loop key t tota 0 c path = none := rfl

theorem trace_loop_succ (key : Int → Int) (t : abr_node_t) (tota fuel : Nat) (c : Int)
    (path : List Int) :
    trace_loop key t tota (fuel + 1) c path =
      if c = -1 then some path
      else if path.length ≥ tota then some []
      else match abr_lookup t (key c) with
        | none => some []
        | some x => trace_loop key t tota fuel x.2 (path ++ [c]) := by
  rw [trace_loop]
  unfold abr_lookup
  split_ifs
  · rfl
  · rfl
  · split <;> simp [*]

/-! ## Theorems: the key transformation does not affect the worker -/

theorem isInt32_neg_one : isInt32 (-1) := by decide

theorem idx_sim_insert (key : Int → Int)
    (hinj : ∀ a b, isInt32 a → isInt32 b → key a = key b → a = b)
    (t u : abr_node_t) (h : idx_sim key t u) (n p : Int) (hn : isInt32 n) (hp : isInt32 p) :
    idx_sim key (abr_insert t (key n) n p) (abr_insert u n n p) := by
  refine ⟨fun c hc => ?_, fun c x hx => ?_⟩
  · rw [abr_lookup_insert, abr_lookup_insert, h.1 n hn, h.1 c hc]
    by_cases hcn : c = n
    · subst hcn; simp
    · have : ¬ key c = key n := fun hk => hcn (hinj c n hc hn hk)
      simp [hcn, this]
  · rw [abr_lookup_insert] at hx
    split_ifs at hx
    · cases hl : abr_lookup u n with
      | none =>
        rw [hl] at hx
        simp only [Option.some.injEq] at hx
        rw [← hx]; exact hp
      | some y =>
        rw [hl] at hx
        simp only [Option.some.injEq] at hx
        rw [← hx]; exact h.2 n y hl
    · exact h.2 c x hx

theorem idx_sim_init (key : Int → Int)
    (hinj : ∀ a b, isInt32 a → isInt32 b → key a = key b → a = b) (s : Int) (hs : isInt32 s) :
    idx_sim key (abr_insert .NULL (key s) s (-1)) (abr_insert .NULL s s (-1)) := by
  apply idx_sim_insert key hinj _ _ _ s (-1) hs isInt32_neg_one
  exact ⟨fun c _ => rfl, fun c x hx => by simp [abr_lookup_NULL] at hx⟩

theorem bfs_visit_queue_mem (key : Int → Int) (cur : Int) (cop : List Int)
    (q : fifo_queue_t) (t : abr_node_t) (x : Int)
    (hx : x ∈ (bfs_visit key cur cop q t).1) : x ∈ q ∨ x ∈ cop := by
  induction cop generalizing q t with
  | nil => exact Or.inl hx
  | cons n rest ih =>
    rw [bfs_visit_cons] at hx
    split_ifs at hx
    · rcases ih _ _ hx with h | h
      · rcases List.mem_append.1 h with h | h
        · exact Or.inl h
        · simp only [List.mem_singleton] at h
          exact Or.inr (by simp [h])
      · exact Or.inr (List.mem_cons_of_mem _ h)
    · rcases ih _ _ hx with h | h
      · exact Or.inl h
      · exact Or.inr (List.mem_cons_of_mem _ h)

theorem idx_sim_visit (key : Int → Int)
    (hinj : ∀ a b, isInt32 a → isInt32 b → key a = key b → a = b)
    (cur : Int) (hcur : isInt32 cur) (cop : List Int) (hcop : ∀ n ∈ cop, isInt32 n)
    (q : fifo_queue_t) (t u : abr_node_t) (h : idx_sim key t u) :
    (bfs_visit key cur cop q t).1 = (bfs_visit id cur cop q u).1 ∧
    idx_sim key (bfs_visit key cur cop q t).2 (bfs_visit id cur cop q u).2 := by
  induction cop generalizing q t u with
  | nil => exact ⟨rfl, h⟩
  | cons n rest ih =>
    have hn : isInt32 n := hcop n (List.mem_cons_self _ _)
    have hrest : ∀ m ∈ rest, isInt32 m := fun m hm => hcop m (List.mem_cons_of_mem _ hm)
    rw [bfs_visit_cons, bfs_visit_cons, h.1 n hn, id_eq]
    split_ifs
    · exact ih hrest _ _ _ (idx_sim_insert key hinj t u h n cur hn hcur)
    · exact ih hrest _ _ _ h

theorem table_int32_find (tbl : List attore) (ht : table_int32 tbl) (c : Int) (a : attore)
    (ha : find_attore_by_codice c tbl = some a) : ∀ n ∈ a.cop, isInt32 n :=
  (ht a (find_attore_by_codice_some c tbl a ha).1).2

theorem idx_sim_loop (key : Int → Int)
    (hinj : ∀ a b, isInt32 a → isInt32 b → key a = key b → a = b)
    (tbl : List attore) (ht : table_int32 tbl) (e : Int) (fuel : Nat)
    (q : fifo_queue_t) (hq : ∀ x ∈ q, isInt32 x) (t u : abr_node_t) (h : idx_sim key t u) :
    (bfs_loop key tbl e fuel q t = none ∧ bfs_loop id tbl e fuel q u = none) ∨
    ∃ st su, bfs_loop key tbl e fuel q t = some st ∧ bfs_loop id tbl e fuel q u = some su ∧
      st.path_found = su.path_found ∧ st.queue = su.queue ∧
      idx_sim key st.explored_root su.explored_root := by
  induction fuel generalizing q t u with
  | zero => exact Or.inl ⟨rfl, rfl⟩
  | succ fuel ih =>
    cases q with
    | nil => exact Or.inr ⟨_, _, rfl, rfl, rfl, rfl, h⟩
    | cons c q1 =>
      have hc : isInt32 c := hq c (List.mem_cons_self _ _)
      have hq1 : ∀ x ∈ q1, isInt32 x := fun x hx => hq x (List.mem_cons_of_mem _ hx)
      rw [bfs_loop_cons, bfs_loop_cons]
      by_cases hce : c = e
      · rw [if_pos hce, if_pos hce]
        exact Or.inr ⟨_, _, rfl, rfl, rfl, rfl, h⟩
      · rw [if_neg hce, if_neg hce]
        cases hf : find_attore_by_codice c tbl with
        | none => exact ih q1 hq1 t u h
        | some a =>
          simp only
          have hcop := table_int32_find tbl ht c a hf
          obtain ⟨h1, h2⟩ := idx_sim_visit key hinj c hc a.cop hcop q1 t u h
          rw [h1]
          refine ih _ (fun x hx => ?_) _ _ h2
          rcases bfs_visit_queue_mem id c a.cop q1 u x hx with hx | hx
          · exact hq1 x hx
          · exact hcop x hx

theorem idx_sim_trace (key : Int → Int) (t u : abr_node_t) (h : idx_sim key t u)
    (tota fuel : Nat) (c : Int) (hc : isInt32 c) (path : List Int) :
    trace_loop key t tota fuel c path = trace_loop id u tota fuel c path := by
  induction fuel generalizing c path with
  | zero => rfl
  | succ fuel ih =>
    rw [trace_loop_succ, trace_loop_succ, h.1 c hc, id_eq]
    split_ifs
    · rfl
    · rfl
    · cases hl : abr_lookup u c with
      | none => rfl
      | some x => exact ih x.2 (h.2 c x hl) _

/-- The worker keyed by a function that is injective on the 32-bit integers gives the
result of the worker keyed by the codes themselves. -/
theorem bfs_worker_key_indep (key : Int → Int)
    (hinj : ∀ a b, isInt32 a → isInt32 b → key a = key b → a = b)
    (fuel : Nat) (tbl : List attore) (ht : table_int32 tbl) (s e : Int)
    (hs : isInt32 s) (he : isInt32 e) :
    bfs_worker key fuel tbl s e = bfs_worker id fuel tbl s e := by
  unfold bfs_worker
  cases hfs : find_attore_by_codice s tbl with
  | none => rfl
  | some a =>
    cases hfe : find_attore_by_codice e tbl with
    | none => rfl
    | some b =>
      simp only [fifo_queue_enqueue, fifo_queue_create, List.nil_append, id_eq]
      have hq : ∀ x ∈ [s], isInt32 x := by
        intro x hx
        simp only [List.mem_singleton] at hx
        rw [hx]; exact hs
      rcases idx_sim_loop key hinj tbl ht e fuel [s] hq _ _ (idx_sim_init key hinj s hs) with
        ⟨h1, h2⟩ | ⟨st, su, h1, h2, h3, h4, h5⟩
      · rw [h1, h2]
      · rw [h1, h2]
        simp only
        rw [h3]
        by_cases hp : su.path_found = true
        · rw [if_pos hp, if_pos hp, idx_sim_trace key _ _ h5 _ _ e he]
        · rw [if_neg hp, if_neg hp]

/-! ## Theorems: the search loop on the index keyed by the codes -/

/-- Lookups after the `for` loop over a neighbor list: bound codes keep their pair, the
unbound codes of the list are bound to themselves with the dequeued code as parent. -/
theorem bfs_visit_lookup (cur : Int) (cop : List Int) (q : fifo_queue_t) (t : abr_node_t)
    (c : Int) :
    abr_lookup (bfs_visit id cur cop q t).2 c =
      match abr_lookup t c with
      | some x => some x
      | none => if c ∈ cop then some (c, cur) else none := by
  induction cop generalizing q t with
  | nil => cases hl : abr_lookup t c <;> simp [bfs_visit_nil, hl]
  | cons n rest ih =>
    rw [bfs_visit_cons, id_eq]
    by_cases hn : abr_lookup t n = none
    · rw [if_pos hn, ih, abr_lookup_insert, hn]
      by_cases hcn : c = n
      · subst hcn
        simp [hn]
      · simp only [hcn, if_false, List.mem_cons, false_or]
    · rw [if_neg hn, ih]
      cases hl : abr_lookup t c with
      | some x => rfl
      | none =>
        have hcn : ¬ c = n := fun h => hn (h ▸ hl)
        simp only [List.mem_cons, hcn, false_or]

/-- The frontier after the `for` loop: the old cells and the unbound codes of the list. -/
theorem bfs_visit_queue (cur : Int) (cop : List Int) (q : fifo_queue_t) (t : abr_node_t)
    (x : Int) :
    x ∈ (bfs_visit id cur cop q t).1 ↔ x ∈ q ∨ (x ∈ cop ∧ abr_lookup t x = none) := by
  induction cop generalizing q t with
  | nil => simp [bfs_visit_nil]
  | cons n rest ih =>
    rw [bfs_visit_cons, id_eq]
    by_cases hn : abr_lookup t n = none
    · rw [if_pos hn, ih, abr_lookup_insert, hn]
      by_cases hxn : x = n
      · subst hxn
        simp [hn]
      · simp [hxn]
    · rw [if_neg hn, ih]
      by_cases hxn : x = n
      · subst hxn
        simp [hn]
      · simp [hxn]

theorem unexplored_insert_card (tbl : List attore) (t : abr_node_t) (n p : Int)
    (hn : n ∈ neighbor_codes tbl) (hl : abr_lookup t n = none) :
    (unexplored tbl (abr_insert t n n p)).card + 1 ≤ (unexplored tbl t).card := by
  have hsub : unexplored tbl (abr_insert t n n p) ⊂ unexplored tbl t := by
    rw [Finset.ssubset_iff_of_subset]
    · refine ⟨n, ?_, ?_⟩
      · simp [unexplored, hn, hl]
      · simp [unexplored, abr_lookup_insert, hl]
    · intro c hc
      simp only [unexplored, Finset.mem_filter, abr_lookup_insert, hl] at hc ⊢
      refine ⟨hc.1, ?_⟩
      have h2 := hc.2
      by_cases hcn : c = n
      · simp [hcn] at h2
      · simpa [hcn] using h2
  exact Finset.card_lt_card hsub

/-- The `for` loop does not increase the number of frontier cells plus unbound neighbor
codes: every new cell is a code that has just been bound. -/
theorem bfs_visit_potential (tbl : List attore) (cur : Int) (cop : List Int)
    (hcop : ∀ n ∈ cop, n ∈ neighbor_codes tbl) (q : fifo_queue_t) (t : abr_node_t) :
    (bfs_visit id cur cop q t).1.length + (unexplored tbl (bfs_visit id cur cop q t).2).card
      ≤ q.length + (unexplored tbl t).card := by
  induction cop generalizing q t with
  | nil => simp [bfs_visit_nil]
  | cons n rest ih =>
    have hrest : ∀ m ∈ rest, m ∈ neighbor_codes tbl :=
      fun m hm => hcop m (List.mem_cons_of_mem _ hm)
    rw [bfs_visit_cons, id_eq]
    by_cases hn : abr_lookup t n = none
    · rw [if_pos hn]
      have h1 := ih hrest (q ++ [n]) (abr_insert t n n cur)
      have h2 := unexplored_insert_card tbl t n cur (hcop n (List.mem_cons_self _ _)) hn
      simp only [List.length_append, List.length_singleton] at h1
      omega
    · rw [if_neg hn]
      exact ih hrest q t

theorem find_cop_neighbor_codes (tbl : List attore) (c : Int) (a : attore)
    (ha : find_attore_by_codice c tbl = some a) : ∀ n ∈ a.cop, n ∈ neighbor_codes tbl := by
  intro n hn
  simp only [neighbor_codes, List.mem_toFinset, List.mem_flatMap]
  exact ⟨a, (find_attore_by_codice_some c tbl a ha).1, hn⟩

/-- Invariant rule for the search loop: a property of (frontier, index) that holds at the
start and is kept by one iteration holds when the loop ends, and the loop ends within
`frontier cells + unbound neighbor codes + 1` iteration tests. -/
theorem bfs_loop_invariant (tbl : List attore) (e : Int)
    (Inv : fifo_queue_t → abr_node_t → Prop)
    (hnone : ∀ c q t, Inv (c :: q) t → c ≠ e → find_attore_by_codice c tbl = none → Inv q t)
    (hsome : ∀ c q t a, Inv (c :: q) t → c ≠ e → find_attore_by_codice c tbl = some a →
      Inv (bfs_visit id c a.cop q t).1 (bfs_visit id c a.cop q t).2)
    (fuel : Nat) (q : fifo_queue_t) (t : abr_node_t) (hinv : Inv q t)
    (hfuel : q.length + (unexplored tbl t).card < fuel) :
    ∃ st, bfs_loop id tbl e fuel q t = some st ∧
      ((st.path_found = false ∧ st.queue = [] ∧ Inv [] st.explored_root) ∨
       (st.path_found = true ∧ Inv (e :: st.queue) st.explored_root)) := by
  induction fuel generalizing q t with
  | zero => omega
  | succ fuel ih =>
    cases q with
    | nil => exact ⟨_, rfl, Or.inl ⟨rfl, rfl, hinv⟩⟩
    | cons c q1 =>
      rw [bfs_loop_cons]
      by_cases hce : c = e
      · rw [if_pos hce]
        subst hce
        exact ⟨_, rfl, Or.inr ⟨rfl, hinv⟩⟩
      · rw [if_neg hce]
        simp only [List.length_cons] at hfuel
        cases hf : find_attore_by_codice c tbl with
        | none => exact ih q1 t (hnone c q1 t hinv hce hf) (by omega)
        | some a =>
          simp only
          have hp := bfs_visit_potential tbl c a.cop (find_cop_neighbor_codes tbl c a hf) q1 t
          exact ih _ _ (hsome c q1 t a hinv hce hf) (by omega)

theorem neighbor_codes_card_le (tbl : List attore) :
    (neighbor_codes tbl).card ≤ (tbl.map attore.numcop).sum := by
  unfold neighbor_codes
  refine le_trans (List.toFinset_card_le _) ?_
  rw [List.length_flatMap]
  exact le_of_eq rfl

theorem bfs_fuel_enough (tbl : List attore) (s : Int) (t : abr_node_t) (fuel : Nat)
    (hf : bfs_fuel tbl ≤ fuel) : [s].length + (unexplored tbl t).card < fuel := by
  have h1 : (unexplored tbl t).card ≤ (neighbor_codes tbl).card :=
    Finset.card_le_card (Finset.filter_subset _ _)
  have h2 := neighbor_codes_card_le tbl
  unfold bfs_fuel at hf
  simp only [List.length_singleton]
  omega

/-- The reconstruction loop ends: it adds a cell per iteration and stops at `tota_attori`
cells. -/
theorem trace_loop_isSome (key : Int → Int) (t : abr_node_t) (tota fuel : Nat) (c : Int)
    (path : List Int) (hlen : path.length ≤ tota) (hf : tota + 1 ≤ fuel + path.length) :
    ∃ r, trace_loop key t tota fuel c path = some r := by
  induction fuel generalizing c path with
  | zero => omega
  | succ fuel ih =>
    rw [trace_loop_succ]
    split_ifs
    · exact ⟨_, rfl⟩
    · exact ⟨_, rfl⟩
    · cases abr_lookup t (key c) with
      | none => exact ⟨_, rfl⟩
      | some x =>
        refine ih x.2 (path ++ [c]) ?_ ?_ <;>
          simp only [List.length_append, List.length_singleton] <;> omega

/-! ## Theorems: invariant of the search loop -/

theorem bfs_inv_init (tbl : List attore) (s e : Int) :
    bfs_inv tbl s e [s] (abr_insert .NULL s s (-1)) := by
  have hl : ∀ c, abr_lookup (abr_insert .NULL s s (-1)) c
      = if c = s then some (s, -1) else none := by
    intro c
    rw [abr_lookup_insert, abr_lookup_NULL, abr_lookup_NULL]
  refine ⟨?_, ?_, ?_, ?_, ?_⟩
  · rw [hl]; simp
  · intro x hx
    simp only [List.mem_singleton] at hx
    rw [hl, hx]; simp
  · intro c hc
    rw [hl] at hc
    by_cases h : c = s
    · rw [h]
    · simp [h] at hc
  · intro c hc
    rw [hl] at hc
    by_cases h : c = s
    · exact Or.inl (by simp [h])
    · simp [h] at hc
  · intro c x hx
    rw [hl] at hx
    by_cases h : c = s
    · simp only [h, if_true, Option.some.injEq] at hx
      exact Or.inl ⟨h, by rw [← hx]⟩
    · simp [h] at hx

theorem bfs_inv_none (tbl : List attore) (s e c : Int) (q : fifo_queue_t) (t : abr_node_t)
    (h : bfs_inv tbl s e (c :: q) t) (hce : c ≠ e)
    (hf : find_attore_by_codice c tbl = none) : bfs_inv tbl s e q t := by
  obtain ⟨h1, h2, h3, h4, h5⟩ := h
  refine ⟨h1, fun x hx => h2 x (List.mem_cons_of_mem _ hx), h3, ?_, h5⟩
  intro x hx
  rcases h4 x hx with hq | hd
  · rcases List.mem_cons.1 hq with hxc | hxq
    · refine Or.inr ⟨by rw [hxc]; exact hce, ?_⟩
      rintro n ⟨r, hr, _⟩
      rw [hxc, hf] at hr
      exact absurd hr (by simp)
    · exact Or.inl hxq
  · exact Or.inr hd

theorem bfs_visit_lookup_mono (cur : Int) (cop : List Int) (q : fifo_queue_t)
    (t : abr_node_t) (c : Int) (h : abr_lookup t c ≠ none) :
    abr_lookup (bfs_visit id cur cop q t).2 c ≠ none := by
  rw [bfs_visit_lookup]
  cases hl : abr_lookup t c with
  | none => exact absurd hl h
  | some x => simp

theorem bfs_visit_lookup_cop (cur : Int) (cop : List Int) (q : fifo_queue_t)
    (t : abr_node_t) (c : Int) (h : c ∈ cop) :
    abr_lookup (bfs_visit id cur cop q t).2 c ≠ none := by
  rw [bfs_visit_lookup]
  cases hl : abr_lookup t c with
  | none => simp [h]
  | some x => simp

theorem bfs_inv_some (tbl : List attore) (s e c : Int) (q : fifo_queue_t) (t : abr_node_t)
    (a : attore) (h : bfs_inv tbl s e (c :: q) t) (hce : c ≠ e)
    (hf : find_attore_by_codice c tbl = some a) :
    bfs_inv tbl s e (bfs_visit id c a.cop q t).1 (bfs_visit id c a.cop q t).2 := by
  obtain ⟨h1, h2, h3, h4, h5⟩ := h
  have hc : abr_lookup t c ≠ none := h2 c (List.mem_cons_self _ _)
  refine ⟨bfs_visit_lookup_mono _ _ _ _ _ h1, ?_, ?_, ?_, ?_⟩
  · intro x hx
    rcases (bfs_visit_queue _ _ _ _ _).1 hx with hq | ⟨hcop, _⟩
    · exact bfs_visit_lookup_mono _ _ _ _ _ (h2 x (List.mem_cons_of_mem _ hq))
    · exact bfs_visit_lookup_cop _ _ _ _ _ hcop
  · intro x hx
    rw [bfs_visit_lookup] at hx
    cases hl : abr_lookup t x with
    | some y => exact h3 x (by rw [hl]; simp)
    | none =>
      rw [hl] at hx
      by_cases hcop : x ∈ a.cop
      · exact Relation.ReflTransGen.tail (h3 c hc) ⟨a, hf, hcop⟩
      · simp [hcop] at hx
  · intro x hx
    cases hl : abr_lookup t x with
    | some y =>
      rcases h4 x (by rw [hl]; simp) with hq | ⟨hne, hcl⟩
      · rcases List.mem_cons.1 hq with hxc | hxq
        · refine Or.inr ⟨by rw [hxc]; exact hce, ?_⟩
          rintro n ⟨r, hr, hn⟩
          rw [hxc, hf] at hr
          simp only [Option.some.injEq] at hr
          rw [← hr] at hn
          exact bfs_visit_lookup_cop _ _ _ _ _ hn
        · exact Or.inl ((bfs_visit_queue _ _ _ _ _).2 (Or.inl hxq))
      · exact Or.inr ⟨hne, fun n hn => bfs_visit_lookup_mono _ _ _ _ _ (hcl n hn)⟩
    | none =>
      rw [bfs_visit_lookup, hl] at hx
      by_cases hcop : x ∈ a.cop
      · exact Or.inl ((bfs_visit_queue _ _ _ _ _).2 (Or.inr ⟨hcop, hl⟩))
      · simp [hcop] at hx
  · intro x y hy
    rw [bfs_visit_lookup] at hy
    cases hl : abr_lookup t x with
    | some z =>
      rw [hl] at hy
      simp only [Option.some.injEq] at hy
      rw [← hy]
      exact h5 x z hl
    | none =>
      rw [hl] at hy
      by_cases hcop : x ∈ a.cop
      · simp only [hcop, if_true, Option.some.injEq] at hy
        rw [← hy]
        exact Or.inr ⟨a, hf, hcop⟩
      · simp [hcop] at hy

/-- The search loop on the index keyed by the codes ends within `bfs_fuel` iteration
tests, and its final state satisfies the invariant. -/
theorem bfs_loop_id_final (tbl : List attore) (s e : Int) (fuel : Nat)
    (hf : bfs_fuel tbl ≤ fuel) :
    ∃ st, bfs_loop id tbl e fuel [s] (abr_insert .NULL s s (-1)) = some st ∧
      ((st.path_found = false ∧ st.queue = [] ∧ bfs_inv tbl s e [] st.explored_root) ∨
       (st.path_found = true ∧ bfs_inv tbl s e (e :: st.queue) st.explored_root)) :=
  bfs_loop_invariant tbl e (bfs_inv tbl s e) (bfs_inv_none tbl s e) (bfs_inv_some tbl s e)
    fuel [s] _ (bfs_inv_init tbl s e) (bfs_fuel_enough tbl s _ fuel hf)

/-- When the frontier is empty the bound codes are closed under edges and exclude `e`,
so `e` is not reached from `s`. -/
theorem bfs_inv_empty_not_reach (tbl : List attore) (s e : Int) (t : abr_node_t)
    (h : bfs_inv tbl s e [] t) : ¬ Relation.ReflTransGen (edge tbl) s e := by
  obtain ⟨h1, _, _, h4, _⟩ := h
  have hclosed : ∀ c, Relation.ReflTransGen (edge tbl) s c → abr_lookup t c ≠ none := by
    intro c hc
    induction hc with
    | refl => exact h1
    | tail _ hbc ih =>
      rcases h4 _ ih with hq | ⟨_, hcl⟩
      · simp at hq
      · exact hcl _ hbc
  intro hr
  rcases h4 e (hclosed e hr) with hq | ⟨hne, _⟩
  · simp at hq
  · exact hne rfl

theorem bfs_inv_found_reach (tbl : List attore) (s e : Int) (q : fifo_queue_t)
    (t : abr_node_t) (h : bfs_inv tbl s e (e :: q) t) :
    Relation.ReflTransGen (edge tbl) s e :=
  h.2.2.1 e (h.2.1 e (List.mem_cons_self _ _))

/-! ## Theorems: path reconstruction and the whole worker -/

/-- The reconstruction loop keeps the array a chain of edges read backwards, made of
codes that the table lookup finds. -/
theorem trace_loop_chain (tbl : List attore) (s : Int) (t : abr_node_t)
    (hJ : ∀ c x, abr_lookup t c = some x → (c = s ∧ x.2 = -1) ∨ edge tbl x.2 c)
    (tota fuel : Nat) (c : Int) (path r : List Int)
    (hchain : List.Chain' (fun v u => edge tbl u v) path)
    (hlast : ∀ v ∈ path.getLast?, c = -1 ∨ edge tbl c v)
    (hc : c = -1 ∨ ∃ a, find_attore_by_codice c tbl = some a)
    (hfound : ∀ x ∈ path, ∃ a, find_attore_by_codice x tbl = some a)
    (h : trace_loop id t tota fuel c path = some r) :
    List.Chain' (fun v u => edge tbl u v) r ∧
      ∀ x ∈ r, ∃ a, find_attore_by_codice x tbl = some a := by
  induction fuel generalizing c path with
  | zero => simp [trace_loop_zero] at h
  | succ fuel ih =>
    rw [trace_loop_succ, id_eq] at h
    by_cases h1 : c = -1
    · rw [if_pos h1] at h
      simp only [Option.some.injEq] at h
      rw [← h]
      exact ⟨hchain, hfound⟩
    · rw [if_neg h1] at h
      by_cases h2 : path.length ≥ tota
      · rw [if_pos h2] at h
        simp only [Option.some.injEq] at h
        rw [← h]
        exact ⟨List.chain'_nil, by simp⟩
      · rw [if_neg h2] at h
        cases hl : abr_lookup t c with
        | none =>
          rw [hl] at h
          simp only [Option.some.injEq] at h
          rw [← h]
          exact ⟨List.chain'_nil, by simp⟩
        | some x =>
          rw [hl] at h
          have hcf : ∃ a, find_attore_by_codice c tbl = some a := by
            rcases hc with hc | hc
            · exact absurd hc h1
            · exact hc
          refine ih x.2 (path ++ [c]) ?_ ?_ ?_ ?_ h
          · rw [List.chain'_append]
            refine ⟨hchain, List.chain'_singleton _, ?_⟩
            intro v hv y hy
            simp only [List.head?_cons, Option.mem_def, Option.some.injEq] at hy
            rw [← hy]
            rcases hlast v hv with h3 | h3
            · exact absurd h3 h1
            · exact h3
          · intro v hv
            have hv2 : (path ++ [c]).getLast? = some c := by simp
            rw [hv2] at hv
            simp only [Option.mem_def, Option.some.injEq] at hv
            rw [← hv]
            rcases hJ c x hl with ⟨_, h3⟩ | h3
            · exact Or.inl h3
            · exact Or.inr h3
          · rcases hJ c x hl with ⟨_, h3⟩ | ⟨a, ha, _⟩
            · exact Or.inl h3
            · exact Or.inr ⟨a, ha⟩
          · intro y hy
            rcases List.mem_append.1 hy with hy | hy
            · exact hfound y hy
            · simp only [List.mem_singleton] at hy
              rw [hy]; exact hcf

theorem written_codes_filterMap_find (tbl : List attore) (l : List Int)
    (hl : ∀ x ∈ l, ∃ a, find_attore_by_codice x tbl = some a) :
    written_codes (l.filterMap fun c =>
      match find_attore_by_codice c tbl with
      | some actor_on_path =>
        some (out_line.nodo actor_on_path.codice actor_on_path.nome actor_on_path.anno)
      | none => none) = l := by
  induction l with
  | nil => rfl
  | cons x rest ih =>
    obtain ⟨a, ha⟩ := hl x (List.mem_cons_self _ _)
    have hrest := ih (fun y hy => hl y (List.mem_cons_of_mem _ hy))
    have hx := (find_attore_by_codice_some x tbl a ha).2
    rw [List.filterMap_cons, ha]
    simp only [written_codes, List.filterMap_cons] at hrest ⊢
    rw [hrest, hx]

/-- The printing loop writes one node line per cell, in reverse array order, when the
lookup finds every cell. -/
theorem written_codes_print_path (tbl : List attore) (path : List Int)
    (hl : ∀ x ∈ path, ∃ a, find_attore_by_codice x tbl = some a) :
    written_codes (print_path tbl path) = path.reverse :=
  written_codes_filterMap_find tbl path.reverse (fun x hx => hl x (List.mem_reverse.1 hx))

/-- A run of the worker keyed by the codes, with both endpoints found and enough fuel:
either `e` is not reached from `s` and the failure branch is taken, or it is reached and
the path branch prints an array that is a chain of edges read backwards. -/
theorem bfs_worker_id_run (tbl : List attore) (s e : Int) (fuel : Nat) (a b : attore)
    (hfs : find_attore_by_codice s tbl = some a) (hfe : find_attore_by_codice e tbl = some b)
    (hf : bfs_fuel tbl ≤ fuel) :
    (¬ Relation.ReflTransGen (edge tbl) s e ∧
      bfs_worker id fuel tbl s e =
        some ⟨[.non_esistono_cammini s e], some (.nessun_cammino s e)⟩) ∨
    (Relation.ReflTransGen (edge tbl) s e ∧ ∃ path,
      bfs_worker id fuel tbl s e =
        some ⟨print_path tbl path,
          some (.lunghezza_minima s e (if path.length > 0 then path.length - 1 else 0))⟩ ∧
      List.Chain' (fun v u => edge tbl u v) path ∧
      ∀ x ∈ path, ∃ r, find_attore_by_codice x tbl = some r) := by
  obtain ⟨st, hst, hres⟩ := bfs_loop_id_final tbl s e fuel hf
  unfold bfs_worker
  rw [hfs, hfe]
  simp only [fifo_queue_enqueue, fifo_queue_create, List.nil_append, id_eq]
  rw [hst]
  rcases hres with ⟨hpf, _, hinv⟩ | ⟨hpf, hinv⟩
  · left
    refine ⟨bfs_inv_empty_not_reach tbl s e _ hinv, ?_⟩
    simp [hpf]
  · right
    refine ⟨bfs_inv_found_reach tbl s e _ _ hinv, ?_⟩
    have hfuel : tbl.length + 1 ≤ fuel + ([] : List Int).length := by
      unfold bfs_fuel at hf
      simp only [List.length_nil]
      omega
    obtain ⟨path, hpath⟩ := trace_loop_isSome id st.explored_root tbl.length fuel e []
      (Nat.zero_le _) hfuel
    have hch := trace_loop_chain tbl s st.explored_root hinv.2.2.2.2 tbl.length fuel e []
      path List.chain'_nil (by simp) (Or.inr ⟨b, hfe⟩) (by simp) hpath
    refine ⟨path, ?_, hch.1, hch.2⟩
    simp only [hpf, if_true]
    rw [hpath]

/-! ## Theorems: more fuel does not change a result -/

theorem bfs_loop_mono (key : Int → Int) (tbl : List attore) (e : Int) (fuel : Nat)
    (q : fifo_queue_t) (t : abr_node_t) (st : bfs_state)
    (h : bfs_loop key tbl e fuel q t = some st) (k : Nat) :
    bfs_loop key tbl e (fuel + k) q t = some st := by
  induction fuel generalizing q t with
  | zero => simp [bfs_loop_zero] at h
  | succ fuel ih =>
    rw [Nat.add_right_comm]
    cases q with
    | nil =>
      rw [bfs_loop_nil] at h ⊢
      exact h
    | cons c q1 =>
      rw [bfs_loop_cons] at h ⊢
      by_cases hce : c = e
      · rw [if_pos hce] at h ⊢
        exact h
      · rw [if_neg hce] at h ⊢
        cases hf : find_attore_by_codice c tbl with
        | none =>
          rw [hf] at h
          exact ih _ _ h
        | some a =>
          rw [hf] at h
          exact ih _ _ h

theorem trace_loop_mono (key : Int → Int) (t : abr_node_t) (tota fuel : Nat) (c : Int)
    (path r : List Int) (h : trace_loop key t tota fuel c path = some r) (k : Nat) :
    trace_loop key t tota (fuel + k) c path = some r := by
  induction fuel generalizing c path with
  | zero => simp [trace_loop_zero] at h
  | succ fuel ih =>
    rw [Nat.add_right_comm]
    rw [trace_loop_succ] at h ⊢
    split_ifs at h ⊢
    · exact h
    · exact h
    · cases hl : abr_lookup t (key c) with
      | none =>
        rw [hl] at h
        exact h
      | some x =>
        rw [hl] at h
        exact ih _ _ h

/-- A result of the worker is the result with any larger amount of fuel. -/
theorem bfs_worker_mono (key : Int → Int) (fuel : Nat) (tbl : List attore) (s e : Int)
    (out : bfs_output) (h : bfs_worker key fuel tbl s e = some out) (k : Nat) :
    bfs_worker key (fuel + k) tbl s e = some out := by
  unfold bfs_worker at h ⊢
  cases hfs : find_attore_by_codice s tbl with
  | none =>
    rw [hfs] at h
    exact h
  | some a =>
    cases hfe : find_attore_by_codice e tbl with
    | none =>
      rw [hfs, hfe] at h
      exact h
    | some b =>
      rw [hfs, hfe] at h
      simp only at h ⊢
      cases hl : bfs_loop key tbl e fuel (fifo_queue_enqueue fifo_queue_create s)
          (abr_insert .NULL (key s) s (-1)) with
      | none =>
        rw [hl] at h
        simp at h
      | some st =>
        rw [hl] at h
        rw [bfs_loop_mono key tbl e fuel _ _ st hl k]
        simp only at h ⊢
        by_cases hp : st.path_found = true
        · rw [if_pos hp] at h ⊢
          cases htr : trace_loop key st.explored_root tbl.length fuel e [] with
          | none =>
            rw [htr] at h
            simp at h
          | some path =>
            rw [htr] at h
            rw [trace_loop_mono key _ _ fuel e [] path htr k]
            exact h
        · rw [if_neg hp] at h ⊢
          exact h

/-! ## Theorems: the worker keyed by `shuffle` -/

theorem bfs_thread_func_eq_id (fuel : Nat) (tbl : List attore) (ht : table_int32 tbl)
    (s e : Int) (hs : isInt32 s) (he : isInt32 e) :
    bfs_thread_func fuel tbl s e = bfs_worker id fuel tbl s e :=
  bfs_worker_key_indep shuffle shuffle_inj fuel tbl ht s e hs he

theorem has_codice_isInt32 (tbl : List attore) (ht : table_int32 tbl) (c : Int)
    (h : has_codice tbl c) : isInt32 c := by
  obtain ⟨r, hr, hc⟩ := h
  rw [← hc]
  exact (ht r hr).1

theorem edge_iff_of_strictly_sorted (tbl : List attore) (hs : strictly_sorted tbl)
    (u v : Int) : edge tbl u v ↔ ∃ r ∈ tbl, r.codice = u ∧ v ∈ r.cop := by
  constructor
  · rintro ⟨r, hr, hv⟩
    obtain ⟨h1, h2⟩ := find_attore_by_codice_some u tbl r hr
    exact ⟨r, h1, h2, hv⟩
  · rintro ⟨r, hr, hc, hv⟩
    refine ⟨r, ?_, hv⟩
    rw [← hc]
    exact find_attore_by_codice_mem tbl hs r hr

theorem reachable_iff_of_strictly_sorted (tbl : List attore) (hs : strictly_sorted tbl)
    (s e : Int) : reachable tbl s e ↔ Relation.ReflTransGen (edge tbl) s e := by
  unfold reachable
  constructor
  · exact Relation.ReflTransGen.mono fun a b h =>
      (edge_iff_of_strictly_sorted tbl hs a b).2 h
  · exact Relation.ReflTransGen.mono fun a b h =>
      (edge_iff_of_strictly_sorted tbl hs a b).1 h

/-- With enough fuel the worker keyed by the codes returns a result. -/
theorem bfs_worker_id_isSome (tbl : List attore) (s e : Int) (fuel : Nat)
    (hf : bfs_fuel tbl ≤ fuel) : ∃ out, bfs_worker id fuel tbl s e = some out := by
  cases hfs : find_attore_by_codice s tbl with
  | none => exact ⟨_, by unfold bfs_worker; rw [hfs]⟩
  | some a =>
    cases hfe : find_attore_by_codice e tbl with
    | none => exact ⟨_, by unfold bfs_worker; rw [hfs, hfe]⟩
    | some b =>
      rcases bfs_worker_id_run tbl s e fuel a b hfs hfe hf with ⟨_, h⟩ | ⟨_, path, h, _⟩
      · exact ⟨_, h⟩
      · exact ⟨_, h⟩

/-- C2. On a strictly sorted table of 32-bit codes, for a request whose two codes are in
the table and with enough fuel, the worker returns a result, and this result is the
failure output (file line `non esistono cammini da s a e`, summary `Nessun cammino`)
if and only if there is no path from `s` to `e` along neighbor lists; when there is a
path the summary is `Lunghezza minima`. -/
theorem bfs_failure_iff_no_path (attori_arr : List attore) (s e : Int) (fuel : Nat)
    (hsorted : strictly_sorted attori_arr) (h32 : table_int32 attori_arr)
    (hs : has_codice attori_arr s) (he : has_codice attori_arr e)
    (hfuel : bfs_fuel attori_arr ≤ fuel) :
    ∃ out, bfs_thread_func fuel attori_arr s e = some out ∧
      (out = ⟨[.non_esistono_cammini s e], some (.nessun_cammino s e)⟩ ↔
        ¬ reachable attori_arr s e) ∧
      (reachable attori_arr s e → ∃ L, out.stdout = some (.lunghezza_minima s e L)) := by
  have hsw := strictly_sorted_sorted attori_arr hsorted
  obtain ⟨a, ha⟩ := find_attore_by_codice_isSome s attori_arr hsw hs
  obtain ⟨b, hb⟩ := find_attore_by_codice_isSome e attori_arr hsw he
  rw [bfs_thread_func_eq_id fuel attori_arr h32 s e (has_codice_isInt32 _ h32 s hs)
    (has_codice_isInt32 _ h32 e he), reachable_iff_of_strictly_sorted attori_arr hsorted]
  rcases bfs_worker_id_run attori_arr s e fuel a b ha hb hfuel with
    ⟨hn, h⟩ | ⟨hr, path, h, _⟩
  · exact ⟨_, h, ⟨fun _ => hn, fun _ => rfl⟩, fun hr => absurd hr hn⟩
  · refine ⟨_, h, ⟨fun hout => ?_, fun hn => absurd hr hn⟩, fun _ => ⟨_, rfl⟩⟩
    have := congrArg bfs_output.stdout hout
    simp at this

theorem bfs_failure_iff_no_path_witness :
    ∃ out, bfs_thread_func 9 table_extremes (-2147483648) 0 = some out ∧
      (out = ⟨[.non_esistono_cammini (-2147483648) 0],
          some (.nessun_cammino (-2147483648) 0)⟩ ↔
        ¬ reachable table_extremes (-2147483648) 0) ∧
      (reachable table_extremes (-2147483648) 0 →
        ∃ L, out.stdout = some (.lunghezza_minima (-2147483648) 0 L)) :=
  bfs_failure_iff_no_path table_extremes (-2147483648) 0 9 (by decide) (by decide)
    (by decide) (by decide) (by decide)

/-- C4. On every table of 32-bit codes and for every request, with enough fuel the
worker returns a result in which every two consecutive codes `u`, `v` of the written
node lines satisfy: `v` is in the neighbor list of the record of `u`, the one the table
lookup returns for `u`. -/
theorem written_path_follows_edges (attori_arr : List attore) (s e : Int) (fuel : Nat)
    (h32 : table_int32 attori_arr) (hs32 : isInt32 s) (he32 : isInt32 e)
    (hfuel : bfs_fuel attori_arr ≤ fuel) :
    ∃ out, bfs_thread_func fuel attori_arr s e = some out ∧
      List.Chain' (fun u v => ∃ r, find_attore_by_codice u attori_arr = some r ∧
        r ∈ attori_arr ∧ r.codice = u ∧ v ∈ r.cop) (written_codes out.file) := by
  rw [bfs_thread_func_eq_id fuel attori_arr h32 s e hs32 he32]
  cases hfs : find_attore_by_codice s attori_arr with
  | none =>
    exact ⟨⟨[.codice_non_valido s], none⟩, by unfold bfs_worker; rw [hfs],
      by simp [written_codes]⟩
  | some a =>
    cases hfe : find_attore_by_codice e attori_arr with
    | none =>
      exact ⟨⟨[.codice_non_valido e], none⟩, by unfold bfs_worker; rw [hfs, hfe],
        by simp [written_codes]⟩
    | some b =>
      rcases bfs_worker_id_run attori_arr s e fuel a b hfs hfe hfuel with
        ⟨_, h⟩ | ⟨_, path, h, hch, hfound⟩
      · exact ⟨_, h, by simp [written_codes]⟩
      · refine ⟨_, h, ?_⟩
        show List.Chain' _ (written_codes (print_path attori_arr path))
        rw [written_codes_print_path attori_arr path hfound, List.chain'_reverse]
        refine List.Chain'.imp ?_ hch
        rintro v u ⟨r, hr, hv⟩
        obtain ⟨h1, h2⟩ := find_attore_by_codice_some u attori_arr r hr
        exact ⟨r, hr, h1, h2, hv⟩

theorem written_path_follows_edges_witness :
    ∃ out, bfs_thread_func 9 table_two_hop 1 3 = some out ∧
      List.Chain' (fun u v => ∃ r, find_attore_by_codice u table_two_hop = some r ∧
        r ∈ table_two_hop ∧ r.codice = u ∧ v ∈ r.cop) (written_codes out.file) :=
  written_path_follows_edges table_two_hop 1 3 9 (by decide) (by decide) (by decide)
    (by decide)

/-- C6. On a sorted table, when `s` or `e` is not the code of a record, the worker writes
the single file line `codice <c> non valido`, with `c = s` if `s` is missing and `c = e`
otherwise, and no summary line; this holds for every amount of fuel, zero included: no
iteration of the search runs. -/
theorem missing_endpoint_output (attori_arr : List attore) (s e : Int) (fuel : Nat)
    (hsorted : sorted_by_codice attori_arr)
    (h : ¬ has_codice attori_arr s ∨ ¬ has_codice attori_arr e) :
    bfs_thread_func fuel attori_arr s e =
      some ⟨[.codice_non_valido (if has_codice attori_arr s then e else s)], none⟩ ∧
    bfs_thread_func 0 attori_arr s e = bfs_thread_func fuel attori_arr s e ∧
    ∀ c, (out_line.codice_non_valido c).render = "codice " ++ toString c ++ " non valido\n" := by
  have key : ∀ f, bfs_thread_func f attori_arr s e =
      some ⟨[.codice_non_valido (if has_codice attori_arr s then e else s)], none⟩ := by
    intro f
    unfold bfs_thread_func bfs_worker
    by_cases hs : has_codice attori_arr s
    · have he : ¬ has_codice attori_arr e := by
        rcases h with h | h
        · exact absurd hs h
        · exact h
      obtain ⟨a, ha⟩ := find_attore_by_codice_isSome s attori_arr hsorted hs
      rw [ha, not_has_codice_find e attori_arr he, if_pos hs]
    · rw [not_has_codice_find s attori_arr hs, if_neg hs]
  exact ⟨key fuel, by rw [key 0, key fuel], fun c => rfl⟩

theorem missing_endpoint_output_witness :
    bfs_thread_func 5 table_two_hop 1 99 =
      some ⟨[.codice_non_valido (if has_codice table_two_hop 1 then 99 else 1)], none⟩ ∧
    bfs_thread_func 0 table_two_hop 1 99 = bfs_thread_func 5 table_two_hop 1 99 ∧
    ∀ c, (out_line.codice_non_valido c).render = "codice " ++ toString c ++ " non valido\n" :=
  missing_endpoint_output table_two_hop 1 99 5 (by decide) (by decide)

/-- C9. The result of the worker (branch, written lines, printed length) does not depend
on the key transformation: on a table of 32-bit codes, the worker keyed by `shuffle`
returns what the worker keyed by any function injective on the 32-bit integers returns,
the identity among them; and with enough fuel this common result exists. -/
theorem bfs_result_independent_of_key (key : Int → Int)
    (hinj : ∀ a b, isInt32 a → isInt32 b → key a = key b → a = b)
    (attori_arr : List attore) (h32 : table_int32 attori_arr) (s e : Int)
    (hs32 : isInt32 s) (he32 : isInt32 e) (fuel : Nat) :
    bfs_thread_func fuel attori_arr s e = bfs_worker key fuel attori_arr s e ∧
    bfs_thread_func fuel attori_arr s e = bfs_worker id fuel attori_arr s e ∧
    (bfs_fuel attori_arr ≤ fuel → ∃ out, bfs_thread_func fuel attori_arr s e = some out) := by
  have h1 := bfs_thread_func_eq_id fuel attori_arr h32 s e hs32 he32
  refine ⟨?_, h1, fun hf => ?_⟩
  · rw [h1, bfs_worker_key_indep key hinj fuel attori_arr h32 s e hs32 he32]
  · rw [h1]
    exact bfs_worker_id_isSome attori_arr s e fuel hf

theorem bfs_result_independent_of_key_witness :
    bfs_thread_func 9 table_two_hop 1 3 = bfs_worker (fun n => 7 - n) 9 table_two_hop 1 3 ∧
    bfs_thread_func 9 table_two_hop 1 3 = bfs_worker id 9 table_two_hop 1 3 ∧
    (bfs_fuel table_two_hop ≤ 9 → ∃ out, bfs_thread_func 9 table_two_hop 1 3 = some out) :=
  bfs_result_independent_of_key (fun n => 7 - n) (fun a b _ _ h => by have h2 : 7 - a = 7 - b := h; omega)
    table_two_hop (by decide) 1 3 (by decide) (by decide) 9

/-! ## Theorems: the self-request -/

/-- For a code `c` other than `-1` that the table lookup finds, the request `(c, c)` makes
the worker write the single line of the record of `c` and print `Lunghezza minima 0`,
with any key transformation and from two units of fuel on. -/
theorem bfs_worker_self_request (key : Int → Int) (tbl : List attore) (c : Int) (a : attore)
    (hfind : find_attore_by_codice c tbl = some a) (hc : c ≠ -1) (k : Nat) :
    bfs_worker key (k + 2) tbl c c =
      some ⟨[.nodo a.codice a.nome a.anno], some (.lunghezza_minima c c 0)⟩ := by
  have hlen : ¬ ([] : List Int).length ≥ tbl.length := by
    have hmem := (find_attore_by_codice_some c tbl a hfind).1
    have := List.length_pos_of_mem hmem
    simp only [List.length_nil]
    omega
  have hl : abr_lookup (abr_insert .NULL (key c) c (-1)) (key c) = some (c, -1) := by
    rw [abr_lookup_insert, abr_lookup_NULL]
    simp
  have htrace : trace_loop key (abr_insert .NULL (key c) c (-1)) tbl.length (k + 2) c []
      = some [c] := by
    rw [trace_loop_succ, if_neg hc, if_neg hlen, hl]
    simp only [List.nil_append]
    rw [trace_loop_succ, if_pos rfl]
  unfold bfs_worker
  rw [hfind]
  simp only [fifo_queue_enqueue, fifo_queue_create, List.nil_append]
  rw [bfs_loop_cons, if_pos rfl]
  simp only [if_true]
  rw [htrace]
  simp [print_path, hfind]

/-! ## Theorems: the code `-1` and the parent sentinel

The index records `-1` as the parent of the start node, and the reconstruction loop stops
at the first parent equal to `-1`. A record whose code is `-1` is therefore taken for the
end of the chain. -/

/-- C1 (evaluation). In `table_minus_one` the codes `-1` and `5` are distinct records and
`5` is a neighbor of `-1`, so the shortest path from `-1` to `5` has one edge; the worker
prints `Lunghezza minima 0`. -/
theorem bfs_length_zero_for_distinct_codes :
    strictly_sorted table_minus_one ∧ table_int32 table_minus_one ∧
    has_codice table_minus_one (-1) ∧ has_codice table_minus_one 5 ∧
    reachable table_minus_one (-1) 5 ∧ (-1 : Int) ≠ 5 ∧
    ∀ k, bfs_thread_func (bfs_fuel table_minus_one + k) table_minus_one (-1) 5 =
      some ⟨[.nodo 5 "Bob" 1971], some (.lunghezza_minima (-1) 5 0)⟩ := by
  refine ⟨by decide, by decide, by decide, by decide, ?_, by decide, fun k => ?_⟩
  · exact Relation.ReflTransGen.single ⟨⟨-1, "Alice", 1970, [5]⟩, by decide, rfl, by decide⟩
  · exact bfs_worker_mono shuffle _ _ _ _ _ (by decide) k

/-- C3 (evaluation). In `table_through_minus_one` the path from `1` to `5` is `1, -1, 5`;
the worker writes the single line of `5`, which is not the record of the start code, and
prints length 0. -/
theorem bfs_path_truncated_at_minus_one :
    strictly_sorted table_through_minus_one ∧ table_int32 table_through_minus_one ∧
    has_codice table_through_minus_one 1 ∧ has_codice table_through_minus_one 5 ∧
    reachable table_through_minus_one 1 5 ∧
    ∀ k, bfs_thread_func (bfs_fuel table_through_minus_one + k) table_through_minus_one 1 5 =
      some ⟨[.nodo 5 "Bob" 1971], some (.lunghezza_minima 1 5 0)⟩ := by
  refine ⟨by decide, by decide, by decide, by decide, ?_, fun k => ?_⟩
  · exact Relation.ReflTransGen.tail
      (Relation.ReflTransGen.single ⟨⟨1, "Carol", 1972, [-1]⟩, by decide, rfl, by decide⟩)
      ⟨⟨-1, "Alice", 1970, [5]⟩, by decide, rfl, by decide⟩
  · exact bfs_worker_mono shuffle _ _ _ _ _ (by decide) k

/-- C5 (evaluation). In `table_only_minus_one` the request `(-1, -1)` names a record of
the table; the worker writes an empty file and prints `Lunghezza minima 0`. -/
theorem bfs_self_request_minus_one_empty_file :
    strictly_sorted table_only_minus_one ∧ table_int32 table_only_minus_one ∧
    has_codice table_only_minus_one (-1) ∧
    ∀ k, bfs_thread_func (bfs_fuel table_only_minus_one + k) table_only_minus_one (-1) (-1) =
      some ⟨[], some (.lunghezza_minima (-1) (-1) 0)⟩ := by
  refine ⟨by decide, by decide, by decide, fun k => ?_⟩
  exact bfs_worker_mono shuffle _ _ _ _ _ (by decide) k

/-! ## Theorems: bounded line buffer -/

theorem lb_inv_init (capacity : Int) (h : 0 < capacity) : lb_inv (line_buffer_init capacity) := by
  unfold lb_inv line_buffer_init
  simp only [List.length_replicate]
  refine ⟨h, le_refl _, le_of_lt h, le_refl _, h, le_refl _, h, ?_, ?_⟩
  · simp
  · exact Int.toNat_of_nonneg (le_of_lt h)

theorem lb_succ_tmod (x capacity : Int) (hx : 0 ≤ x) (hc : 0 < capacity) :
    (x + 1).tmod capacity = (x + 1) % capacity :=
  Int.tmod_eq_emod (by omega) (le_of_lt hc)

theorem lb_inv_put (lb : line_buffer_t) (line : String) (h : lb_inv lb) :
    lb_inv (line_buffer_put lb line) := by
  unfold line_buffer_put
  split
  · rename_i hlt
    obtain ⟨h1, h2, h3, h4, h5, h6, h7, h8, h9⟩ := h
    unfold lb_inv
    simp only [List.length_set]
    rw [lb_succ_tmod _ _ h6 h1]
    refine ⟨h1, by omega, by omega, h4, h5, Int.emod_nonneg _ (by omega),
      Int.emod_lt_of_pos _ h1, ?_, h9⟩
    rw [h8, Int.emod_add_emod, Int.add_assoc]
  · exact h

theorem lb_inv_get (lb : line_buffer_t) (h : lb_inv lb) : lb_inv (line_buffer_get lb).2 := by
  unfold line_buffer_get
  split
  · rename_i hgt
    obtain ⟨h1, h2, h3, h4, h5, h6, h7, h8, h9⟩ := h
    unfold lb_inv
    simp only
    rw [lb_succ_tmod _ _ h4 h1]
    refine ⟨h1, by omega, by omega, Int.emod_nonneg _ (by omega),
      Int.emod_lt_of_pos _ h1, h6, h7, ?_, h9⟩
    rw [h8, Int.emod_add_emod]
    congr 1
    omega
  · split <;> exact h

theorem lb_inv_set_done (lb : line_buffer_t) (h : lb_inv lb) :
    lb_inv (line_buffer_set_done lb) := h

theorem lb_step_put (h : lb_history) (line : String) :
    lb_step h (.put line) =
      if line_buffer_put_waits h.lb then h
      else
        { h with
          lb := line_buffer_put h.lb line
          enqueued :=
            if h.lb.count < h.lb.capacity then h.enqueued ++ [line] else h.enqueued } := rfl

theorem lb_step_get (h : lb_history) :
    lb_step h .get =
      if line_buffer_get_waits h.lb then h
      else
        match (line_buffer_get h.lb).1 with
        | some line =>
          { h with lb := (line_buffer_get h.lb).2, returned := h.returned ++ [line] }
        | none => { h with lb := (line_buffer_get h.lb).2 } := rfl

theorem lb_step_set_done (h : lb_history) :
    lb_step h .set_done = { h with lb := line_buffer_set_done h.lb } := rfl

theorem lb_step_lb (h : lb_history) (op : lb_op) :
    (lb_step h op).lb =
      match op with
      | .put line => if line_buffer_put_waits h.lb then h.lb else line_buffer_put h.lb line
      | .get => if line_buffer_get_waits h.lb then h.lb else (line_buffer_get h.lb).2
      | .set_done => line_buffer_set_done h.lb := by
  cases op with
  | put line =>
    rw [lb_step_put]
    split <;> rfl
  | get =>
    rw [lb_step_get]
    split
    · rfl
    · split <;> rfl
  | set_done => rfl

theorem lb_inv_step (h : lb_history) (op : lb_op) (hinv : lb_inv h.lb) :
    lb_inv (lb_step h op).lb := by
  rw [lb_step_lb]
  cases op with
  | put line =>
    simp only
    split
    · exact hinv
    · exact lb_inv_put _ _ hinv
  | get =>
    simp only
    split
    · exact hinv
    · exact lb_inv_get _ hinv
  | set_done => exact hinv

theorem lb_step_capacity (h : lb_history) (op : lb_op) :
    (lb_step h op).lb.capacity = h.lb.capacity := by
  rw [lb_step_lb]
  cases op with
  | put line =>
    simp only
    split
    · rfl
    · unfold line_buffer_put
      split <;> rfl
  | get =>
    simp only
    split
    · rfl
    · unfold line_buffer_get
      split
      · rfl
      · split <;> rfl
  | set_done => rfl

theorem lb_inv_foldl (ops : List lb_op) (h : lb_history) (hinv : lb_inv h.lb) :
    lb_inv (ops.foldl lb_step h).lb := by
  induction ops generalizing h with
  | nil => exact hinv
  | cons op rest ih => exact ih _ (lb_inv_step h op hinv)

/-- C14. On a buffer created by `line_buffer_init` with a positive capacity, after every
sequence of `line_buffer_put`, `line_buffer_get` and `line_buffer_set_done` calls
`0 ≤ count ≤ capacity`, and `head` and `tail` are inside `[0, capacity)`. -/
theorem line_buffer_count_bounds (capacity : Int) (hcap : 0 < capacity) (ops : List lb_op) :
    0 ≤ (lb_run capacity ops).lb.count ∧
    (lb_run capacity ops).lb.count ≤ (lb_run capacity ops).lb.capacity ∧
    (lb_run capacity ops).lb.capacity = capacity ∧
    0 ≤ (lb_run capacity ops).lb.head ∧ (lb_run capacity ops).lb.head < capacity ∧
    0 ≤ (lb_run capacity ops).lb.tail ∧ (lb_run capacity ops).lb.tail < capacity := by
  have hcapeq : ∀ (ops : List lb_op) (h : lb_history),
      (ops.foldl lb_step h).lb.capacity = h.lb.capacity := by
    intro ops
    induction ops with
    | nil => intro h; rfl
    | cons op rest ih =>
      intro h
      rw [List.foldl_cons, ih, lb_step_capacity]
  have hc : (lb_run capacity ops).lb.capacity = capacity := hcapeq ops _
  obtain ⟨_, h2, h3, h4, h5, h6, h7, _, _⟩ :=
    lb_inv_foldl ops ⟨line_buffer_init capacity, [], []⟩ (lb_inv_init capacity hcap)
  have h5b : (lb_run capacity ops).lb.head < (lb_run capacity ops).lb.capacity := h5
  have h7b : (lb_run capacity ops).lb.tail < (lb_run capacity ops).lb.capacity := h7
  rw [hc] at h5b h7b
  exact ⟨h2, h3, hc, h4, h5b, h6, h7b⟩

theorem line_buffer_count_bounds_witness :
    0 ≤ (lb_run 2 [.put "a", .put "b", .put "c", .get, .put "d", .set_done, .get]).lb.count ∧
    (lb_run 2 [.put "a", .put "b", .put "c", .get, .put "d", .set_done, .get]).lb.count ≤
      (lb_run 2 [.put "a", .put "b", .put "c", .get, .put "d", .set_done, .get]).lb.capacity ∧
    (lb_run 2 [.put "a", .put "b", .put "c", .get, .put "d", .set_done, .get]).lb.capacity = 2 ∧
    0 ≤ (lb_run 2 [.put "a", .put "b", .put "c", .get, .put "d", .set_done, .get]).lb.head ∧
    (lb_run 2 [.put "a", .put "b", .put "c", .get, .put "d", .set_done, .get]).lb.head < 2 ∧
    0 ≤ (lb_run 2 [.put "a", .put "b", .put "c", .get, .put "d", .set_done, .get]).lb.tail ∧
    (lb_run 2 [.put "a", .put "b", .put "c", .get, .put "d", .set_done, .get]).lb.tail < 2 :=
  line_buffer_count_bounds 2 (by decide) _
/-! ## Theorems: FIFO order of the line buffer -/

theorem lb_ring_ne (capacity head : Int) (i n : Nat) (hi : i < n)
    (hn : (n : Int) < capacity) :
    (head + i) % capacity ≠ (head + n) % capacity := by
  intro h
  rw [Int.emod_eq_emod_iff_emod_sub_eq_zero] at h
  have h2 : (head + (n : Int) - (head + (i : Int))) % capacity = 0 := by
    have h3 : (head + (i : Int) - (head + (n : Int)))
        = -(head + (n : Int) - (head + (i : Int))) := by omega
    rw [h3] at h
    have h4 := Int.dvd_of_emod_eq_zero h
    exact Int.emod_eq_zero_of_dvd ((Int.dvd_neg).1 h4)
  have h5 : head + (n : Int) - (head + (i : Int)) = (n : Int) - i := by omega
  rw [h5, Int.emod_eq_of_lt (by omega) (by omega)] at h2
  omega

theorem lb_ring_succ (capacity head : Int) (i : Nat) :
    ((head + 1) % capacity + (i : Int)) % capacity = (head + ((i + 1 : Nat) : Int)) % capacity := by
  rw [Int.emod_add_emod]
  congr 1
  push_cast
  omega

theorem lb_cells_succ_last (buffer : List String) (capacity : Int) (n : Nat) (head : Int)
    (h0 : 0 ≤ head) (h1 : head < capacity) :
    lb_cells buffer capacity (n + 1) head =
      lb_cells buffer capacity n head ++ [buffer.getD ((head + n) % capacity).toNat ""] := by
  induction n generalizing head with
  | zero =>
    simp only [lb_cells, Nat.cast_zero, Int.add_zero, List.nil_append]
    rw [Int.emod_eq_of_lt h0 h1]
  | succ n ih =>
    rw [lb_cells, ih _ (Int.emod_nonneg _ (by omega)) (Int.emod_lt_of_pos _ (by omega)),
      lb_ring_succ]
    rfl

theorem lb_cells_set (buffer : List String) (capacity : Int) (t : Nat) (line : String)
    (n : Nat) (head : Int) (h0 : 0 ≤ head) (h1 : head < capacity)
    (hne : ∀ i : Nat, i < n → ((head + i) % capacity).toNat ≠ t) :
    lb_cells (buffer.set t line) capacity n head = lb_cells buffer capacity n head := by
  induction n generalizing head with
  | zero => rfl
  | succ n ih =>
    rw [lb_cells, lb_cells, ih _ (Int.emod_nonneg _ (by omega)) (Int.emod_lt_of_pos _ (by omega))]
    · have hh := hne 0 (Nat.succ_pos n)
      simp only [Nat.cast_zero, Int.add_zero] at hh
      rw [Int.emod_eq_of_lt h0 h1] at hh
      congr 1
      rw [List.getD_eq_getElem?_getD, List.getD_eq_getElem?_getD,
        List.getElem?_set_ne (fun h => hh h.symm)]
    · intro i hi
      rw [lb_ring_succ]
      exact hne (i + 1) (by omega)

/-- Storing a line appends it to the queued lines. -/
theorem lb_contents_put (lb : line_buffer_t) (line : String) (h : lb_inv lb)
    (hlt : lb.count < lb.capacity) :
    lb_contents (line_buffer_put lb line) = lb_contents lb ++ [line] := by
  obtain ⟨h1, h2, h3, h4, h5, h6, h7, h8, h9⟩ := h
  unfold line_buffer_put lb_contents
  rw [if_pos hlt]
  simp only
  have hc : (lb.count + 1).toNat = lb.count.toNat + 1 := by omega
  have hcn : ((lb.count.toNat : Nat) : Int) = lb.count := Int.toNat_of_nonneg h2
  rw [hc, lb_cells_succ_last _ _ _ _ h4 h5, hcn, ← h8]
  rw [lb_cells_set _ _ _ _ _ _ h4 h5]
  · congr 1
    rw [List.getD_eq_getElem?_getD, List.getElem?_set_self (by omega)]
    rfl
  · intro i hi
    have := lb_ring_ne lb.capacity lb.head i lb.count.toNat hi (by omega)
    rw [hcn, ← h8] at this
    intro hcon
    apply this
    have ha := Int.emod_nonneg (lb.head + (i : Int)) (by omega : lb.capacity ≠ 0)
    omega

/-- A returned line is the oldest queued line, and the others stay queued in order. -/
theorem lb_contents_get (lb : line_buffer_t) (h : lb_inv lb) (hgt : lb.count > 0) :
    ∃ line, (line_buffer_get lb).1 = some line ∧
      lb_contents lb = line :: lb_contents (line_buffer_get lb).2 := by
  obtain ⟨h1, h2, h3, h4, h5, h6, h7, h8, h9⟩ := h
  unfold line_buffer_get
  rw [if_pos hgt]
  refine ⟨_, rfl, ?_⟩
  unfold lb_contents
  simp only
  have hc : lb.count.toNat = (lb.count - 1).toNat + 1 := by omega
  rw [hc, lb_cells, lb_succ_tmod _ _ h4 h1]

theorem lb_contents_set_done (lb : line_buffer_t) :
    lb_contents (line_buffer_set_done lb) = lb_contents lb := rfl

/-- At every moment the stored lines are the returned lines followed by the queued ones. -/
theorem lb_fifo_step (h : lb_history) (op : lb_op) (hinv : lb_inv h.lb)
    (hq : h.enqueued = h.returned ++ lb_contents h.lb) :
    (lb_step h op).enqueued = (lb_step h op).returned ++ lb_contents (lb_step h op).lb := by
  cases op with
  | put line =>
    rw [lb_step_put]
    split
    · exact hq
    · simp only
      by_cases hlt : h.lb.count < h.lb.capacity
      · rw [if_pos hlt, lb_contents_put _ _ hinv hlt, hq, List.append_assoc]
      · rw [if_neg hlt]
        unfold line_buffer_put
        rw [if_neg hlt]
        exact hq
  | get =>
    rw [lb_step_get]
    split
    · exact hq
    · by_cases hgt : h.lb.count > 0
      · obtain ⟨line, hl, hc⟩ := lb_contents_get _ hinv hgt
        rw [hl]
        simp only
        rw [hq, hc, List.append_assoc]
        rfl
      · have hn : line_buffer_get h.lb = (none, h.lb) := by
          unfold line_buffer_get
          rw [if_neg hgt]
          split <;> rfl
        rw [hn]
        exact hq
  | set_done => exact hq

theorem lb_fifo_foldl (ops : List lb_op) (h : lb_history) (hinv : lb_inv h.lb)
    (hq : h.enqueued = h.returned ++ lb_contents h.lb) :
    (ops.foldl lb_step h).enqueued =
      (ops.foldl lb_step h).returned ++ lb_contents (ops.foldl lb_step h).lb := by
  induction ops generalizing h with
  | nil => exact hq
  | cons op rest ih => exact ih _ (lb_inv_step h op hinv) (lb_fifo_step h op hinv hq)

/-- C15. On a buffer created empty with a positive capacity, after every sequence of calls
the lines returned by `line_buffer_get` are, in order, the first of the lines stored by
`line_buffer_put`: the `k`-th returned line is the `k`-th stored line, each stored line
is returned at most once, and the stored lines not yet returned are the queued ones. -/
theorem line_buffer_fifo (capacity : Int) (hcap : 0 < capacity) (ops : List lb_op) :
    (lb_run capacity ops).enqueued =
      (lb_run capacity ops).returned ++ lb_contents (lb_run capacity ops).lb ∧
    (∀ (k : Nat) (line : String), (lb_run capacity ops).returned[k]? = some line →
      (lb_run capacity ops).enqueued[k]? = some line) ∧
    (lb_run capacity ops).returned.length ≤ (lb_run capacity ops).enqueued.length := by
  have hq := lb_fifo_foldl ops ⟨line_buffer_init capacity, [], []⟩
    (lb_inv_init capacity hcap) (by
      have : lb_contents (line_buffer_init capacity) = [] := rfl
      rw [this]; rfl)
  have hq2 : (lb_run capacity ops).enqueued =
      (lb_run capacity ops).returned ++ lb_contents (lb_run capacity ops).lb := hq
  refine ⟨hq2, ?_, ?_⟩
  · intro k line hk
    rw [hq2]
    have hlt : k < (lb_run capacity ops).returned.length := by
      rcases List.getElem?_eq_some.1 hk with ⟨hlt, _⟩
      exact hlt
    rw [List.getElem?_append_left hlt]
    exact hk
  · rw [hq2, List.length_append]
    omega

theorem line_buffer_fifo_witness :
    (lb_run 2 [.put "a", .put "b", .get, .put "c", .get, .put "d", .get, .put "e"]).enqueued =
      (lb_run 2 [.put "a", .put "b", .get, .put "c", .get, .put "d", .get, .put "e"]).returned
        ++ lb_contents
          (lb_run 2 [.put "a", .put "b", .get, .put "c", .get, .put "d", .get, .put "e"]).lb ∧
    (∀ (k : Nat) (line : String),
      (lb_run 2 [.put "a", .put "b", .get, .put "c", .get, .put "d", .get, .put "e"]).returned[k]?
        = some line →
      (lb_run 2 [.put "a", .put "b", .get, .put "c", .get, .put "d", .get, .put "e"]).enqueued[k]?
        = some line) ∧
    (lb_run 2 [.put "a", .put "b", .get, .put "c", .get, .put "d", .get, .put "e"]).returned.length
      ≤ (lb_run 2
          [.put "a", .put "b", .get, .put "c", .get, .put "d", .get, .put "e"]).enqueued.length :=
  line_buffer_fifo 2 (by decide) _
/-! ## Theorems: results of `line_buffer_get` and `line_buffer_put` -/

/-- C16. In a buffer state with `0 ≤ count` in which `line_buffer_get` leaves its wait
loop, the call returns none exactly when `done_producing` is set and `count == 0`, and
then changes nothing; otherwise it returns the line at `head`, decrements `count` and
advances `head` modulo the capacity. In particular a line still queued when
`done_producing` is set is returned, not none. -/
theorem line_buffer_get_result (lb : line_buffer_t) (hcount : 0 ≤ lb.count)
    (hleave : line_buffer_get_waits lb = false) :
    ((line_buffer_get lb).1 = none ↔ lb.done_producing = true ∧ lb.count = 0) ∧
    ((line_buffer_get lb).1 = none → (line_buffer_get lb).2 = lb) ∧
    (¬ (lb.done_producing = true ∧ lb.count = 0) →
      (line_buffer_get lb).1 = some (lb.buffer.getD lb.head.toNat "") ∧
      (line_buffer_get lb).2 =
        { lb with head := (lb.head + 1).tmod lb.capacity, count := lb.count - 1 }) ∧
    (lb.done_producing = true → 0 < lb.count → (line_buffer_get lb).1 ≠ none) := by
  unfold line_buffer_get_waits at hleave
  simp only [Bool.and_eq_false_imp, beq_iff_eq, Bool.not_eq_eq_eq_not, Bool.not_false] at hleave
  by_cases hgt : lb.count > 0
  · have hget : line_buffer_get lb = (some (lb.buffer.getD lb.head.toNat ""),
        { lb with head := (lb.head + 1).tmod lb.capacity, count := lb.count - 1 }) := by
      unfold line_buffer_get
      rw [if_pos hgt]
    rw [hget]
    refine ⟨⟨fun h => by simp at h, fun h => by omega⟩, fun h => by simp at h,
      fun _ => ⟨rfl, rfl⟩, fun _ _ => by simp⟩
  · have h0 : lb.count = 0 := by omega
    have hd : lb.done_producing = true := hleave h0
    have hget : line_buffer_get lb = (none, lb) := by
      unfold line_buffer_get
      rw [if_neg hgt]
      split <;> rfl
    rw [hget]
    exact ⟨⟨fun _ => ⟨hd, h0⟩, fun _ => rfl⟩, fun _ => rfl, fun h => absurd ⟨hd, h0⟩ h,
      fun _ h => absurd h hgt⟩

theorem line_buffer_get_result_witness :
    ((line_buffer_get lb_queued_done).1 = none ↔
      lb_queued_done.done_producing = true ∧
      lb_queued_done.count = 0) ∧
    ((line_buffer_get lb_queued_done).1 = none →
      (line_buffer_get lb_queued_done).2 = lb_queued_done) ∧
    (¬ (lb_queued_done.done_producing = true ∧
        lb_queued_done.count = 0) →
      (line_buffer_get lb_queued_done).1 =
        some (lb_queued_done.buffer.getD
          lb_queued_done.head.toNat "") ∧
      (line_buffer_get lb_queued_done).2 =
        { lb_queued_done with
          head := (lb_queued_done.head + 1).tmod
            lb_queued_done.capacity
          count := lb_queued_done.count - 1 }) ∧
    (lb_queued_done.done_producing = true →
      0 < lb_queued_done.count →
      (line_buffer_get lb_queued_done).1 ≠ none) :=
  line_buffer_get_result lb_queued_done (by decide) (by decide)

/-- C17. In a buffer state that satisfies the data-model invariant and in which
`line_buffer_put` leaves its wait loop: if `count < capacity` the call stores the line in
the cell `tail`, advances `tail` modulo the capacity and increments `count`, with `head`
and `done_producing` unchanged; otherwise it leaves the buffer unchanged (the line is
dropped), and `done_producing` is set. So while `done_producing` is not set the line is
stored. -/
theorem line_buffer_put_result (lb : line_buffer_t) (line : String) (hinv : lb_inv lb)
    (hleave : line_buffer_put_waits lb = false) :
    (lb.count < lb.capacity →
      line_buffer_put lb line =
        { lb with
          buffer := lb.buffer.set lb.tail.toNat line
          tail := (lb.tail + 1).tmod lb.capacity
          count := lb.count + 1 } ∧
      (line_buffer_put lb line).buffer.getD lb.tail.toNat "" = line ∧
      (line_buffer_put lb line).head = lb.head ∧
      (line_buffer_put lb line).done_producing = lb.done_producing ∧
      lb_contents (line_buffer_put lb line) = lb_contents lb ++ [line]) ∧
    (¬ lb.count < lb.capacity →
      line_buffer_put lb line = lb ∧ lb.done_producing = true) ∧
    (lb.done_producing = false → lb.count < lb.capacity) := by
  have hinv2 := hinv
  obtain ⟨h1, h2, h3, h4, h5, h6, h7, h8, h9⟩ := hinv
  unfold line_buffer_put_waits at hleave
  simp only [Bool.and_eq_false_imp, beq_iff_eq, Bool.not_eq_eq_eq_not, Bool.not_false] at hleave
  refine ⟨fun hlt => ?_, fun hge => ?_, fun hd => ?_⟩
  · have hput : line_buffer_put lb line =
        { lb with
          buffer := lb.buffer.set lb.tail.toNat line
          tail := (lb.tail + 1).tmod lb.capacity
          count := lb.count + 1 } := by
      unfold line_buffer_put
      rw [if_pos hlt]
    refine ⟨hput, ?_, ?_, ?_, lb_contents_put lb line hinv2 hlt⟩
    · rw [hput]
      simp only
      rw [List.getD_eq_getElem?_getD, List.getElem?_set_self (by omega)]
      rfl
    · rw [hput]
    · rw [hput]
  · have hput : line_buffer_put lb line = lb := by
      unfold line_buffer_put
      rw [if_neg hge]
    exact ⟨hput, hleave (by omega)⟩
  · by_contra hge
    have := hleave (by omega)
    rw [hd] at this
    exact absurd this (by decide)

theorem line_buffer_put_result_witness :
    (lb_full_done.count <
        lb_full_done.capacity →
      line_buffer_put lb_full_done "c" =
        { lb_full_done with
          buffer := lb_full_done.buffer.set
            lb_full_done.tail.toNat "c"
          tail := (lb_full_done.tail + 1).tmod
            lb_full_done.capacity
          count := lb_full_done.count + 1 } ∧
      (line_buffer_put lb_full_done "c").buffer.getD
        lb_full_done.tail.toNat "" = "c" ∧
      (line_buffer_put lb_full_done "c").head =
        lb_full_done.head ∧
      (line_buffer_put lb_full_done "c").done_producing =
        lb_full_done.done_producing ∧
      lb_contents (line_buffer_put lb_full_done "c") =
        lb_contents lb_full_done ++ ["c"]) ∧
    (¬ lb_full_done.count <
        lb_full_done.capacity →
      line_buffer_put lb_full_done "c" = lb_full_done ∧
      lb_full_done.done_producing = true) ∧
    (lb_full_done.done_producing = false →
      lb_full_done.count <
        lb_full_done.capacity) :=
  line_buffer_put_result lb_full_done "c" (by decide) (by decide)

/-! ## Theorems: construction of the node table -/

theorem parse_nomi_line_size (line : String) (a : attore)
    (h : parse_nomi_line line = some a) : line.utf8ByteSize > 1 := by
  unfold parse_nomi_line at h
  split at h
  · simp at h
  · omega

/-- The guard `current_idx < tota_attori` never stops the reading loop before the last
line that gives a record. -/
theorem read_nomi_loop_eq (tota : Nat) (lines : List String) (acc : List attore)
    (h : acc.length + count_nomi_lines lines ≤ tota) :
    read_nomi_loop tota lines acc = acc ++ lines.filterMap parse_nomi_line := by
  induction lines generalizing acc with
  | nil => simp [read_nomi_loop]
  | cons line rest ih =>
    have hcount : count_nomi_lines (line :: rest) =
        (if line.utf8ByteSize > 1 then 1 else 0) + count_nomi_lines rest := by
      unfold count_nomi_lines
      rw [List.filter_cons]
      split
      · rename_i hd
        have hd2 : line.utf8ByteSize > 1 := by simpa using hd
        rw [if_pos hd2, List.length_cons]
        omega
      · rename_i hd
        have hd2 : ¬ line.utf8ByteSize > 1 := by simpa using hd
        rw [if_neg hd2]
        omega
    rw [hcount] at h
    rw [read_nomi_loop, List.filterMap_cons]
    cases hp : parse_nomi_line line with
    | none =>
      simp only
      split
      · exact ih acc (by omega)
      · rename_i hge
        have hzero : count_nomi_lines rest = 0 := by omega
        have hnil : rest.filterMap parse_nomi_line = [] := by
          rw [List.filterMap_eq_nil_iff]
          intro l hl
          cases hq : parse_nomi_line l with
          | none => rfl
          | some b =>
            have hsz := parse_nomi_line_size l b hq
            have hmem : l ∈ rest.filter fun line => line.utf8ByteSize > 1 := by
              rw [List.mem_filter]
              exact ⟨hl, by simpa using hsz⟩
            unfold count_nomi_lines at hzero
            rw [List.length_eq_zero] at hzero
            rw [hzero] at hmem
            simp at hmem
        rw [hnil, List.append_nil]
    | some a =>
      have hsz := parse_nomi_line_size line a hp
      rw [if_pos hsz] at h
      simp only
      rw [if_pos (by omega), ih (acc ++ [a]) (by rw [List.length_append]; simp; omega),
        List.append_assoc]
      rfl

theorem compare_attori_le (a b : attore) : compare_attori a b ≤ 0 ↔ a.codice ≤ b.codice := by
  unfold compare_attori
  split
  · simp; omega
  · split
    · simp; omega
    · simp; omega

theorem compare_attori_le_total : IsTotal attore (fun a b => compare_attori a b ≤ 0) :=
  ⟨fun a b => by
    simp only [compare_attori_le]
    omega⟩

theorem compare_attori_le_trans : IsTrans attore (fun a b => compare_attori a b ≤ 0) :=
  ⟨fun a b c hab hbc => by
    simp only [compare_attori_le] at hab hbc ⊢
    omega⟩

/-- The model of `qsort` meets the contract of the C library: its result is a
rearrangement of the array, sorted for `compare_attori`. -/
theorem qsort_contract (l : List attore) : (qsort l).Perm l ∧ sorted_by_codice (qsort l) := by
  refine ⟨List.perm_insertionSort _ l, ?_⟩
  have hs := @List.sorted_insertionSort attore (fun a b => compare_attori a b ≤ 0) _
    compare_attori_le_total compare_attori_le_trans l
  exact List.Pairwise.imp (fun hab => (compare_attori_le _ _).1 hab) hs

/-- A sorted table whose codes are pairwise distinct is strictly sorted. -/
theorem strictly_sorted_of_nodup (tbl : List attore) (hs : sorted_by_codice tbl)
    (hn : (tbl.map attore.codice).Nodup) : strictly_sorted tbl := by
  unfold strictly_sorted
  unfold sorted_by_codice at hs
  rw [List.Nodup, List.pairwise_map] at hn
  exact (hs.and hn).imp fun ⟨h1, h2⟩ => lt_of_le_of_ne h1 h2

theorem build_node_table_eq (lines : List String) (tbl : List attore)
    (h : build_node_table lines = some tbl) :
    tbl = qsort (lines.filterMap parse_nomi_line) := by
  unfold build_node_table at h
  split at h
  · simp at h
  · simp only [Option.some.injEq] at h
    rw [← h, read_nomi_loop_eq _ _ _ (by simp), List.nil_append]

/-- C11. The node table built from the names file is a permutation of the records
parsed from the lines that have the three TAB-separated fields, and it is sorted by
code. When the codes of the parsed records are pairwise distinct, as the specification
requires of the names file, the order is strict: for all indices `i < j`,
`table[i].code < table[j].code`. Without that condition the order is
`table[i].code ≤ table[j].code`. The construction fails only when no line has more than
one byte. -/
theorem node_table_sorted_perm (lines : List String) :
    (build_node_table lines = none ↔ count_nomi_lines lines = 0) ∧
    ∀ tbl, build_node_table lines = some tbl →
      tbl.Perm (lines.filterMap parse_nomi_line) ∧
      (∀ (i j : Nat) (a b : attore), i < j → tbl[i]? = some a → tbl[j]? = some b →
        a.codice ≤ b.codice) ∧
      (((lines.filterMap parse_nomi_line).map attore.codice).Nodup →
        ∀ (i j : Nat) (a b : attore), i < j → tbl[i]? = some a → tbl[j]? = some b →
          a.codice < b.codice) := by
  constructor
  · unfold build_node_table
    split <;> simp [*]
  · intro tbl h
    have heq := build_node_table_eq lines tbl h
    obtain ⟨hperm, hsorted⟩ := qsort_contract (lines.filterMap parse_nomi_line)
    rw [← heq] at hperm hsorted
    refine ⟨hperm, ?_, ?_⟩
    · intro i j a b hij hi hj
      exact sorted_by_codice_getElem tbl hsorted i j a b hi hj (le_of_lt hij)
    · intro hn i j a b hij hi hj
      have hn2 : (tbl.map attore.codice).Nodup :=
        (List.Perm.nodup_iff (hperm.map attore.codice)).2 hn
      have hst := strictly_sorted_of_nodup tbl hsorted hn2
      obtain ⟨hi1, hi2⟩ := List.getElem?_eq_some.1 hi
      obtain ⟨hj1, hj2⟩ := List.getElem?_eq_some.1 hj
      have := (List.pairwise_iff_getElem.1 hst) i j hi1 hj1 hij
      rw [hi2, hj2] at this
      exact this

/-- The condition of distinct codes is needed for the strict order. The names file
`nomi_duplicate_code`, which the specification excludes, has two records with code 1: the
construction keeps both, and the table has `table[0].code = table[1].code`. -/
theorem node_table_not_strict_on_duplicates :
    ∃ tbl a b, build_node_table nomi_duplicate_code = some tbl ∧
      tbl[0]? = some a ∧ tbl[1]? = some b ∧ ¬ a.codice < b.codice :=
  ⟨[⟨1, "Alice", 1970, []⟩, ⟨1, "Bob", 1971, []⟩], ⟨1, "Alice", 1970, []⟩,
    ⟨1, "Bob", 1971, []⟩, by decide, by decide, by decide, by decide⟩

theorem node_table_sorted_perm_witness :
    ((nomi_three.filterMap parse_nomi_line).map attore.codice).Nodup ∧
    build_node_table nomi_three = some table_no_edges ∧
    table_no_edges.Perm (nomi_three.filterMap parse_nomi_line) ∧
    ∀ (i j : Nat) (a b : attore), i < j → table_no_edges[i]? = some a →
      table_no_edges[j]? = some b → a.codice < b.codice :=
  ⟨by decide, by decide,
    ((node_table_sorted_perm nomi_three).2 table_no_edges (by decide)).1,
    ((node_table_sorted_perm nomi_three).2 table_no_edges (by decide)).2.2 (by decide)⟩

/-- A NUL byte ends the C string that `strtok` reads: the line of `nomi_nul` has two
fields before its NUL byte, so it gives no record, and the table is empty. -/
theorem parse_nomi_line_nul :
    nomi_nul.filterMap parse_nomi_line = [] ∧ build_node_table nomi_nul = some [] := by
  refine ⟨by decide, by decide⟩

/-! ## Theorems: the consumer loop -/

theorem consumer_cop_loop_eq (tokens : List String) (cop : List Int) :
    consumer_cop_loop tokens cop = cop ++ tokens.map atoi := by
  induction tokens generalizing cop with
  | nil => simp [consumer_cop_loop]
  | cons t rest ih => rw [consumer_cop_loop, ih, List.map_cons, List.append_assoc]; rfl

/-- The index search and the record search of the table agree: the record is the cell at
the index. -/
theorem bsearch_index_loop_spec (key : attore) (base : List attore) (fuel l u : Nat) :
    bsearch_loop key base fuel l u =
      (bsearch_index_loop key base fuel l u).bind fun (i : Nat) => base[i]? := by
  induction fuel generalizing l u with
  | zero => rfl
  | succ fuel ih =>
    rw [bsearch_loop, bsearch_index_loop]
    split
    · dsimp only
      cases hq : base[(l + u) / 2]? with
      | none => rfl
      | some p =>
        simp only
        split
        · exact ih _ _
        · split
          · exact ih _ _
          · simp [hq]
    · rfl

theorem find_attore_index_spec (c : Int) (tbl : List attore) :
    find_attore_by_codice c tbl = (find_attore_index c tbl).bind fun (i : Nat) => tbl[i]? :=
  bsearch_index_loop_spec _ tbl _ _ _

theorem bsearch_index_loop_some (key : attore) (base : List attore) (fuel l u i : Nat)
    (h : bsearch_index_loop key base fuel l u = some i) :
    ∃ a, base[i]? = some a ∧ a.codice = key.codice := by
  induction fuel generalizing l u with
  | zero => simp [bsearch_index_loop] at h
  | succ fuel ih =>
    rw [bsearch_index_loop] at h
    split at h
    · dsimp only at h
      cases hq : base[(l + u) / 2]? with
      | none => rw [hq] at h; simp at h
      | some p =>
        rw [hq] at h
        simp only at h
        split at h
        · exact ih _ _ h
        · split at h
          · exact ih _ _ h
          · rename_i h1 h2
            simp only [Option.some.injEq] at h
            rw [← h]
            exact ⟨p, hq, ((compare_attori_eq key p).1 (by omega)).symm⟩
    · simp at h

theorem find_attore_index_some (c : Int) (tbl : List attore) (i : Nat)
    (h : find_attore_index c tbl = some i) : ∃ a, tbl[i]? = some a ∧ a.codice = c :=
  bsearch_index_loop_some _ tbl _ _ _ i h

/-- The index search reads only the codes of the table. -/
theorem bsearch_index_loop_congr (key : attore) (base base2 : List attore)
    (hc : base.map attore.codice = base2.map attore.codice) (fuel l u : Nat) :
    bsearch_index_loop key base fuel l u = bsearch_index_loop key base2 fuel l u := by
  have hget : ∀ i : Nat, (base[i]?).map attore.codice = (base2[i]?).map attore.codice := by
    intro i
    rw [← List.getElem?_map, ← List.getElem?_map, hc]
  induction fuel generalizing l u with
  | zero => rfl
  | succ fuel ih =>
    rw [bsearch_index_loop, bsearch_index_loop]
    split
    · dsimp only
      have hg := hget ((l + u) / 2)
      cases hq : base[(l + u) / 2]? with
      | none =>
        rw [hq] at hg
        cases hq2 : base2[(l + u) / 2]? with
        | none => rfl
        | some p2 => rw [hq2] at hg; simp at hg
      | some p =>
        rw [hq] at hg
        cases hq2 : base2[(l + u) / 2]? with
        | none => rw [hq2] at hg; simp at hg
        | some p2 =>
          rw [hq2] at hg
          simp only [Option.map_some', Option.some.injEq] at hg
          have hcmp : compare_attori key p = compare_attori key p2 := by
            unfold compare_attori
            rw [hg]
          simp only [hcmp]
          split
          · exact ih _ _
          · split
            · exact ih _ _
            · rfl
    · rfl

theorem find_attore_index_congr (c : Int) (tbl tbl2 : List attore)
    (hc : tbl.map attore.codice = tbl2.map attore.codice) :
    find_attore_index c tbl = find_attore_index c tbl2 := by
  unfold find_attore_index
  have hlen : tbl.length = tbl2.length := by
    have := congrArg List.length hc
    simpa using this
  rw [hlen]
  exact bsearch_index_loop_congr _ tbl tbl2 hc _ _ _

/-- What one line does to the table, case by case. -/
theorem consumer_line_cases (tbl : List attore) (line : String) :
    (consumer_line tbl line = tbl ∧
      (strtok_tokens line [' ', '\t', '\n'] = [] ∨
        ∃ token rest, strtok_tokens line [' ', '\t', '\n'] = token :: rest ∧
          find_attore_index (atoi token) tbl = none)) ∨
    ∃ token rest i a, strtok_tokens line [' ', '\t', '\n'] = token :: rest ∧
      find_attore_index (atoi token) tbl = some i ∧ tbl[i]? = some a ∧
      a.codice = atoi token ∧
      consumer_line tbl line = tbl.set i { a with cop := rest.map atoi } := by
  unfold consumer_line
  cases ht : strtok_tokens line [' ', '\t', '\n'] with
  | nil => exact Or.inl ⟨rfl, Or.inl rfl⟩
  | cons token rest =>
    simp only
    cases hf : find_attore_index (atoi token) tbl with
    | none => exact Or.inl ⟨rfl, Or.inr ⟨token, rest, rfl, hf⟩⟩
    | some i =>
      obtain ⟨a, ha, hc⟩ := find_attore_index_some _ _ _ hf
      simp only [ha]
      refine Or.inr ⟨token, rest, i, a, rfl, hf, ha, hc, ?_⟩
      rw [consumer_cop_loop_eq, List.nil_append]

theorem list_set_same {α : Type} (l : List α) (i : Nat) (x : α) (h : l[i]? = some x) :
    l.set i x = l := by
  apply List.ext_getElem?
  intro n
  rw [List.getElem?_set]
  split
  · rename_i hin
    subst hin
    rw [if_pos (List.getElem?_eq_some.1 h).1, h]
  · rfl

theorem consumer_line_fields (tbl : List attore) (line : String) :
    (consumer_line tbl line).map attore.codice = tbl.map attore.codice ∧
    (consumer_line tbl line).map attore.nome = tbl.map attore.nome ∧
    (consumer_line tbl line).map attore.anno = tbl.map attore.anno := by
  have hset : ∀ (f : attore → Int) (g : attore → String) (i : Nat) (a b : attore),
      tbl[i]? = some a → f b = f a → g b = g a →
      (tbl.set i b).map f = tbl.map f ∧ (tbl.set i b).map g = tbl.map g := by
    intro f g i a b ha hf hg
    constructor
    · rw [List.map_set, hf]
      exact list_set_same _ _ _ (by rw [List.getElem?_map, ha]; rfl)
    · rw [List.map_set, hg]
      exact list_set_same _ _ _ (by rw [List.getElem?_map, ha]; rfl)
  rcases consumer_line_cases tbl line with ⟨h, _⟩ | ⟨token, rest, i, a, _, _, ha, _, h⟩
  · rw [h]
    exact ⟨rfl, rfl, rfl⟩
  · rw [h]
    have h1 := hset attore.codice attore.nome i a { a with cop := rest.map atoi } ha rfl rfl
    have h2 := hset attore.anno attore.nome i a { a with cop := rest.map atoi } ha rfl rfl
    exact ⟨h1.1, h1.2, h2.1⟩

theorem not_has_codice_index (tbl : List attore) (c : Int) (h : ¬ has_codice tbl c) :
    find_attore_index c tbl = none := by
  cases hf : find_attore_index c tbl with
  | none => rfl
  | some i =>
    obtain ⟨a, ha, hc⟩ := find_attore_index_some c tbl i hf
    exact absurd ⟨a, List.getElem?_mem ha, hc⟩ h

/-- C13. Processing one graph line keeps the length of the table and, cell by cell, the
code, the name and the year of every record; the neighbor list of a cell can change only
if the cell is the one that the lookup of the line's head code returns, whose code is
that head code; and when the line has no token or its head code is not the code of a
record, the table is unchanged. -/
theorem consumer_line_frame (attori_arr : List attore) (line : String) :
    (consumer_line attori_arr line).length = attori_arr.length ∧
    (consumer_line attori_arr line).map attore.codice = attori_arr.map attore.codice ∧
    (consumer_line attori_arr line).map attore.nome = attori_arr.map attore.nome ∧
    (consumer_line attori_arr line).map attore.anno = attori_arr.map attore.anno ∧
    (∀ (i : Nat) (a b : attore), attori_arr[i]? = some a →
      (consumer_line attori_arr line)[i]? = some b → b.cop ≠ a.cop →
        head_codice line = some a.codice ∧ find_attore_index a.codice attori_arr = some i) ∧
    (head_codice line = none → consumer_line attori_arr line = attori_arr) ∧
    (∀ c, head_codice line = some c → ¬ has_codice attori_arr c →
      consumer_line attori_arr line = attori_arr) := by
  obtain ⟨hc, hn, ha⟩ := consumer_line_fields attori_arr line
  have hlen : (consumer_line attori_arr line).length = attori_arr.length := by
    have := congrArg List.length hc
    simpa using this
  refine ⟨hlen, hc, hn, ha, ?_, ?_, ?_⟩
  · intro i a b hia hib hne
    rcases consumer_line_cases attori_arr line with ⟨h, _⟩ | ⟨token, rest, j, x, ht, hf, hx, hxc, h⟩
    · rw [h, hia] at hib
      simp only [Option.some.injEq] at hib
      rw [hib] at hne
      exact absurd rfl hne
    · rw [h] at hib
      by_cases hji : j = i
      · subst hji
        rw [hx] at hia
        simp only [Option.some.injEq] at hia
        subst hia
        refine ⟨?_, by rw [hxc]; exact hf⟩
        unfold head_codice
        rw [ht, hxc]
        rfl
      · rw [List.getElem?_set_ne hji, hia] at hib
        simp only [Option.some.injEq] at hib
        rw [hib] at hne
        exact absurd rfl hne
  · intro hnone
    rcases consumer_line_cases attori_arr line with ⟨h, _⟩ | ⟨token, rest, j, x, ht, _, _, _, _⟩
    · exact h
    · unfold head_codice at hnone
      rw [ht] at hnone
      simp at hnone
  · intro c hcode hnot
    rcases consumer_line_cases attori_arr line with ⟨h, _⟩ | ⟨token, rest, j, x, ht, hf, _, _, _⟩
    · exact h
    · unfold head_codice at hcode
      rw [ht] at hcode
      simp only [List.head?_cons, Option.map_some', Option.some.injEq] at hcode
      rw [hcode, not_has_codice_index attori_arr c hnot] at hf
      simp at hf

theorem consumer_fold_codes (lines : List String) (tbl : List attore) :
    (lines.foldl consumer_line tbl).map attore.codice = tbl.map attore.codice := by
  induction lines generalizing tbl with
  | nil => rfl
  | cons l rest ih => rw [List.foldl_cons, ih, (consumer_line_fields tbl l).1]

/-- Lines with other head codes leave a record untouched. -/
theorem consumer_fold_untouched (lines : List String) (tbl : List attore) (c : Int)
    (hl : ∀ l ∈ lines, head_codice l ≠ some c) (i : Nat) (a : attore)
    (ha : tbl[i]? = some a) (hc : a.codice = c) :
    (lines.foldl consumer_line tbl)[i]? = some a := by
  induction lines generalizing tbl with
  | nil => exact ha
  | cons l rest ih =>
    rw [List.foldl_cons]
    apply ih _ (fun l2 hl2 => hl l2 (List.mem_cons_of_mem _ hl2))
    rcases consumer_line_cases tbl l with ⟨h, _⟩ | ⟨token, rest2, j, x, ht, hf, hx, hxc, h⟩
    · rw [h]; exact ha
    · rw [h]
      have hne : j ≠ i := by
        intro hji
        subst hji
        rw [hx] at ha
        simp only [Option.some.injEq] at ha
        subst ha
        apply hl l (List.mem_cons_self _ _)
        unfold head_codice
        rw [ht, ← hc, hxc]
        rfl
      rw [List.getElem?_set_ne hne]
      exact ha

/-- After the lines have been processed, the cell found for the head code of a line
holds the values of the other tokens of that line. -/
theorem consumer_fold_cop (lines : List String) (tbl : List attore)
    (hn : (lines.filterMap head_codice).Nodup) (line token : String) (rest : List String)
    (hmem : line ∈ lines) (ht : strtok_tokens line [' ', '\t', '\n'] = token :: rest)
    (i : Nat) (hf : find_attore_index (atoi token) tbl = some i) :
    ∃ a, (lines.foldl consumer_line tbl)[i]? = some a ∧ a.codice = atoi token ∧
      a.cop = rest.map atoi := by
  have hhead : head_codice line = some (atoi token) := by
    unfold head_codice
    rw [ht]
    rfl
  induction lines generalizing tbl with
  | nil => simp at hmem
  | cons l0 rest0 ih =>
    rw [List.foldl_cons]
    by_cases hl0 : line = l0
    · subst hl0
      rw [List.filterMap_cons, hhead] at hn
      simp only at hn
      have hnot : ∀ l ∈ rest0, head_codice l ≠ some (atoi token) := by
        intro l hl hcon
        have : atoi token ∈ rest0.filterMap head_codice :=
          List.mem_filterMap.2 ⟨l, hl, hcon⟩
        exact (List.nodup_cons.1 hn).1 this
      rcases consumer_line_cases tbl line with ⟨_, h⟩ | ⟨token2, rest2, j, x, ht2, hf2, hx, hxc, h⟩
      · rcases h with h | ⟨token2, rest2, ht2, hf2⟩
        · rw [ht] at h; simp at h
        · rw [ht] at ht2
          simp only [List.cons.injEq] at ht2
          rw [← ht2.1, hf] at hf2
          simp at hf2
      · rw [ht] at ht2
        simp only [List.cons.injEq] at ht2
        obtain ⟨ht2a, ht2b⟩ := ht2
        subst ht2a
        subst ht2b
        rw [hf] at hf2
        simp only [Option.some.injEq] at hf2
        subst hf2
        rw [h]
        have hi : i < tbl.length := (List.getElem?_eq_some.1 hx).1
        refine ⟨{ x with cop := rest.map atoi }, ?_, hxc, rfl⟩
        exact consumer_fold_untouched rest0 _ (atoi token) hnot i _
          (List.getElem?_set_self hi) hxc
    · have hmem2 : line ∈ rest0 := by
        rcases List.mem_cons.1 hmem with h | h
        · exact absurd h hl0
        · exact h
      have hn2 : (rest0.filterMap head_codice).Nodup := by
        rw [List.filterMap_cons] at hn
        cases hh : head_codice l0 with
        | none => rw [hh] at hn; exact hn
        | some c => rw [hh] at hn; exact (List.nodup_cons.1 hn).2
      have hf2 : find_attore_index (atoi token) (consumer_line tbl l0) = some i := by
        rw [find_attore_index_congr _ _ tbl (consumer_line_fields tbl l0).1]
        exact hf
      exact ih _ hn2 hmem2 hf2

/-- C12. Let the graph lines have pairwise distinct head codes, and let the consumers
process them in any order on a table sorted by code. Afterwards, for every line whose
head code is the code of a record, the record that the lookup returns for that code has
`numcop` equal to the number of tokens after the first and `cop` equal to the values of
those tokens in line order, duplicates kept; on a strictly sorted table it is the only
record with that code. -/
theorem consumer_fills_neighbors (attori_arr : List attore) (lines processed : List String)
    (hs : sorted_by_codice attori_arr) (horder : processed.Perm lines)
    (hn : (lines.filterMap head_codice).Nodup) :
    ∀ line ∈ lines, ∀ token rest, strtok_tokens line [' ', '\t', '\n'] = token :: rest →
      has_codice attori_arr (atoi token) →
      ∃ r, find_attore_by_codice (atoi token) (consumer_thread_func attori_arr processed)
          = some r ∧
        r.codice = atoi token ∧ r.numcop = rest.length ∧ r.cop = rest.map atoi ∧
        (strictly_sorted attori_arr →
          ∀ r2 ∈ consumer_thread_func attori_arr processed, r2.codice = atoi token → r2 = r) := by
  intro line hline token rest ht hhas
  have hn2 : (processed.filterMap head_codice).Nodup :=
    (List.Perm.nodup_iff (horder.filterMap head_codice)).2 hn
  have hline2 : line ∈ processed := horder.mem_iff.2 hline
  obtain ⟨r0, hr0⟩ := find_attore_by_codice_isSome _ attori_arr hs hhas
  rw [find_attore_index_spec] at hr0
  cases hf : find_attore_index (atoi token) attori_arr with
  | none => rw [hf] at hr0; simp at hr0
  | some i =>
    obtain ⟨a, ha, hac, hacop⟩ :=
      consumer_fold_cop processed attori_arr hn2 line token rest hline2 ht i hf
    have hcodes := consumer_fold_codes processed attori_arr
    have hfind : find_attore_by_codice (atoi token) (consumer_thread_func attori_arr processed)
        = some a := by
      rw [find_attore_index_spec]
      unfold consumer_thread_func
      rw [find_attore_index_congr _ _ attori_arr hcodes, hf]
      exact ha
    refine ⟨a, hfind, hac, ?_, hacop, ?_⟩
    · unfold attore.numcop
      rw [hacop, List.length_map]
    · intro hst r2 hr2 hr2c
      have hst2 : strictly_sorted (consumer_thread_func attori_arr processed) := by
        unfold strictly_sorted at hst ⊢
        have h1 : (attori_arr.map attore.codice).Pairwise (· < ·) := List.pairwise_map.2 hst
        unfold consumer_thread_func
        rw [← hcodes] at h1
        exact List.pairwise_map.1 h1
      have := find_attore_by_codice_mem _ hst2 r2 hr2
      rw [hr2c, hfind] at this
      simp only [Option.some.injEq] at this
      exact this.symm

theorem consumer_fills_neighbors_witness :
    ∃ r, find_attore_by_codice (atoi "2")
        (consumer_thread_func table_no_edges ["3 2\n", "1 2\n", "2 1 3\n"]) = some r ∧
      r.codice = atoi "2" ∧ r.numcop = ["1", "3"].length ∧ r.cop = ["1", "3"].map atoi ∧
      (strictly_sorted table_no_edges →
        ∀ r2 ∈ consumer_thread_func table_no_edges ["3 2\n", "1 2\n", "2 1 3\n"],
          r2.codice = atoi "2" → r2 = r) :=
  consumer_fills_neighbors table_no_edges grafo_two_hop ["3 2\n", "1 2\n", "2 1 3\n"]
    (by decide) (by decide) (by decide) "2 1 3\n" (by decide) "2" ["1", "3"] (by decide)
    (by decide)

/-! ## Theorems: the safeguard of the path reconstruction -/

/-- The worker's output after a search that found the end code is `bfs_report_path` on
the index that the search built. -/
theorem bfs_worker_found_branch (key : Int → Int) (fuel : Nat) (tbl : List attore)
    (s e : Int) (a b : attore) (st : bfs_state)
    (hfs : find_attore_by_codice s tbl = some a) (hfe : find_attore_by_codice e tbl = some b)
    (hl : bfs_loop key tbl e fuel [s] (abr_insert .NULL (key s) s (-1)) = some st)
    (hp : st.path_found = true) :
    bfs_worker key fuel tbl s e = bfs_report_path key fuel tbl s e st.explored_root := by
  unfold bfs_worker bfs_report_path
  rw [hfs, hfe]
  simp only [fifo_queue_enqueue, fifo_queue_create, List.nil_append]
  rw [hl]
  simp only [hp, if_true]

theorem chain_reaches_sentinel_false_ne (key : Int → Int) (t : abr_node_t) (n : Nat) (c : Int)
    (h : chain_reaches_sentinel key t n c = false) : c ≠ -1 := by
  intro hc
  cases n with
  | zero => simp [chain_reaches_sentinel, hc] at h
  | succ n => simp [chain_reaches_sentinel, hc] at h

/-- When the parent chain from `c` does not reach the sentinel within the cells that the
array has left, the reconstruction loop ends with `path_len = 0`. -/
theorem trace_loop_abort (key : Int → Int) (t : abr_node_t) (tota fuel : Nat) (c : Int)
    (path : List Int) (hlen : path.length ≤ tota) (hf : tota + 1 ≤ fuel + path.length)
    (h : chain_reaches_sentinel key t (tota - path.length) c = false) :
    trace_loop key t tota fuel c path = some [] := by
  induction fuel generalizing c path with
  | zero => omega
  | succ fuel ih =>
    rw [trace_loop_succ, if_neg (chain_reaches_sentinel_false_ne key t _ c h)]
    by_cases h2 : path.length ≥ tota
    · rw [if_pos h2]
    · rw [if_neg h2]
      have hk : tota - path.length = (tota - (path ++ [c]).length) + 1 := by
        rw [List.length_append, List.length_singleton]
        omega
      rw [hk, chain_reaches_sentinel] at h
      simp only [Bool.or_eq_false_iff] at h
      cases hl : abr_lookup t (key c) with
      | none => rfl
      | some x =>
        rw [hl] at h
        refine ih x.2 (path ++ [c]) ?_ ?_ h.2
        · rw [List.length_append, List.length_singleton]; omega
        · rw [List.length_append, List.length_singleton]; omega

/-- C20 (amended). In the path branch of the worker, for every index whose parent chain
from `end_code` does not reach the sentinel within `tota_attori` cells, the path is
aborted: no node line is written to the file, and the summary line printed is
`Lunghezza minima 0`. -/
theorem aborted_path_prints_length_zero (key : Int → Int) (explored_root : abr_node_t)
    (attori_arr : List attore) (s e : Int) (fuel : Nat)
    (hfuel : attori_arr.length + 1 ≤ fuel)
    (h : chain_reaches_sentinel key explored_root attori_arr.length e = false) :
    bfs_report_path key fuel attori_arr s e explored_root =
      some ⟨[], some (.lunghezza_minima s e 0)⟩ := by
  unfold bfs_report_path
  rw [trace_loop_abort key explored_root attori_arr.length fuel e [] (Nat.zero_le _)
    (by simpa using hfuel) (by simpa using h)]
  rfl

theorem aborted_path_prints_length_zero_witness :
    bfs_report_path shuffle 3 table_pair 1 2 abr_cyclic =
      some ⟨[], some (.lunghezza_minima 1 2 0)⟩ :=
  aborted_path_prints_length_zero shuffle abr_cyclic table_pair 1 2 3 (by decide) (by decide)

/-- C20 (counterexample). On the index `abr_cyclic`, whose parent chain from 1 is a
cycle, with a table of two records, the path branch of the worker does not report a
failure: it prints the summary of a found path, `Lunghezza minima 0`, over an empty
file. -/
theorem cyclic_chain_reported_as_found_path :
    chain_reaches_sentinel shuffle abr_cyclic table_pair.length 1 = false ∧
    bfs_report_path shuffle 3 table_pair 1 1 abr_cyclic =
      some ⟨[], some (.lunghezza_minima 1 1 0)⟩ ∧
    bfs_report_path shuffle 3 table_pair 1 1 abr_cyclic ≠
      some ⟨[.non_esistono_cammini 1 1], some (.nessun_cammino 1 1)⟩ := by
  refine ⟨by decide, by decide, by decide⟩

/-! ## Theorems: a code is inserted at most once -/

/-- `abr_insert` with a key that `abr_search` finds returns the tree unchanged. -/
theorem abr_insert_of_search (t : abr_node_t) (k o p : Int) (h : abr_search t k ≠ .NULL) :
    abr_insert t k o p = t := by
  induction t with
  | NULL => exact absurd rfl h
  | node sc oc pc l r ihl ihr =>
    rw [abr_search] at h
    rw [abr_insert]
    by_cases h1 : sc = k
    · rw [if_neg (by omega), if_neg (by omega)]
    · rw [if_neg h1] at h
      by_cases h2 : k < sc
      · rw [if_pos h2] at h
        rw [if_pos h2, ihl h]
      · rw [if_neg h2] at h
        rw [if_neg h2, if_pos (by omega), ihr h]

theorem abr_entries_insert_mem (t : abr_node_t) (k o p : Int) (e : Int × Int × Int)
    (h : e ∈ abr_entries (abr_insert t k o p)) : e = (k, o, p) ∨ e ∈ abr_entries t := by
  induction t with
  | NULL =>
    simp only [abr_insert, abr_entries, List.nil_append, List.mem_singleton] at h
    exact Or.inl h
  | node sc oc pc l r ihl ihr =>
    rw [abr_insert] at h
    split at h
    · simp only [abr_entries, List.mem_append, List.mem_cons] at h ⊢
      rcases h with h | h | h
      · rcases ihl h with h | h
        · exact Or.inl h
        · exact Or.inr (Or.inl h)
      · exact Or.inr (Or.inr (Or.inl h))
      · exact Or.inr (Or.inr (Or.inr h))
    · split at h
      · simp only [abr_entries, List.mem_append, List.mem_cons] at h ⊢
        rcases h with h | h | h
        · exact Or.inr (Or.inl h)
        · exact Or.inr (Or.inr (Or.inl h))
        · rcases ihr h with h | h
          · exact Or.inl h
          · exact Or.inr (Or.inr (Or.inr h))
      · exact Or.inr h

/-- Inserting a key that `abr_search` does not find adds exactly one cell. -/
theorem abr_entries_insert_perm (t : abr_node_t) (k o p : Int) (h : abr_lookup t k = none) :
    (abr_entries (abr_insert t k o p)).Perm ((k, o, p) :: abr_entries t) := by
  induction t with
  | NULL => simp [abr_insert, abr_entries]
  | node sc oc pc l r ihl ihr =>
    rw [abr_lookup_node] at h
    rw [abr_insert]
    by_cases h1 : sc = k
    · rw [if_pos h1] at h
      simp at h
    · rw [if_neg h1] at h
      by_cases h2 : k < sc
      · rw [if_pos h2] at h
        rw [if_pos h2]
        simp only [abr_entries]
        exact (List.Perm.append_right _ (ihl h)).trans (by simp)
      · rw [if_neg h2] at h
        rw [if_neg h2, if_pos (by omega)]
        simp only [abr_entries]
        have h3 := List.Perm.append_left (abr_entries l)
          (List.Perm.cons (sc, oc, pc) (ihr h))
        refine h3.trans ?_
        have e1 : abr_entries l ++ (sc, oc, pc) :: (k, o, p) :: abr_entries r
            = (abr_entries l ++ [(sc, oc, pc)]) ++ (k, o, p) :: abr_entries r := by simp
        have e2 : abr_entries l ++ (sc, oc, pc) :: abr_entries r
            = (abr_entries l ++ [(sc, oc, pc)]) ++ abr_entries r := by simp
        rw [e1, e2]
        exact List.perm_middle

theorem abr_lookup_mem_entries (t : abr_node_t) (k : Int) (x : Int × Int)
    (h : abr_lookup t k = some x) : (k, x) ∈ abr_entries t := by
  induction t with
  | NULL => simp [abr_lookup_NULL] at h
  | node sc oc pc l r ihl ihr =>
    rw [abr_lookup_node] at h
    simp only [abr_entries, List.mem_append, List.mem_cons]
    by_cases h1 : sc = k
    · rw [if_pos h1] at h
      simp only [Option.some.injEq] at h
      exact Or.inr (Or.inl (by rw [← h, h1]))
    · rw [if_neg h1] at h
      by_cases h2 : k < sc
      · rw [if_pos h2] at h
        exact Or.inl (ihl h)
      · rw [if_neg h2] at h
        exact Or.inr (Or.inr (ihr h))

theorem abr_found_insert (t : abr_node_t) (k o p : Int) (h : abr_found t) :
    abr_found (abr_insert t k o p) := by
  intro e he
  rw [abr_lookup_insert]
  rcases abr_entries_insert_mem t k o p e he with h1 | h1
  · by_cases hl : abr_lookup t k = none
    · rw [h1]
      simp [hl]
    · have hs : abr_search t k ≠ .NULL := fun hs => hl ((abr_search_NULL_iff t k).1 hs)
      rw [abr_insert_of_search t k o p hs] at he
      have := h e he
      rw [h1] at this ⊢
      simp only [if_true]
      rw [this]
  · have := h e h1
    by_cases hk : e.1 = k
    · rw [if_pos hk, ← hk, this]
    · rw [if_neg hk, this]

theorem abr_found_NULL : abr_found .NULL := by
  intro e he
  simp [abr_entries] at he

theorem abr_found_build (calls : List (Int × Int × Int)) : abr_found (abr_build calls) := by
  unfold abr_build
  have : ∀ (t : abr_node_t), abr_found t →
      abr_found (calls.foldl (fun t c => abr_insert t c.1 c.2.1 c.2.2) t) := by
    induction calls with
    | nil => intro t ht; exact ht
    | cons c rest ih =>
      intro t ht
      exact ih _ (abr_found_insert t _ _ _ ht)
  exact this _ abr_found_NULL

/-- In a tree all of whose cells are found by `abr_search`, `abr_insert` with the key of
a cell returns the tree unchanged. -/
theorem abr_insert_present (t : abr_node_t) (hf : abr_found t) (k o p : Int)
    (h : ∃ e ∈ abr_entries t, e.1 = k) : abr_insert t k o p = t := by
  obtain ⟨e, he, hk⟩ := h
  apply abr_insert_of_search
  rw [Ne, abr_search_NULL_iff, ← hk, hf e he]
  simp

theorem bfs_visit_log_fst (key : Int → Int) (cur : Int) (cop : List Int) (q : fifo_queue_t)
    (t : abr_node_t) (log : List Int) :
    ((bfs_visit_log key cur cop q t log).1, (bfs_visit_log key cur cop q t log).2.1) =
      bfs_visit key cur cop q t := by
  induction cop generalizing q t log with
  | nil => rfl
  | cons n rest ih =>
    rw [bfs_visit_log, bfs_visit]
    split
    · exact ih _ _ _
    · exact ih _ _ _

theorem bfs_visit_log_cons (key : Int → Int) (cur n : Int) (rest : List Int)
    (q : fifo_queue_t) (t : abr_node_t) (log : List Int) :
    bfs_visit_log key cur (n :: rest) q t log =
      if abr_lookup t (key n) = none then
        bfs_visit_log key cur rest (q ++ [n]) (abr_insert t (key n) n cur) (log ++ [n])
      else bfs_visit_log key cur rest q t log := by
  rw [bfs_visit_log]
  split
  · rename_i h
    rw [if_pos ((abr_search_NULL_iff _ _).1 h)]
    rfl
  · rename_i h
    have : ¬ abr_lookup t (key n) = none := by
      rw [← abr_search_NULL_iff, h]; simp
    rw [if_neg this]

/-- The logged codes are pairwise distinct, are bound in the index, and the index holds
one cell per logged code. -/
theorem bfs_visit_log_inv (key : Int → Int) (cur : Int) (cop : List Int) (q : fifo_queue_t)
    (t : abr_node_t) (log : List Int) (hn : log.Nodup)
    (hb : ∀ c ∈ log, abr_lookup t (key c) ≠ none)
    (hp : ((abr_entries t).map fun e => e.2.1).Perm log) :
    (bfs_visit_log key cur cop q t log).2.2.Nodup ∧
    (∀ c ∈ (bfs_visit_log key cur cop q t log).2.2,
      abr_lookup (bfs_visit_log key cur cop q t log).2.1 (key c) ≠ none) ∧
    ((abr_entries (bfs_visit_log key cur cop q t log).2.1).map fun e => e.2.1).Perm
      (bfs_visit_log key cur cop q t log).2.2 := by
  induction cop generalizing q t log with
  | nil => exact ⟨hn, hb, hp⟩
  | cons n rest ih =>
    rw [bfs_visit_log_cons]
    by_cases hl : abr_lookup t (key n) = none
    · rw [if_pos hl]
      apply ih
      · rw [List.nodup_append]
        refine ⟨hn, List.nodup_singleton n, ?_⟩
        intro a ha hb2
        simp only [List.mem_singleton] at hb2
        rw [hb2] at ha
        exact hb n ha hl
      · intro c hc
        rw [abr_lookup_insert]
        rcases List.mem_append.1 hc with hc | hc
        · by_cases hk : key c = key n
          · rw [if_pos hk, hl]
            simp
          · rw [if_neg hk]
            exact hb c hc
        · simp only [List.mem_singleton] at hc
          rw [hc, if_pos rfl, hl]
          simp
      · have h1 := (abr_entries_insert_perm t (key n) n cur hl).map fun e => e.2.1
        refine h1.trans ?_
        simp only [List.map_cons]
        refine (List.Perm.cons n hp).trans ?_
        exact (List.perm_append_singleton n log).symm
    · rw [if_neg hl]
      exact ih _ _ _ hn hb hp

theorem bfs_loop_log_cons (key : Int → Int) (tbl : List attore) (e : Int) (fuel : Nat)
    (c : Int) (q : fifo_queue_t) (t : abr_node_t) (log : List Int) :
    bfs_loop_log key tbl e (fuel + 1) (c :: q) t log =
      if c = e then some (⟨true, q, t⟩, log)
      else match find_attore_by_codice c tbl with
        | none => bfs_loop_log key tbl e fuel q t log
        | some a =>
          bfs_loop_log key tbl e fuel (bfs_visit_log key c a.cop q t log).1
            (bfs_visit_log key c a.cop q t log).2.1 (bfs_visit_log key c a.cop q t log).2.2 := by
  rw [bfs_loop_log]
  simp only [fifo_queue_is_empty, List.isEmpty_cons, Bool.false_eq_true, if_false,
    fifo_queue_dequeue]

/-- Erasing the log from the instrumented loop gives the search loop. -/
theorem bfs_loop_log_fst (key : Int → Int) (tbl : List attore) (e : Int) (fuel : Nat)
    (q : fifo_queue_t) (t : abr_node_t) (log : List Int) :
    (bfs_loop_log key tbl e fuel q t log).map Prod.fst = bfs_loop key tbl e fuel q t := by
  induction fuel generalizing q t log with
  | zero => rfl
  | succ fuel ih =>
    cases q with
    | nil => rfl
    | cons c q1 =>
      rw [bfs_loop_log_cons, bfs_loop_cons]
      by_cases hce : c = e
      · rw [if_pos hce, if_pos hce]
        rfl
      · rw [if_neg hce, if_neg hce]
        cases hf : find_attore_by_codice c tbl with
        | none => exact ih _ _ _
        | some a =>
          simp only
          have h := bfs_visit_log_fst key c a.cop q1 t log
          rw [← h]
          exact ih _ _ _

theorem bfs_loop_log_inv (key : Int → Int) (tbl : List attore) (e : Int) (fuel : Nat)
    (q : fifo_queue_t) (t : abr_node_t) (log : List Int) (st : bfs_state) (log2 : List Int)
    (hn : log.Nodup) (hb : ∀ c ∈ log, abr_lookup t (key c) ≠ none)
    (hp : ((abr_entries t).map fun e => e.2.1).Perm log)
    (h : bfs_loop_log key tbl e fuel q t log = some (st, log2)) :
    log2.Nodup ∧ ((abr_entries st.explored_root).map fun e => e.2.1).Perm log2 := by
  induction fuel generalizing q t log with
  | zero => simp [bfs_loop_log] at h
  | succ fuel ih =>
    cases q with
    | nil =>
      simp only [bfs_loop_log, fifo_queue_is_empty, List.isEmpty_nil, if_true,
        Option.some.injEq, Prod.mk.injEq] at h
      rw [← h.1, ← h.2]
      exact ⟨hn, hp⟩
    | cons c q1 =>
      rw [bfs_loop_log_cons] at h
      by_cases hce : c = e
      · rw [if_pos hce] at h
        simp only [Option.some.injEq, Prod.mk.injEq] at h
        rw [← h.1, ← h.2]
        exact ⟨hn, hp⟩
      · rw [if_neg hce] at h
        cases hf : find_attore_by_codice c tbl with
        | none =>
          rw [hf] at h
          exact ih _ _ _ hn hb hp h
        | some a =>
          rw [hf] at h
          obtain ⟨h1, h2, h3⟩ := bfs_visit_log_inv key c a.cop q1 t log hn hb hp
          exact ih _ _ _ h1 h2 h3 h

/-- With enough fuel the search loop keyed by `shuffle` ends. -/
theorem bfs_loop_shuffle_isSome (tbl : List attore) (ht : table_int32 tbl) (s e : Int)
    (hs : isInt32 s) (fuel : Nat) (hf : bfs_fuel tbl ≤ fuel) :
    ∃ st, bfs_loop shuffle tbl e fuel [s] (abr_insert .NULL (shuffle s) s (-1)) = some st := by
  have hq : ∀ x ∈ [s], isInt32 x := by
    intro x hx
    simp only [List.mem_singleton] at hx
    rw [hx]; exact hs
  obtain ⟨su, hsu, _⟩ := bfs_loop_id_final tbl s e fuel hf
  rcases idx_sim_loop shuffle shuffle_inj tbl ht e fuel [s] hq _ _
      (idx_sim_init shuffle shuffle_inj s hs) with ⟨_, h2⟩ | ⟨st, _, h1, _⟩
  · rw [hsu] at h2
    simp at h2
  · exact ⟨st, h1⟩

/-- C18. A key that is present is never inserted again: `abr_insert` with a key that
`abr_search` finds, or with the key of any cell of a tree built by `abr_insert` calls,
returns the tree unchanged, so the cell keeps its original code and its first parent.
And in a run of the search loop of the worker, which ends with enough fuel, the codes
passed to `abr_insert` and `fifo_queue_enqueue` are pairwise distinct, and the index has
exactly one cell per such code. -/
theorem index_insert_at_most_once (attori_arr : List attore) (s e : Int) (fuel : Nat)
    (h32 : table_int32 attori_arr) (hs32 : isInt32 s) (hfuel : bfs_fuel attori_arr ≤ fuel) :
    (∀ t k o p, abr_search t k ≠ .NULL →
      abr_insert t k o p = t ∧ abr_lookup (abr_insert t k o p) k = abr_lookup t k) ∧
    (∀ calls k o p, (∃ c ∈ abr_entries (abr_build calls), c.1 = k) →
      abr_insert (abr_build calls) k o p = abr_build calls) ∧
    ∃ st log,
      bfs_loop_log shuffle attori_arr e fuel [s] (abr_insert .NULL (shuffle s) s (-1)) [s]
        = some (st, log) ∧
      bfs_loop shuffle attori_arr e fuel [s] (abr_insert .NULL (shuffle s) s (-1)) = some st ∧
      log.Nodup ∧ ((abr_entries st.explored_root).map fun c => c.2.1).Perm log := by
  refine ⟨fun t k o p h => ?_, fun calls k o p h => ?_, ?_⟩
  · have := abr_insert_of_search t k o p h
    exact ⟨this, by rw [this]⟩
  · exact abr_insert_present _ (abr_found_build calls) k o p h
  · obtain ⟨st, hst⟩ := bfs_loop_shuffle_isSome attori_arr h32 s e hs32 fuel hfuel
    have hfst := bfs_loop_log_fst shuffle attori_arr e fuel [s]
      (abr_insert .NULL (shuffle s) s (-1)) [s]
    rw [hst] at hfst
    cases hlog : bfs_loop_log shuffle attori_arr e fuel [s]
        (abr_insert .NULL (shuffle s) s (-1)) [s] with
    | none => rw [hlog] at hfst; simp at hfst
    | some r =>
      rw [hlog] at hfst
      simp only [Option.map_some', Option.some.injEq] at hfst
      obtain ⟨st2, log⟩ := r
      simp only at hfst
      subst hfst
      have hinv := bfs_loop_log_inv shuffle attori_arr e fuel [s]
        (abr_insert .NULL (shuffle s) s (-1)) [s] st2 log (List.nodup_singleton s)
        (by
          intro c hc
          simp only [List.mem_singleton] at hc
          rw [hc, abr_lookup_insert, abr_lookup_NULL]
          simp)
        (by simp [abr_insert, abr_entries]) hlog
      exact ⟨st2, log, rfl, hst, hinv.1, hinv.2⟩

theorem index_insert_at_most_once_witness :
    (∀ t k o p, abr_search t k ≠ .NULL →
      abr_insert t k o p = t ∧ abr_lookup (abr_insert t k o p) k = abr_lookup t k) ∧
    (∀ calls k o p, (∃ c ∈ abr_entries (abr_build calls), c.1 = k) →
      abr_insert (abr_build calls) k o p = abr_build calls) ∧
    ∃ st log,
      bfs_loop_log shuffle table_two_hop 3 9 [1] (abr_insert .NULL (shuffle 1) 1 (-1)) [1]
        = some (st, log) ∧
      bfs_loop shuffle table_two_hop 3 9 [1] (abr_insert .NULL (shuffle 1) 1 (-1)) = some st ∧
      log.Nodup ∧ ((abr_entries st.explored_root).map fun c => c.2.1).Perm log :=
  index_insert_at_most_once table_two_hop 1 3 9 (by decide) (by decide) (by decide)

/-! ## Theorems: depth of the bound codes -/

/-- The frontier after the `for` loop is the old frontier followed by codes of the list
that were not bound. -/
theorem bfs_visit_queue_append (cur : Int) (cop : List Int) (q : fifo_queue_t)
    (t : abr_node_t) :
    ∃ news, (bfs_visit id cur cop q t).1 = q ++ news ∧
      ∀ n ∈ news, n ∈ cop ∧ abr_lookup t n = none := by
  induction cop generalizing q t with
  | nil => exact ⟨[], by simp [bfs_visit_nil], by simp⟩
  | cons n rest ih =>
    rw [bfs_visit_cons, id_eq]
    by_cases hn : abr_lookup t n = none
    · rw [if_pos hn]
      obtain ⟨news, h1, h2⟩ := ih (q ++ [n]) (abr_insert t n n cur)
      refine ⟨n :: news, by rw [h1, List.append_assoc]; rfl, ?_⟩
      intro m hm
      rcases List.mem_cons.1 hm with hm | hm
      · rw [hm]
        exact ⟨List.mem_cons_self _ _, hn⟩
      · obtain ⟨h3, h4⟩ := h2 m hm
        refine ⟨List.mem_cons_of_mem _ h3, ?_⟩
        rw [abr_lookup_insert] at h4
        by_cases hmn : m = n
        · rw [hmn]; exact hn
        · rw [if_neg hmn] at h4
          exact h4
    · rw [if_neg hn]
      obtain ⟨news, h1, h2⟩ := ih q t
      exact ⟨news, h1, fun m hm => ⟨List.mem_cons_of_mem _ (h2 m hm).1, (h2 m hm).2⟩⟩

/-- A code reached by a path no longer than the depth of every frontier cell is bound, at
a depth not larger than the length of the path. -/
theorem bfs_level_walk (tbl : List attore) (s : Int) (lev : Int → Nat) (q : fifo_queue_t)
    (t : abr_node_t) (h : bfs_level_inv tbl s lev q t) (m : Nat) (c : Int)
    (hw : walk tbl m s c) (hq : ∀ x ∈ q, m ≤ lev x) :
    abr_lookup t c ≠ none ∧ lev c ≤ m := by
  obtain ⟨⟨h1a, h1b⟩, h2, h3, h4, h5, h6, h7, h8⟩ := h
  induction m generalizing c with
  | zero =>
    have hc : s = c := hw
    rw [← hc, h1a, h1b]
    simp
  | succ m ih =>
    obtain ⟨w, hw1, hw2⟩ := hw
    obtain ⟨hwb, hwl⟩ := ih w hw1 (fun x hx => Nat.le_of_succ_le (hq x hx))
    rcases h6 w hwb with hin | ⟨_, hcl⟩
    · have := hq w hin
      omega
    · obtain ⟨hcb, hcl2⟩ := hcl c hw2
      exact ⟨hcb, by omega⟩

theorem bfs_level_inv_init (tbl : List attore) (s : Int) :
    bfs_level_inv tbl s (fun _ => 0) [s] (abr_insert .NULL s s (-1)) := by
  have hl : ∀ c, abr_lookup (abr_insert .NULL s s (-1)) c
      = if c = s then some (s, -1) else none := by
    intro c
    rw [abr_lookup_insert, abr_lookup_NULL, abr_lookup_NULL]
  refine ⟨⟨by rw [hl]; simp, rfl⟩, ?_, by simp, by simp, ?_, ?_, by simp, by simp⟩
  · intro c x hx
    rw [hl] at hx
    by_cases h : c = s
    · simp only [h, if_true, Option.some.injEq] at hx
      exact ⟨by rw [← hx, h], Or.inl h⟩
    · simp [h] at hx
  · intro x hx
    simp only [List.mem_singleton] at hx
    rw [hl, hx]; simp
  · intro c hc
    rw [hl] at hc
    by_cases h : c = s
    · exact Or.inl (by simp [h])
    · simp [h] at hc

theorem bfs_level_inv_none (tbl : List attore) (s : Int) (lev : Int → Nat) (cur : Int)
    (rest : fifo_queue_t) (t : abr_node_t) (h : bfs_level_inv tbl s lev (cur :: rest) t)
    (hf : find_attore_by_codice cur tbl = none) : bfs_level_inv tbl s lev rest t := by
  obtain ⟨h1, h2, h3, h4, h5, h6, h7, h8⟩ := h
  rw [List.pairwise_cons] at h3
  refine ⟨h1, h2, h3.2, fun x hx y hy => h4 x (List.mem_cons_of_mem _ hx) y
    (List.mem_cons_of_mem _ hy), fun x hx => h5 x (List.mem_cons_of_mem _ hx), ?_,
    fun c hc x hx => h7 c hc x (List.mem_cons_of_mem _ hx), h8⟩
  intro c hc
  rcases h6 c hc with hin | ⟨hle, hcl⟩
  · rcases List.mem_cons.1 hin with hcc | hcr
    · right
      refine ⟨fun x hx => by rw [hcc]; exact h3.1 x hx, ?_⟩
      rintro n ⟨r, hr, _⟩
      rw [hcc, hf] at hr
      exact absurd hr (by simp)
    · exact Or.inl hcr
  · exact Or.inr ⟨fun x hx => hle x (List.mem_cons_of_mem _ hx), hcl⟩

/-- One expanding iteration keeps the depth invariant when the codes bound by the
iteration get the depth of the dequeued code plus one. -/
theorem bfs_level_inv_some_aux (tbl : List attore) (s : Int) (lev lev2 : Int → Nat)
    (cur : Int) (rest : fifo_queue_t) (t : abr_node_t) (a : attore)
    (h : bfs_level_inv tbl s lev (cur :: rest) t)
    (hf : find_attore_by_codice cur tbl = some a)
    (hlold : ∀ c, abr_lookup t c ≠ none → lev2 c = lev c)
    (hlnew : ∀ c, abr_lookup t c = none → c ∈ a.cop → lev2 c = lev cur + 1) :
    bfs_level_inv tbl s lev2
      (bfs_visit id cur a.cop rest t).1 (bfs_visit id cur a.cop rest t).2 := by
  have hL := bfs_level_walk tbl s lev (cur :: rest) t h
  obtain ⟨⟨h1a, h1b⟩, h2, h3, h4, h5, h6, h7, h8⟩ := h
  rw [List.pairwise_cons] at h3
  obtain ⟨h3a, h3b⟩ := h3
  have hcurb : abr_lookup t cur ≠ none := h5 cur (List.mem_cons_self _ _)
  -- lookups after the loop
  have hlk := bfs_visit_lookup cur a.cop rest t
  have hold : ∀ c, abr_lookup t c ≠ none →
      abr_lookup (bfs_visit id cur a.cop rest t).2 c = abr_lookup t c := by
    intro c hc
    rw [hlk]
    cases hl : abr_lookup t c with
    | none => exact absurd hl hc
    | some x => rfl
  have hnew : ∀ c, abr_lookup t c = none → c ∈ a.cop →
      abr_lookup (bfs_visit id cur a.cop rest t).2 c = some (c, cur) := by
    intro c hc hcop
    rw [hlk, hc]
    simp [hcop]
  have hcases : ∀ c, abr_lookup (bfs_visit id cur a.cop rest t).2 c ≠ none →
      abr_lookup t c ≠ none ∨ (abr_lookup t c = none ∧ c ∈ a.cop) := by
    intro c hc
    by_cases hl : abr_lookup t c = none
    · right
      refine ⟨hl, ?_⟩
      by_contra hcop
      rw [hlk, hl] at hc
      simp [hcop] at hc
    · exact Or.inl hl
  have hmono : ∀ c, abr_lookup t c ≠ none →
      abr_lookup (bfs_visit id cur a.cop rest t).2 c ≠ none := by
    intro c hc
    rw [hold c hc]
    exact hc
  -- the frontier after the loop
  obtain ⟨news, hq, hnews⟩ := bfs_visit_queue_append cur a.cop rest t
  have hqmem : ∀ x, x ∈ (bfs_visit id cur a.cop rest t).1 →
      (x ∈ rest ∧ abr_lookup t x ≠ none) ∨ (abr_lookup t x = none ∧ x ∈ a.cop) := by
    intro x hx
    rw [hq] at hx
    rcases List.mem_append.1 hx with hx | hx
    · exact Or.inl ⟨hx, h5 x (List.mem_cons_of_mem _ hx)⟩
    · exact Or.inr ⟨(hnews x hx).2, (hnews x hx).1⟩
  have hqlev : ∀ x, x ∈ (bfs_visit id cur a.cop rest t).1 →
      lev cur ≤ lev2 x ∧
      lev2 x ≤ lev cur + 1 := by
    intro x hx
    rcases hqmem x hx with ⟨hxr, hxb⟩ | ⟨hxn, hxc⟩
    · rw [hlold x hxb]
      exact ⟨h3a x hxr, h4 cur (List.mem_cons_self _ _) x (List.mem_cons_of_mem _ hxr)⟩
    · rw [hlnew x hxn hxc]
      omega
  have hboundlev : ∀ c, abr_lookup (bfs_visit id cur a.cop rest t).2 c ≠ none →
      lev2 c ≤ lev cur + 1 := by
    intro c hc
    rcases hcases c hc with hb | ⟨hn, hcop⟩
    · rw [hlold c hb]
      exact h7 c hb cur (List.mem_cons_self _ _)
    · rw [hlnew c hn hcop]
  refine ⟨⟨?_, ?_⟩, ?_, ?_, ?_, ?_, ?_, ?_, ?_⟩
  · rw [hold s (by rw [h1a]; simp), h1a]
  · rw [hlold s (by rw [h1a]; simp), h1b]
  · -- parents
    intro c x hx
    by_cases hb : abr_lookup t c = none
    · have hcop : c ∈ a.cop := by
        rcases hcases c (by rw [hx]; simp) with h | h
        · exact absurd hb h
        · exact h.2
      rw [hnew c hb hcop] at hx
      simp only [Option.some.injEq] at hx
      rw [← hx]
      refine ⟨rfl, Or.inr ⟨hmono cur hcurb, ⟨a, hf, hcop⟩, ?_⟩⟩
      rw [hlnew c hb hcop, hlold cur hcurb]
    · rw [hold c hb] at hx
      obtain ⟨hx1, hx2⟩ := h2 c x hx
      refine ⟨hx1, ?_⟩
      rcases hx2 with hx2 | ⟨hpb, hpe, hpl⟩
      · exact Or.inl hx2
      · refine Or.inr ⟨hmono _ hpb, hpe, ?_⟩
        rw [hlold c hb, hlold _ hpb, hpl]
  · -- the frontier is sorted by depth
    rw [hq, List.pairwise_append]
    refine ⟨?_, ?_, ?_⟩
    · refine List.Pairwise.imp_of_mem ?_ h3b
      intro x y hx hy hxy
      rw [hlold x (h5 x (List.mem_cons_of_mem _ hx)),
        hlold y (h5 y (List.mem_cons_of_mem _ hy))]
      exact hxy
    · apply List.pairwise_of_forall_mem_list
      intro x hx y hy
      rw [hlnew x (hnews x hx).2 (hnews x hx).1, hlnew y (hnews y hy).2 (hnews y hy).1]
    · intro x hx y hy
      rw [hlold x (h5 x (List.mem_cons_of_mem _ hx)),
        hlnew y (hnews y hy).2 (hnews y hy).1]
      exact h4 cur (List.mem_cons_self _ _) x (List.mem_cons_of_mem _ hx)
  · -- the frontier spans at most two depths
    intro x hx y hy
    have := hqlev x hx
    have := hqlev y hy
    omega
  · -- the frontier cells are bound
    intro x hx
    rcases hqmem x hx with ⟨_, hxb⟩ | ⟨hxn, hxc⟩
    · exact hmono x hxb
    · rw [hnew x hxn hxc]
      simp
  · -- bound codes are in the frontier or closed
    intro c hc
    rcases hcases c hc with hb | ⟨hn, hcop⟩
    · rcases h6 c hb with hin | ⟨hle, hcl⟩
      · rcases List.mem_cons.1 hin with hcc | hcr
        · right
          subst hcc
          refine ⟨fun x hx => ?_, fun n hn => ?_⟩
          · rw [hlold c hb]
            exact (hqlev x hx).1
          · obtain ⟨r, hr, hnr⟩ := hn
            rw [hf] at hr
            simp only [Option.some.injEq] at hr
            rw [← hr] at hnr
            have hnb : abr_lookup (bfs_visit id c a.cop rest t).2 n ≠ none := by
              by_cases hnb0 : abr_lookup t n = none
              · rw [hnew n hnb0 hnr]
                simp
              · exact hmono n hnb0
            refine ⟨hnb, ?_⟩
            rw [hlold c hb]
            exact hboundlev n hnb
        · left
          rw [hq]
          exact List.mem_append_left _ hcr
      · right
        refine ⟨fun x hx => ?_, fun n hn => ?_⟩
        · rw [hlold c hb]
          have h9 := hle cur (List.mem_cons_self _ _)
          have h10 := (hqlev x hx).1
          omega
        · obtain ⟨hnb, hnl⟩ := hcl n hn
          refine ⟨hmono n hnb, ?_⟩
          rw [hlold c hb, hlold n hnb]
          exact hnl
    · left
      exact (bfs_visit_queue cur a.cop rest t c).2 (Or.inr ⟨hcop, hn⟩)
  · -- no bound code is deeper than one level below the frontier
    intro c hc x hx
    have := hboundlev c hc
    have := (hqlev x hx).1
    omega
  · -- no shorter path
    intro c hc m hw
    rcases hcases c hc with hb | ⟨hn, hcop⟩
    · rw [hlold c hb]
      exact h8 c hb m hw
    · rw [hlnew c hn hcop]
      by_contra hlt
      have hm : m ≤ lev cur := by omega
      have := hL m c hw (by
        intro x hx
        rcases List.mem_cons.1 hx with hx | hx
        · rw [hx]; exact hm
        · exact le_trans hm (h3a x hx))
      exact this.1 hn

/-- One expanding iteration keeps the depth invariant: the codes bound by the iteration
are one level below the dequeued code. -/
theorem bfs_level_inv_some (tbl : List attore) (s : Int) (lev : Int → Nat) (cur : Int)
    (rest : fifo_queue_t) (t : abr_node_t) (a : attore)
    (h : bfs_level_inv tbl s lev (cur :: rest) t)
    (hf : find_attore_by_codice cur tbl = some a) :
    ∃ lev2, bfs_level_inv tbl s lev2
      (bfs_visit id cur a.cop rest t).1 (bfs_visit id cur a.cop rest t).2 := by
  refine ⟨fun c => if abr_lookup t c = none ∧ c ∈ a.cop then lev cur + 1 else lev c,
    bfs_level_inv_some_aux tbl s lev _ cur rest t a h hf ?_ ?_⟩
  · intro c hc
    rw [if_neg (fun hh => hc hh.1)]
  · intro c hc hcop
    rw [if_pos ⟨hc, hcop⟩]

/-! ## Theorems: the loop states -/

theorem bfs_step_nil (key : Int → Int) (tbl : List attore) (e : Int) (t : abr_node_t) :
    bfs_step key tbl e [] t = none := rfl

theorem bfs_step_cons (key : Int → Int) (tbl : List attore) (e c : Int) (q : fifo_queue_t)
    (t : abr_node_t) :
    bfs_step key tbl e (c :: q) t =
      if c = e then none
      else match find_attore_by_codice c tbl with
        | none => some (q, t)
        | some a => some (bfs_visit key c a.cop q t) := by
  by_cases hce : c = e
  · simp [bfs_step, fifo_queue_dequeue, hce]
  · cases hf : find_attore_by_codice c tbl <;> simp [bfs_step, fifo_queue_dequeue, hce, hf]

/-- The states of `bfs_iterate` are the states of the search loop at its tests: running
the loop from the start is running it from the state reached after `n` iterations. -/
theorem bfs_loop_iterate (key : Int → Int) (tbl : List attore) (e : Int) (n fuel : Nat)
    (q q2 : fifo_queue_t) (t t2 : abr_node_t)
    (h : bfs_iterate key tbl e n q t = some (q2, t2)) :
    bfs_loop key tbl e (fuel + n) q t = bfs_loop key tbl e fuel q2 t2 := by
  induction n generalizing q t with
  | zero =>
    simp only [bfs_iterate, Option.some.injEq, Prod.mk.injEq] at h
    rw [h.1, h.2]
    rfl
  | succ n ih =>
    rw [bfs_iterate] at h
    cases q with
    | nil => simp [bfs_step_nil] at h
    | cons c q1 =>
      rw [bfs_step_cons] at h
      rw [← Nat.add_assoc, bfs_loop_cons]
      by_cases hce : c = e
      · rw [if_pos hce] at h
        simp at h
      · rw [if_neg hce] at h
        rw [if_neg hce]
        cases hf : find_attore_by_codice c tbl with
        | none =>
          rw [hf] at h
          exact ih _ _ h
        | some a =>
          rw [hf] at h
          exact ih _ _ h

theorem bfs_step_level_inv (tbl : List attore) (s e : Int) (q : fifo_queue_t)
    (t : abr_node_t) (r : fifo_queue_t × abr_node_t)
    (h : ∃ lev, bfs_level_inv tbl s lev q t) (hs : bfs_step id tbl e q t = some r) :
    ∃ lev, bfs_level_inv tbl s lev r.1 r.2 := by
  obtain ⟨lev, hinv⟩ := h
  cases q with
  | nil => simp [bfs_step_nil] at hs
  | cons c q1 =>
    rw [bfs_step_cons] at hs
    by_cases hce : c = e
    · rw [if_pos hce] at hs
      simp at hs
    · rw [if_neg hce] at hs
      cases hf : find_attore_by_codice c tbl with
      | none =>
        rw [hf] at hs
        simp only [Option.some.injEq] at hs
        rw [← hs]
        exact ⟨lev, bfs_level_inv_none tbl s lev c q1 t hinv hf⟩
      | some a =>
        rw [hf] at hs
        simp only [Option.some.injEq] at hs
        rw [← hs]
        exact bfs_level_inv_some tbl s lev c q1 t a hinv hf

theorem bfs_iterate_level_inv (tbl : List attore) (s e : Int) (n : Nat) (q q2 : fifo_queue_t)
    (t t2 : abr_node_t) (h : ∃ lev, bfs_level_inv tbl s lev q t)
    (hi : bfs_iterate id tbl e n q t = some (q2, t2)) :
    ∃ lev, bfs_level_inv tbl s lev q2 t2 := by
  induction n generalizing q t with
  | zero =>
    simp only [bfs_iterate, Option.some.injEq, Prod.mk.injEq] at hi
    rw [← hi.1, ← hi.2]
    exact h
  | succ n ih =>
    rw [bfs_iterate] at hi
    cases hs : bfs_step id tbl e q t with
    | none => rw [hs] at hi; simp at hi
    | some r =>
      rw [hs] at hi
      exact ih _ _ (bfs_step_level_inv tbl s e q t r h hs) hi

/-- Under the depth invariant a bound code at depth `d` is `d` parent steps away from the
start, and a path of `d` edges leads to it. -/
theorem bfs_level_chain (tbl : List attore) (s : Int) (lev : Int → Nat) (q : fifo_queue_t)
    (t : abr_node_t) (h : bfs_level_inv tbl s lev q t) (d : Nat) (c : Int)
    (hc : abr_lookup t c ≠ none) (hd : lev c = d) :
    parent_chain id t s d c ∧ walk tbl d s c := by
  obtain ⟨⟨h1a, h1b⟩, h2, _⟩ := h
  induction d generalizing c with
  | zero =>
    cases hl : abr_lookup t c with
    | none => exact absurd hl hc
    | some x =>
      rcases (h2 c x hl).2 with hcs | ⟨_, _, hlev⟩
      · exact ⟨hcs, hcs.symm⟩
      · omega
  | succ d ih =>
    cases hl : abr_lookup t c with
    | none => exact absurd hl hc
    | some x =>
      rcases (h2 c x hl).2 with hcs | ⟨hpb, hpe, hlev⟩
      · rw [hcs, h1b] at hd
        omega
      · obtain ⟨ih1, ih2⟩ := ih x.2 hpb (by omega)
        refine ⟨⟨?_, x, hl, ih1⟩, x.2, ih2, hpe⟩
        intro hcs
        rw [hcs, h1b] at hd
        omega

/-! ## Theorems: the loop states keyed by `shuffle` -/

theorem idx_wf_insert (key : Int → Int) (t : abr_node_t) (n p : Int) (h : idx_wf key t)
    (hn : isInt32 n) : idx_wf key (abr_insert t (key n) n p) := by
  refine ⟨abr_found_insert t _ _ _ h.1, ?_⟩
  intro c hc
  rcases abr_entries_insert_mem t _ _ _ c hc with h1 | h1
  · rw [h1]
    exact ⟨rfl, hn⟩
  · exact h.2 c h1

theorem idx_wf_visit (key : Int → Int) (cur : Int) (cop : List Int)
    (hcop : ∀ n ∈ cop, isInt32 n) (q : fifo_queue_t) (t : abr_node_t) (h : idx_wf key t) :
    idx_wf key (bfs_visit key cur cop q t).2 := by
  induction cop generalizing q t with
  | nil => exact h
  | cons n rest ih =>
    rw [bfs_visit_cons]
    have hrest : ∀ m ∈ rest, isInt32 m := fun m hm => hcop m (List.mem_cons_of_mem _ hm)
    split
    · exact ih hrest _ _ (idx_wf_insert key t n cur h (hcop n (List.mem_cons_self _ _)))
    · exact ih hrest _ _ h

/-- The loop state keyed by an injective function after `n` iterations has the frontier
of the loop state keyed by the codes, an index with the same bindings, and cells that
are all found under the key of their code. -/
theorem idx_sim_iterate (key : Int → Int)
    (hinj : ∀ a b, isInt32 a → isInt32 b → key a = key b → a = b)
    (tbl : List attore) (ht : table_int32 tbl) (e : Int) (n : Nat)
    (q q2 : fifo_queue_t) (hq : ∀ x ∈ q, isInt32 x) (t t2 u : abr_node_t)
    (h : idx_sim key t u) (hw : idx_wf key t)
    (hi : bfs_iterate key tbl e n q t = some (q2, t2)) :
    ∃ u2, bfs_iterate id tbl e n q u = some (q2, u2) ∧ idx_sim key t2 u2 ∧ idx_wf key t2 := by
  induction n generalizing q t u with
  | zero =>
    simp only [bfs_iterate, Option.some.injEq, Prod.mk.injEq] at hi
    rw [← hi.1, ← hi.2]
    exact ⟨u, rfl, h, hw⟩
  | succ n ih =>
    rw [bfs_iterate] at hi
    rw [bfs_iterate]
    cases q with
    | nil => simp [bfs_step_nil] at hi
    | cons c q1 =>
      have hc : isInt32 c := hq c (List.mem_cons_self _ _)
      have hq1 : ∀ x ∈ q1, isInt32 x := fun x hx => hq x (List.mem_cons_of_mem _ hx)
      rw [bfs_step_cons] at hi
      rw [bfs_step_cons]
      by_cases hce : c = e
      · rw [if_pos hce] at hi
        simp at hi
      · rw [if_neg hce] at hi
        rw [if_neg hce]
        cases hf : find_attore_by_codice c tbl with
        | none =>
          rw [hf] at hi
          exact ih q1 hq1 t u h hw hi
        | some a =>
          rw [hf] at hi
          simp only at hi ⊢
          have hcop := table_int32_find tbl ht c a hf
          obtain ⟨h1, h2⟩ := idx_sim_visit key hinj c hc a.cop hcop q1 t u h
          rw [h1] at hi
          refine ih _ (fun x hx => ?_) _ _ h2 (idx_wf_visit key c a.cop hcop q1 t hw) hi
          rcases bfs_visit_queue_mem id c a.cop q1 u x hx with hx | hx
          · exact hq1 x hx
          · exact hcop x hx

theorem parent_chain_sim (key : Int → Int) (t u : abr_node_t) (h : idx_sim key t u)
    (s : Int) (d : Nat) (c : Int) (hc : isInt32 c) (hp : parent_chain id u s d c) :
    parent_chain key t s d c := by
  induction d generalizing c with
  | zero => exact hp
  | succ d ih =>
    obtain ⟨hne, x, hx, hch⟩ := hp
    rw [id_eq] at hx
    refine ⟨hne, x, ?_, ih x.2 (h.2 c x hx) hch⟩
    rw [h.1 c hc, hx]

/-- C19. At every test of the search loop of the worker, for every cell of the index
whose code `c` is not the start code: the cell is stored under `shuffle c`, its parent
`p` has a cell in the index, `c` is a neighbor of `p`, and following parent fields from
`c` reaches the start code after exactly `d` steps, where `d` is the length of a path
from the start to `c` and no path from the start to `c` is shorter. -/
theorem parent_chain_is_shortest_path (attori_arr : List attore) (s e : Int) (n : Nat)
    (q : fifo_queue_t) (t : abr_node_t) (h32 : table_int32 attori_arr) (hs32 : isInt32 s)
    (hiter : bfs_iterate shuffle attori_arr e n [s] (abr_insert .NULL (shuffle s) s (-1))
      = some (q, t)) :
    ∀ c ∈ abr_entries t, c.2.1 ≠ s →
      c.1 = shuffle c.2.1 ∧
      (∃ pp, (shuffle c.2.2, c.2.2, pp) ∈ abr_entries t) ∧
      edge attori_arr c.2.2 c.2.1 ∧
      ∃ d, parent_chain shuffle t s d c.2.1 ∧ walk attori_arr d s c.2.1 ∧
        ∀ m, walk attori_arr m s c.2.1 → d ≤ m := by
  have hq : ∀ x ∈ [s], isInt32 x := by
    intro x hx
    simp only [List.mem_singleton] at hx
    rw [hx]; exact hs32
  have hw0 : idx_wf shuffle (abr_insert .NULL (shuffle s) s (-1)) :=
    idx_wf_insert shuffle .NULL s (-1) ⟨abr_found_NULL, by simp [abr_entries]⟩ hs32
  obtain ⟨u, hu, hsim, hwf⟩ := idx_sim_iterate shuffle shuffle_inj attori_arr h32 e n [s] q hq
    _ t _ (idx_sim_init shuffle shuffle_inj s hs32) hw0 hiter
  obtain ⟨lev, hinv⟩ := bfs_iterate_level_inv attori_arr s e n [s] q _ u
    ⟨_, bfs_level_inv_init attori_arr s⟩ hu
  intro c hc hcs
  obtain ⟨hkey, hc32⟩ := hwf.2 c hc
  have hlt : abr_lookup t (shuffle c.2.1) = some c.2 := by
    rw [← hkey]
    exact hwf.1 c hc
  have hlu : abr_lookup u c.2.1 = some c.2 := by
    rw [← hsim.1 c.2.1 hc32]
    exact hlt
  have hinv2 := hinv
  obtain ⟨_, h2, _, _, _, _, _, h8⟩ := hinv
  rcases (h2 c.2.1 c.2 hlu).2 with hh | ⟨hpb, hpe, _⟩
  · exact absurd hh hcs
  · have hp32 : isInt32 c.2.2 := hsim.2 c.2.1 c.2 hlu
    refine ⟨hkey, ?_, hpe, lev c.2.1, ?_, ?_, ?_⟩
    · cases hlp : abr_lookup u c.2.2 with
      | none => exact absurd hlp hpb
      | some y =>
        have hy1 := (h2 c.2.2 y hlp).1
        have hlpt : abr_lookup t (shuffle c.2.2) = some y := by
          rw [hsim.1 c.2.2 hp32]
          exact hlp
        have hmem := abr_lookup_mem_entries t _ y hlpt
        refine ⟨y.2, ?_⟩
        have hy : y = (c.2.2, y.2) := by rw [← hy1]
        rw [hy] at hmem
        exact hmem
    · have hch := bfs_level_chain attori_arr s lev q u hinv2 (lev c.2.1) c.2.1
        (by rw [hlu]; simp) rfl
      exact parent_chain_sim shuffle t u hsim s _ _ hc32 hch.1
    · exact (bfs_level_chain attori_arr s lev q u hinv2 (lev c.2.1) c.2.1
        (by rw [hlu]; simp) rfl).2
    · exact h8 c.2.1 (by rw [hlu]; simp)

theorem parent_chain_is_shortest_path_witness :
    shuffle 3 = shuffle 3 ∧
    (∃ pp, (shuffle 2, 2, pp) ∈ abr_entries abr_two_hop) ∧
    edge table_two_hop 2 3 ∧
    ∃ d, parent_chain shuffle abr_two_hop 1 d 3 ∧ walk table_two_hop d 1 3 ∧
      ∀ m, walk table_two_hop m 1 3 → d ≤ m :=
  parent_chain_is_shortest_path table_two_hop 1 3 2 [3] abr_two_hop (by decide) (by decide)
    (by decide) (shuffle 3, 3, 2) (by decide) (by decide)

/-! ## Theorems: the FIFO frontier in memory -/

theorem fifo_linked_lt (heap : List (Option q_node_t)) (p : Option Nat)
    (cells : List (Nat × Int)) (h : fifo_linked heap p cells) :
    ∀ n ∈ cells, n.1 < heap.length := by
  induction cells generalizing p with
  | nil => simp
  | cons n rest ih =>
    obtain ⟨_, nx, h1, h2⟩ := h
    intro m hm
    rcases List.mem_cons.1 hm with hm | hm
    · subst hm
      by_contra hlt
      rw [List.getElem?_eq_none (by omega)] at h1
      simp at h1
    · exact ih nx h2 m hm

theorem fifo_linked_append (heap : List (Option q_node_t)) (x : Option q_node_t)
    (p : Option Nat) (cells : List (Nat × Int)) (h : fifo_linked heap p cells) :
    fifo_linked (heap ++ [x]) p cells := by
  induction cells generalizing p with
  | nil => exact h
  | cons n rest ih =>
    obtain ⟨h0, nx, h1, h2⟩ := h
    refine ⟨h0, nx, ?_, ih nx h2⟩
    have hlt : n.1 < heap.length := by
      by_contra hlt
      rw [List.getElem?_eq_none (by omega)] at h1
      simp at h1
    rw [List.getElem?_append_left hlt]
    exact h1

theorem fifo_linked_set (heap : List (Option q_node_t)) (a : Nat) (v : Option q_node_t)
    (p : Option Nat) (cells : List (Nat × Int)) (h : fifo_linked heap p cells)
    (ha : ∀ n ∈ cells, n.1 ≠ a) : fifo_linked (heap.set a v) p cells := by
  induction cells generalizing p with
  | nil => exact h
  | cons n rest ih =>
    obtain ⟨h0, nx, h1, h2⟩ := h
    refine ⟨h0, nx, ?_, ih nx h2 (fun m hm => ha m (List.mem_cons_of_mem _ hm))⟩
    have hne : a ≠ n.1 := fun e => ha n (List.mem_cons_self _ _) e.symm
    rw [List.getElem?_set_ne hne]
    exact h1

/-- Linking a new last cell: the `next` field of the old last cell is the only field that
changes. -/
theorem fifo_linked_snoc (heap : List (Option q_node_t)) (p : Option Nat)
    (cells : List (Nat × Int)) (t new : Nat) (c : Int)
    (h : fifo_linked heap p cells) (hnd : (cells.map Prod.fst).Nodup)
    (ht : cells.getLast?.map Prod.fst = some t)
    (hnew : heap[new]? = some (some ⟨c, none⟩)) (hfresh : ∀ n ∈ cells, n.1 ≠ new) :
    ∃ cell, heap[t]? = some (some cell) ∧
      fifo_linked (heap.set t (some ⟨cell.codice, some new⟩)) p (cells ++ [(new, c)]) := by
  induction cells generalizing p with
  | nil => simp at ht
  | cons n rest ih =>
    obtain ⟨h0, nx, h1, h2⟩ := h
    cases rest with
    | nil =>
      simp only [List.getLast?_singleton, Option.map_some', Option.some.injEq] at ht
      subst ht
      have hnx : nx = none := h2
      subst hnx
      refine ⟨_, h1, h0, some new, ?_, rfl, none, ?_, rfl⟩
      · have hlt : n.1 < heap.length := by
          by_contra hlt
          rw [List.getElem?_eq_none (by omega)] at h1
          simp at h1
        rw [List.getElem?_set_self hlt]
      · have hne : n.1 ≠ new := hfresh n (List.mem_cons_self _ _)
        rw [List.getElem?_set_ne hne]
        exact hnew
    | cons m rest2 =>
      have hnd2 : ((m :: rest2).map Prod.fst).Nodup := (List.nodup_cons.1 hnd).2
      have ht2 : (m :: rest2).getLast?.map Prod.fst = some t := by
        simpa [List.getLast?_cons_cons] using ht
      obtain ⟨cell, hc1, hc2⟩ := ih nx h2 hnd2 ht2
        (fun k hk => hfresh k (List.mem_cons_of_mem _ hk))
      refine ⟨cell, hc1, h0, nx, ?_, hc2⟩
      have htmem : t ∈ (m :: rest2).map Prod.fst := by
        cases hl : (m :: rest2).getLast? with
        | none => rw [hl] at ht2; simp at ht2
        | some l =>
          rw [hl] at ht2
          simp only [Option.map_some', Option.some.injEq] at ht2
          rw [← ht2]
          exact List.mem_map_of_mem _ (List.mem_of_getLast?_eq_some hl)
      have hne : t ≠ n.1 := by
        intro e
        have := (List.nodup_cons.1 hnd).1
        rw [← e] at this
        exact this htmem
      rw [List.getElem?_set_ne hne]
      exact h1

theorem fifo_repr_create : fifo_repr fifo_queue_create_mem [] :=
  ⟨rfl, List.nodup_nil, rfl⟩

theorem fifo_repr_head (q : fifo_queue_mem) (cells : List (Nat × Int))
    (h : fifo_repr q cells) : q.head = cells.head?.map Prod.fst := by
  cases cells with
  | nil => exact h.1
  | cons n rest => exact h.1.1

/-- `fifo_queue_enqueue` on a memory that holds a queue dereferences no invalid pointer
and links the new cell last. -/
theorem fifo_repr_enqueue (q : fifo_queue_mem) (cells : List (Nat × Int)) (c : Int)
    (h : fifo_repr q cells) :
    ∃ q1, fifo_queue_enqueue_mem q c = some q1 ∧
      fifo_repr q1 (cells ++ [(q.heap.length, c)]) := by
  obtain ⟨h1, h2, h3⟩ := h
  have hlt := fifo_linked_lt q.heap q.head cells h1
  have hfresh : ∀ n ∈ cells, n.1 ≠ q.heap.length := fun n hn => Nat.ne_of_lt (hlt n hn)
  have hnd : ((cells ++ [(q.heap.length, c)]).map Prod.fst).Nodup := by
    rw [List.map_append, List.nodup_append]
    refine ⟨h2, List.nodup_singleton _, ?_⟩
    intro a ha hb
    simp only [List.map_cons, List.map_nil, List.mem_singleton] at hb
    obtain ⟨n, hn, hna⟩ := List.mem_map.1 ha
    exact hfresh n hn (hna.trans hb)
  have hlast : ((cells ++ [(q.heap.length, c)]).getLast?).map Prod.fst
      = some q.heap.length := by simp
  have hnew : (q.heap ++ [some (⟨c, none⟩ : q_node_t)])[q.heap.length]?
      = some (some ⟨c, none⟩) := by simp
  unfold fifo_queue_enqueue_mem
  cases ht : q.tail with
  | none =>
    have hnil : cells = [] := by
      rw [ht] at h3
      cases cells with
      | nil => rfl
      | cons n rest =>
        cases hl : (n :: rest).getLast? with
        | none => simp at hl
        | some l => rw [hl] at h3; simp at h3
    subst hnil
    refine ⟨_, rfl, ?_, hnd, hlast.symm⟩
    exact ⟨rfl, none, hnew, rfl⟩
  | some t =>
    rw [ht] at h3
    obtain ⟨cell, hc1, hc2⟩ := fifo_linked_snoc (q.heap ++ [some ⟨c, none⟩]) q.head cells t
      q.heap.length c (fifo_linked_append q.heap _ q.head cells h1) h2 h3.symm hnew hfresh
    simp only [hc1]
    exact ⟨_, rfl, hc2, hnd, hlast.symm⟩

/-- `fifo_queue_dequeue` on a memory that holds a non-empty queue returns 1, writes the
code of the first cell, and leaves the other cells as the queue. -/
theorem fifo_repr_dequeue_cons (q : fifo_queue_mem) (n : Nat × Int)
    (rest : List (Nat × Int)) (out : Int) (h : fifo_repr q (n :: rest)) :
    ∃ q1, fifo_queue_dequeue_mem q out = some (1, n.2, q1) ∧ fifo_repr q1 rest := by
  obtain ⟨⟨h0, nx, h1, h2⟩, hnd, h3⟩ := h
  have hnd1 := List.nodup_cons.1 hnd
  have hne : ∀ m ∈ rest, m.1 ≠ n.1 := by
    intro m hm e
    exact hnd1.1 (e ▸ List.mem_map_of_mem Prod.fst hm)
  unfold fifo_queue_dequeue_mem
  simp only [h0, h1]
  refine ⟨_, rfl, fifo_linked_set q.heap n.1 none nx rest h2 hne, hnd1.2, ?_⟩
  cases rest with
  | nil =>
    have hnx : nx = none := h2
    simp [hnx]
  | cons m rest2 =>
    have hnx : nx ≠ none := by
      rw [h2.1]; simp
    simp only [hnx, if_false]
    rw [h3]
    simp [List.getLast?_cons_cons]

/-- `fifo_queue_dequeue` on a memory that holds the empty queue returns 0 and writes
nothing. -/
theorem fifo_repr_dequeue_nil (q : fifo_queue_mem) (out : Int) (h : fifo_repr q []) :
    fifo_queue_dequeue_mem q out = some (0, out, q) := by
  have h0 : q.head = none := h.1
  unfold fifo_queue_dequeue_mem
  rw [h0]

theorem fifo_repr_is_empty (q : fifo_queue_mem) (cells : List (Nat × Int))
    (h : fifo_repr q cells) : fifo_queue_is_empty_mem q = true ↔ cells = [] := by
  unfold fifo_queue_is_empty_mem
  rw [fifo_repr_head q cells h]
  cases cells <;> simp

theorem fifo_repr_head_tail (q : fifo_queue_mem) (cells : List (Nat × Int))
    (h : fifo_repr q cells) : q.head = none ↔ q.tail = none := by
  rw [fifo_repr_head q cells h, h.2.2]
  cases cells with
  | nil => simp
  | cons n rest =>
    cases hl : (n :: rest).getLast? with
    | none => simp at hl
    | some l => simp

/-- The list model of the frontier that the search loop uses is what the memory holds:
the three functions on the memory compute `fifo_queue_enqueue`, `fifo_queue_dequeue` and
`fifo_queue_is_empty` on the codes of the linked cells. -/
theorem fifo_mem_refines_list (q : fifo_queue_mem) (cells : List (Nat × Int))
    (h : fifo_repr q cells) :
    (∀ c, ∃ q1 cells1, fifo_queue_enqueue_mem q c = some q1 ∧ fifo_repr q1 cells1 ∧
      cells1.map Prod.snd = fifo_queue_enqueue (cells.map Prod.snd) c) ∧
    (∀ out, (fifo_queue_dequeue (cells.map Prod.snd) = none ∧
        fifo_queue_dequeue_mem q out = some (0, out, q)) ∨
      ∃ c q1 cells1, fifo_queue_dequeue_mem q out = some (1, c, q1) ∧ fifo_repr q1 cells1 ∧
        fifo_queue_dequeue (cells.map Prod.snd) = some (c, cells1.map Prod.snd)) ∧
    fifo_queue_is_empty_mem q = fifo_queue_is_empty (cells.map Prod.snd) := by
  refine ⟨?_, ?_, ?_⟩
  · intro c
    obtain ⟨q1, h1, h2⟩ := fifo_repr_enqueue q cells c h
    exact ⟨q1, _, h1, h2, by simp [fifo_queue_enqueue]⟩
  · intro out
    cases cells with
    | nil => exact Or.inl ⟨rfl, fifo_repr_dequeue_nil q out h⟩
    | cons n rest =>
      obtain ⟨q1, h1, h2⟩ := fifo_repr_dequeue_cons q n rest out h
      exact Or.inr ⟨n.2, q1, rest, h1, h2, rfl⟩
  · have h1 := fifo_repr_is_empty q cells h
    cases cells with
    | nil => rw [h1.2 rfl]; rfl
    | cons n rest =>
      have : fifo_queue_is_empty_mem q ≠ true := fun e => by simpa using h1.1 e
      simpa [fifo_queue_is_empty] using this

/-- Invariant of a history: the memory holds a queue whose codes are the enqueued codes
that have not been returned yet. -/
theorem fifo_step_inv (h : fifo_history) (op : fifo_op) (cells : List (Nat × Int))
    (hr : fifo_repr h.q cells) (he : h.enqueued = h.returned ++ cells.map Prod.snd) :
    ∃ h1 cells1, fifo_step h op = some h1 ∧ fifo_repr h1.q cells1 ∧
      h1.enqueued = h1.returned ++ cells1.map Prod.snd := by
  cases op with
  | enqueue c =>
    obtain ⟨q1, h1, h2⟩ := fifo_repr_enqueue h.q cells c hr
    refine ⟨⟨q1, h.codice_out, h.enqueued ++ [c], h.returned⟩, _, ?_, h2, ?_⟩
    · simp [fifo_step, h1]
    · simp [he]
  | dequeue =>
    cases cells with
    | nil =>
      refine ⟨⟨h.q, h.codice_out, h.enqueued, h.returned⟩, [], ?_, hr, he⟩
      simp [fifo_step, fifo_repr_dequeue_nil h.q h.codice_out hr]
    | cons n rest =>
      obtain ⟨q1, h1, h2⟩ := fifo_repr_dequeue_cons h.q n rest h.codice_out hr
      refine ⟨⟨q1, n.2, h.enqueued, h.returned ++ [n.2]⟩, rest, ?_, h2, ?_⟩
      · simp [fifo_step, h1]
      · simp [he]

theorem fifo_foldlM_inv (ops : List fifo_op) (h : fifo_history) (cells : List (Nat × Int))
    (hr : fifo_repr h.q cells) (he : h.enqueued = h.returned ++ cells.map Prod.snd) :
    ∃ h1 cells1, ops.foldlM fifo_step h = some h1 ∧ fifo_repr h1.q cells1 ∧
      h1.enqueued = h1.returned ++ cells1.map Prod.snd := by
  induction ops generalizing h cells with
  | nil => exact ⟨h, cells, rfl, hr, he⟩
  | cons op rest ih =>
    obtain ⟨h1, cells1, hs, hr1, he1⟩ := fifo_step_inv h op cells hr he
    obtain ⟨h2, cells2, hf, hr2, he2⟩ := ih h1 cells1 hr1 he1
    refine ⟨h2, cells2, ?_, hr2, he2⟩
    rw [List.foldlM_cons, hs]
    exact hf

/-- C21. Every sequence of `fifo_queue_enqueue` and `fifo_queue_dequeue` calls on the
queue that `fifo_queue_create` returns runs without dereferencing an invalid pointer, and
afterwards: the enqueued codes are the codes that the dequeues returned, in the same
order, followed by the codes `pending` of the cells linked from `head`;
`fifo_queue_is_empty` holds exactly when every enqueued code has been returned; `head`
is `NULL` exactly when `tail` is `NULL`; on the empty queue `fifo_queue_dequeue` returns 0
and leaves `*codice_out` and the queue as they are; otherwise it returns 1 and writes the
oldest pending code. -/
theorem fifo_queue_is_fifo (codice_out : Int) (ops : List fifo_op) :
    ∃ h cells, fifo_run codice_out ops = some h ∧ fifo_repr h.q cells ∧
      h.enqueued = h.returned ++ cells.map Prod.snd ∧
      (fifo_queue_is_empty_mem h.q = true ↔ h.returned = h.enqueued) ∧
      (h.q.head = none ↔ h.q.tail = none) ∧
      (∀ out, fifo_queue_is_empty_mem h.q = true →
        fifo_queue_dequeue_mem h.q out = some (0, out, h.q)) ∧
      (∀ out, fifo_queue_is_empty_mem h.q = false →
        ∃ c q1, fifo_queue_dequeue_mem h.q out = some (1, c, q1) ∧
          (cells.map Prod.snd).head? = some c) := by
  obtain ⟨h, cells, hrun, hr, he⟩ :=
    fifo_foldlM_inv ops ⟨fifo_queue_create_mem, codice_out, [], []⟩ [] fifo_repr_create rfl
  have hemp := fifo_repr_is_empty h.q cells hr
  refine ⟨h, cells, hrun, hr, he, ?_, fifo_repr_head_tail h.q cells hr, ?_, ?_⟩
  · rw [hemp, he]
    constructor
    · intro hc; simp [hc]
    · intro hc
      have : (cells.map Prod.snd) = [] := by
        have h2 := congrArg List.length hc
        simp only [List.length_append, List.length_map] at h2
        have : cells.length = 0 := by omega
        simp [List.length_eq_zero.1 this]
      simpa using this
  · intro out hq
    have hnil := hemp.1 hq
    subst hnil
    exact fifo_repr_dequeue_nil h.q out hr
  · intro out hq
    cases cells with
    | nil =>
      rw [hemp.2 rfl] at hq
      exact absurd hq (by simp)
    | cons n rest =>
      obtain ⟨q1, h1, _⟩ := fifo_repr_dequeue_cons h.q n rest out hr
      exact ⟨n.2, q1, h1, rfl⟩

/-- Two codes enqueued and three dequeues: the codes come back in order, the third
dequeue returns 0 and leaves the receiving variable at the last code, and both pointers
are `NULL` at the end. -/
theorem fifo_run_two_codes :
    (fifo_run 7 [.enqueue 1, .enqueue 2, .dequeue, .dequeue, .dequeue]).map
        (fun h => (h.codice_out, h.enqueued, h.returned, h.q.head, h.q.tail)) =
      some (2, [1, 2], [1, 2], none, none) := by
  decide

/-! ## Theorems: the index is a binary search tree -/

theorem abr_ordered_insert (t : abr_node_t) (k o p : Int) (h : abr_ordered t) :
    abr_ordered (abr_insert t k o p) := by
  induction t with
  | NULL =>
    rw [abr_insert]
    exact ⟨by simp [abr_entries], by simp [abr_entries], trivial, trivial⟩
  | node sc oc pc l r ihl ihr =>
    obtain ⟨h1, h2, h3, h4⟩ := h
    rw [abr_insert]
    by_cases hlt : k < sc
    · rw [if_pos hlt]
      refine ⟨?_, h2, ihl h3, h4⟩
      intro e he
      rcases abr_entries_insert_mem l k o p e he with he | he
      · rw [he]; exact hlt
      · exact h1 e he
    · rw [if_neg hlt]
      by_cases hgt : k > sc
      · rw [if_pos hgt]
        refine ⟨h1, ?_, h3, ihr h4⟩
        intro e he
        rcases abr_entries_insert_mem r k o p e he with he | he
        · rw [he]; exact hgt
        · exact h2 e he
      · rw [if_neg hgt]
        exact ⟨h1, h2, h3, h4⟩

theorem abr_ordered_foldl (calls : List (Int × Int × Int)) (t : abr_node_t)
    (h : abr_ordered t) :
    abr_ordered (calls.foldl (fun t c => abr_insert t c.1 c.2.1 c.2.2) t) := by
  induction calls generalizing t with
  | nil => exact h
  | cons c rest ih => exact ih _ (abr_ordered_insert t c.1 c.2.1 c.2.2 h)

/-- Lookup in a tree after a sequence of `abr_insert` calls: a key that was bound keeps
its pair; a key that was not bound gets the pair of the first call with that key. -/
theorem abr_lookup_foldl (calls : List (Int × Int × Int)) (t : abr_node_t) (k : Int) :
    abr_lookup (calls.foldl (fun t c => abr_insert t c.1 c.2.1 c.2.2) t) k =
      match abr_lookup t k with
      | some x => some x
      | none => (calls.find? fun c => c.1 == k).map Prod.snd := by
  induction calls generalizing t with
  | nil => cases hl : abr_lookup t k <;> simp [hl]
  | cons c rest ih =>
    rw [List.foldl_cons, ih, abr_lookup_insert]
    by_cases hk : k = c.1
    · subst hk
      rw [if_pos rfl]
      cases hl : abr_lookup t c.1 with
      | some x => rfl
      | none => simp [List.find?_cons]
    · rw [if_neg hk]
      cases hl : abr_lookup t k with
      | some x => rfl
      | none =>
        have hne : (c.1 == k) = false := by
          simp only [beq_eq_false_iff_ne, ne_eq]
          exact fun e => hk e.symm
        simp [List.find?_cons, hne]

theorem abr_lookup_build (calls : List (Int × Int × Int)) (k : Int) :
    abr_lookup (abr_build calls) k = (calls.find? fun c => c.1 == k).map Prod.snd := by
  unfold abr_build
  rw [abr_lookup_foldl, abr_lookup_NULL]

/-- The cell that `abr_search` returns has the searched key. -/
theorem abr_search_node (t : abr_node_t) (k : Int) (x : Int × Int)
    (h : abr_lookup t k = some x) : ∃ l r, abr_search t k = .node k x.1 x.2 l r := by
  induction t with
  | NULL => simp [abr_lookup_NULL] at h
  | node sc oc pc l r ihl ihr =>
    rw [abr_lookup_node] at h
    rw [abr_search]
    by_cases h1 : sc = k
    · rw [if_pos h1] at h ⊢
      simp only [Option.some.injEq] at h
      subst h1
      rw [← h]
      exact ⟨l, r, rfl⟩
    · rw [if_neg h1] at h ⊢
      by_cases h2 : k < sc
      · rw [if_pos h2] at h ⊢
        exact ihl h
      · rw [if_neg h2] at h ⊢
        exact ihr h

/-- C22. For every sequence of `abr_insert` calls from the empty tree, the tree built
has the binary-search-tree order on `shuffled_codice`; `abr_search` returns a cell for
the key `k` exactly when some call had the key `k`; and the cell returned has the key `k`
and the original code and parent of the first call with the key `k`. -/
theorem abr_build_is_search_tree (calls : List (Int × Int × Int)) :
    abr_ordered (abr_build calls) ∧
    ∀ k, (abr_search (abr_build calls) k ≠ .NULL ↔ ∃ c ∈ calls, c.1 = k) ∧
      ∀ c, (calls.find? fun c => c.1 == k) = some c →
        ∃ l r, abr_search (abr_build calls) k = .node k c.2.1 c.2.2 l r := by
  refine ⟨abr_ordered_foldl calls .NULL trivial, fun k => ⟨?_, ?_⟩⟩
  · rw [ne_eq, abr_search_NULL_iff, abr_lookup_build]
    constructor
    · intro h
      cases hf : calls.find? fun c => c.1 == k with
      | none => rw [hf] at h; simp at h
      | some c =>
        refine ⟨c, List.mem_of_find?_eq_some hf, ?_⟩
        simpa using List.find?_some hf
    · rintro ⟨c, hc, hk⟩ h
      simp only [Option.map_eq_none', List.find?_eq_none] at h
      exact h c hc (by simp [hk])
  · intro c hc
    have h := abr_lookup_build calls k
    rw [hc] at h
    exact abr_search_node (abr_build calls) k c.2 h

/-- On `calls_repeated_key` the search for 5 returns the cell of the first call, the
search for 3 the cell of the second, and the search for 4 returns `NULL`. -/
theorem abr_build_repeated_key :
    abr_lookup (abr_build calls_repeated_key) 5 = some (50, -1) ∧
    abr_lookup (abr_build calls_repeated_key) 3 = some (30, 50) ∧
    abr_search (abr_build calls_repeated_key) 4 = .NULL := by
  refine ⟨by decide, by decide, by decide⟩

/-! ## Theorems: the search loop ends -/

theorem bfs_loop_count_cons (key : Int → Int) (tbl : List attore) (e : Int) (fuel : Nat)
    (c : Int) (q : fifo_queue_t) (t : abr_node_t) (d : Nat) :
    bfs_loop_count key tbl e (fuel + 1) (c :: q) t d =
      if c = e then some (⟨true, q, t⟩, d + 1)
      else match find_attore_by_codice c tbl with
        | none => bfs_loop_count key tbl e fuel q t (d + 1)
        | some a =>
          bfs_loop_count key tbl e fuel (bfs_visit key c a.cop q t).1
            (bfs_visit key c a.cop q t).2 (d + 1) := by
  by_cases hce : c = e
  · simp [bfs_loop_count, fifo_queue_is_empty, fifo_queue_dequeue, hce]
  · cases hf : find_attore_by_codice c tbl <;>
      simp [bfs_loop_count, fifo_queue_is_empty, fifo_queue_dequeue, hce, hf]

/-- The counter does not change what the loop computes. -/
theorem bfs_loop_count_fst (key : Int → Int) (tbl : List attore) (e : Int) (fuel : Nat)
    (q : fifo_queue_t) (t : abr_node_t) (d : Nat) :
    (bfs_loop_count key tbl e fuel q t d).map Prod.fst = bfs_loop key tbl e fuel q t := by
  induction fuel generalizing q t d with
  | zero => rfl
  | succ fuel ih =>
    cases q with
    | nil => rfl
    | cons c q1 =>
      rw [bfs_loop_count_cons, bfs_loop_cons]
      by_cases hce : c = e
      · rw [if_pos hce, if_pos hce]; rfl
      · rw [if_neg hce, if_neg hce]
        cases hf : find_attore_by_codice c tbl with
        | none => exact ih _ _ _
        | some a => exact ih _ _ _

theorem unexplored_key_insert_card (key : Int → Int) (tbl : List attore) (t : abr_node_t)
    (n p : Int) (hn : n ∈ neighbor_codes tbl) (hl : abr_lookup t (key n) = none) :
    (unexplored_key key tbl (abr_insert t (key n) n p)).card + 1
      ≤ (unexplored_key key tbl t).card := by
  have hsub : unexplored_key key tbl (abr_insert t (key n) n p) ⊂ unexplored_key key tbl t := by
    rw [Finset.ssubset_iff_of_subset]
    · refine ⟨n, ?_, ?_⟩
      · simp [unexplored_key, hn, hl]
      · simp [unexplored_key, abr_lookup_insert, hl]
    · intro c hc
      simp only [unexplored_key, Finset.mem_filter, abr_lookup_insert, hl] at hc ⊢
      refine ⟨hc.1, ?_⟩
      have h2 := hc.2
      by_cases hcn : key c = key n
      · simp [hcn] at h2
      · simpa [hcn] using h2
  exact Finset.card_lt_card hsub

/-- The `for` loop does not increase the number of frontier cells plus neighbor codes
with an unbound key: every new cell is a code whose key has just been bound. -/
theorem bfs_visit_potential_key (key : Int → Int) (tbl : List attore) (cur : Int)
    (cop : List Int) (hcop : ∀ n ∈ cop, n ∈ neighbor_codes tbl) (q : fifo_queue_t)
    (t : abr_node_t) :
    (bfs_visit key cur cop q t).1.length +
        (unexplored_key key tbl (bfs_visit key cur cop q t).2).card
      ≤ q.length + (unexplored_key key tbl t).card := by
  induction cop generalizing q t with
  | nil => simp [bfs_visit_nil]
  | cons n rest ih =>
    have hrest : ∀ m ∈ rest, m ∈ neighbor_codes tbl :=
      fun m hm => hcop m (List.mem_cons_of_mem _ hm)
    rw [bfs_visit_cons]
    by_cases hn : abr_lookup t (key n) = none
    · rw [if_pos hn]
      have h1 := ih hrest (q ++ [n]) (abr_insert t (key n) n cur)
      have h2 := unexplored_key_insert_card key tbl t n cur
        (hcop n (List.mem_cons_self _ _)) hn
      simp only [List.length_append, List.length_singleton] at h1
      omega
    · rw [if_neg hn]
      exact ih hrest q t

/-- The search loop ends within `frontier cells + neighbor codes with an unbound key + 1`
iteration tests, and dequeues at most `frontier cells + neighbor codes with an unbound
key` codes. -/
theorem bfs_loop_count_bound (key : Int → Int) (tbl : List attore) (e : Int) (fuel : Nat)
    (q : fifo_queue_t) (t : abr_node_t) (d : Nat)
    (hfuel : q.length + (unexplored_key key tbl t).card < fuel) :
    ∃ st n, bfs_loop_count key tbl e fuel q t d = some (st, n) ∧
      n ≤ d + q.length + (unexplored_key key tbl t).card := by
  induction fuel generalizing q t d with
  | zero => omega
  | succ fuel ih =>
    cases q with
    | nil => exact ⟨_, _, rfl, by omega⟩
    | cons c q1 =>
      rw [bfs_loop_count_cons]
      simp only [List.length_cons] at hfuel ⊢
      by_cases hce : c = e
      · rw [if_pos hce]
        exact ⟨_, _, rfl, by omega⟩
      · rw [if_neg hce]
        cases hf : find_attore_by_codice c tbl with
        | none =>
          obtain ⟨st, n, h1, h2⟩ := ih q1 t (d + 1) (by omega)
          exact ⟨st, n, h1, by omega⟩
        | some a =>
          simp only
          have hp := bfs_visit_potential_key key tbl c a.cop
            (find_cop_neighbor_codes tbl c a hf) q1 t
          obtain ⟨st, n, h1, h2⟩ := ih (bfs_visit key c a.cop q1 t).1
            (bfs_visit key c a.cop q1 t).2 (d + 1) (by omega)
          exact ⟨st, n, h1, by omega⟩

theorem bfs_visit_bound_mono (key : Int → Int) (cur : Int) (cop : List Int)
    (q : fifo_queue_t) (t : abr_node_t) (k : Int) (h : abr_lookup t k ≠ none) :
    abr_lookup (bfs_visit key cur cop q t).2 k ≠ none := by
  induction cop generalizing q t with
  | nil => exact h
  | cons n rest ih =>
    rw [bfs_visit_cons]
    by_cases hn : abr_lookup t (key n) = none
    · rw [if_pos hn]
      refine ih _ _ ?_
      rw [abr_lookup_insert]
      by_cases hk : k = key n
      · simp [hk, hn]
      · simpa [hk] using h
    · rw [if_neg hn]
      exact ih _ _ h

/-- The `for` loop enqueues a code only together with its insertion into the index: the
new frontier cells are neighbors whose key was not bound before the loop and is bound
after it. -/
theorem bfs_visit_enqueued (key : Int → Int) (cur : Int) (cop : List Int)
    (q : fifo_queue_t) (t : abr_node_t) :
    ∃ news, (bfs_visit key cur cop q t).1 = q ++ news ∧
      ∀ n ∈ news, n ∈ cop ∧ abr_lookup t (key n) = none ∧
        abr_lookup (bfs_visit key cur cop q t).2 (key n) ≠ none := by
  induction cop generalizing q t with
  | nil => exact ⟨[], by simp [bfs_visit_nil], by simp⟩
  | cons n rest ih =>
    rw [bfs_visit_cons]
    by_cases hn : abr_lookup t (key n) = none
    · rw [if_pos hn]
      obtain ⟨news, h1, h2⟩ := ih (q ++ [n]) (abr_insert t (key n) n cur)
      refine ⟨n :: news, by rw [h1]; simp, ?_⟩
      intro m hm
      rcases List.mem_cons.1 hm with hm | hm
      · subst hm
        refine ⟨List.mem_cons_self _ _, hn, ?_⟩
        apply bfs_visit_bound_mono
        simp [abr_lookup_insert, hn]
      · obtain ⟨h3, h4, h5⟩ := h2 m hm
        refine ⟨List.mem_cons_of_mem _ h3, ?_, h5⟩
        rw [abr_lookup_insert] at h4
        by_cases hk : key m = key n
        · simp [hk, hn] at h4
        · simpa [hk] using h4
    · rw [if_neg hn]
      obtain ⟨news, h1, h2⟩ := ih q t
      exact ⟨news, h1, fun m hm =>
        ⟨List.mem_cons_of_mem _ (h2 m hm).1, (h2 m hm).2.1, (h2 m hm).2.2⟩⟩

/-- C23. On every node table and every request the search loop of `bfs_thread_func`
ends: with one unit of fuel per loop test, `2 + number of distinct neighbor codes` units
are enough, the loop computes the state of `bfs_loop`, and the number of dequeues is at
most `1 + number of distinct neighbor codes`. The `for` loop enqueues only codes whose
key it has just inserted into the index. -/
theorem bfs_loop_dequeue_bound (attori_arr : List attore) (s e : Int) (fuel : Nat)
    (hfuel : (neighbor_codes attori_arr).card + 2 ≤ fuel) :
    (∃ st n,
      bfs_loop_count shuffle attori_arr e fuel [s] (abr_insert .NULL (shuffle s) s (-1)) 0
        = some (st, n) ∧
      bfs_loop shuffle attori_arr e fuel [s] (abr_insert .NULL (shuffle s) s (-1)) = some st ∧
      n ≤ 1 + (neighbor_codes attori_arr).card) ∧
    ∀ cur cop q t, ∃ news, (bfs_visit shuffle cur cop q t).1 = q ++ news ∧
      ∀ n ∈ news, n ∈ cop ∧ abr_lookup t (shuffle n) = none ∧
        abr_lookup (bfs_visit shuffle cur cop q t).2 (shuffle n) ≠ none := by
  refine ⟨?_, bfs_visit_enqueued shuffle⟩
  have hc : (unexplored_key shuffle attori_arr (abr_insert .NULL (shuffle s) s (-1))).card
      ≤ (neighbor_codes attori_arr).card :=
    Finset.card_le_card (Finset.filter_subset _ _)
  obtain ⟨st, n, h1, h2⟩ := bfs_loop_count_bound shuffle attori_arr e fuel [s]
    (abr_insert .NULL (shuffle s) s (-1)) 0 (by simp only [List.length_singleton]; omega)
  refine ⟨st, n, h1, ?_, ?_⟩
  · rw [← bfs_loop_count_fst shuffle attori_arr e fuel [s] _ 0, h1]
    rfl
  · simp only [List.length_singleton] at h2
    omega

theorem bfs_loop_dequeue_bound_witness :
    (∃ st n,
      bfs_loop_count shuffle table_cyclic 3 6 [1] (abr_insert .NULL (shuffle 1) 1 (-1)) 0
        = some (st, n) ∧
      bfs_loop shuffle table_cyclic 3 6 [1] (abr_insert .NULL (shuffle 1) 1 (-1)) = some st ∧
      n ≤ 1 + (neighbor_codes table_cyclic).card) ∧
    ∀ cur cop q t, ∃ news, (bfs_visit shuffle cur cop q t).1 = q ++ news ∧
      ∀ n ∈ news, n ∈ cop ∧ abr_lookup t (shuffle n) = none ∧
        abr_lookup (bfs_visit shuffle cur cop q t).2 (shuffle n) ≠ none :=
  bfs_loop_dequeue_bound table_cyclic 1 3 6 (by decide)

/-- On `table_cyclic`, whose neighbor lists hold four distinct codes, the search from 1
to 3 dequeues four codes. -/
theorem bfs_loop_count_cyclic :
    (bfs_loop_count shuffle table_cyclic 3 6 [1] (abr_insert .NULL (shuffle 1) 1 (-1)) 0).map
        Prod.snd = some 4 ∧ (neighbor_codes table_cyclic).card = 4 := by
  refine ⟨by decide, by decide⟩

/-! ## Theorems: the error branches of the path reconstruction -/

theorem trace_loop_exit_succ (key : Int → Int) (t : abr_node_t) (tota fuel : Nat) (c : Int)
    (path : List Int) :
    trace_loop_exit key t tota (fuel + 1) c path =
      if c = -1 then some (.sentinel path)
      else if path.length ≥ tota then some .path_too_long
      else match abr_lookup t (key c) with
        | none => some .node_not_found
        | some x => trace_loop_exit key t tota fuel x.2 (path ++ [c]) := by
  rw [trace_loop_exit]
  unfold abr_lookup
  split_ifs
  · rfl
  · rfl
  · split <;> simp [*]

/-- The loop `trace_loop` of the worker is `trace_loop_exit` with the exit forgotten. -/
theorem trace_loop_exit_cells (key : Int → Int) (t : abr_node_t) (tota fuel : Nat) (c : Int)
    (path : List Int) :
    (trace_loop_exit key t tota fuel c path).map trace_exit.cells =
      trace_loop key t tota fuel c path := by
  induction fuel generalizing c path with
  | zero => rfl
  | succ fuel ih =>
    rw [trace_loop_exit_succ, trace_loop_succ]
    split_ifs
    · rfl
    · rfl
    · cases hl : abr_lookup t (key c) with
      | none => rfl
      | some x => exact ih x.2 _

theorem idx_sim_trace_exit (key : Int → Int) (t u : abr_node_t) (h : idx_sim key t u)
    (tota fuel : Nat) (c : Int) (hc : isInt32 c) (path : List Int) :
    trace_loop_exit key t tota fuel c path = trace_loop_exit id u tota fuel c path := by
  induction fuel generalizing c path with
  | zero => rfl
  | succ fuel ih =>
    rw [trace_loop_exit_succ, trace_loop_exit_succ, h.1 c hc, id_eq]
    split_ifs
    · rfl
    · rfl
    · cases hl : abr_lookup u c with
      | none => rfl
      | some x => exact ih x.2 (h.2 c x hl) _

/-- Distinct codes of records are not more than the records. -/
theorem nodup_codes_length_le (tbl : List attore) (l : List Int) (hnd : l.Nodup)
    (hl : ∀ y ∈ l, has_codice tbl y) : l.length ≤ tbl.length := by
  have hsub : l ⊆ tbl.map attore.codice := by
    intro y hy
    obtain ⟨r, hr, hc⟩ := hl y hy
    exact List.mem_map.2 ⟨r, hr, hc⟩
  have h := (List.subperm_of_subset hnd hsub).length_le
  simpa using h

/-- The level invariant holds when the search loop on the index keyed by the codes has
dequeued the end code. -/
theorem bfs_loop_id_level (tbl : List attore) (s e : Int) (fuel : Nat) (su : bfs_state)
    (h : bfs_loop id tbl e fuel [s] (abr_insert .NULL s s (-1)) = some su)
    (hp : su.path_found = true) :
    ∃ lev, bfs_level_inv tbl s lev (e :: su.queue) su.explored_root := by
  obtain ⟨st, h1, hres⟩ := bfs_loop_invariant tbl e
    (fun q t => ∃ lev, bfs_level_inv tbl s lev q t)
    (fun c q t hinv _ hf => by
      obtain ⟨lev, hl⟩ := hinv
      exact ⟨lev, bfs_level_inv_none tbl s lev c q t hl hf⟩)
    (fun c q t a hinv _ hf => by
      obtain ⟨lev, hl⟩ := hinv
      exact bfs_level_inv_some tbl s lev c q t a hl hf)
    (fuel + bfs_fuel tbl) [s] (abr_insert .NULL s s (-1)) ⟨_, bfs_level_inv_init tbl s⟩
    (bfs_fuel_enough tbl s _ (fuel + bfs_fuel tbl) (by omega))
  rw [bfs_loop_mono id tbl e fuel [s] _ su h (bfs_fuel tbl)] at h1
  simp only [Option.some.injEq] at h1
  subst h1
  rcases hres with ⟨hpf, _, _⟩ | ⟨_, hinv⟩
  · rw [hp] at hpf
    simp at hpf
  · exact hinv

/-- Under the level invariant the reconstruction loop, started at a bound code of the
table with cells of bound codes of the table that are deeper, is left by its condition:
the cells written are distinct bound codes of the table. -/
theorem trace_loop_exit_level (tbl : List attore) (s : Int) (lev : Int → Nat)
    (q : fifo_queue_t) (u : abr_node_t) (hinv : bfs_level_inv tbl s lev q u)
    (fuel : Nat) (c : Int) (path : List Int)
    (hc : c = -1 ∨ (abr_lookup u c ≠ none ∧ has_codice tbl c ∧ ∀ y ∈ path, lev c < lev y))
    (hnd : path.Nodup) (hpath : ∀ y ∈ path, has_codice tbl y ∧ abr_lookup u y ≠ none)
    (hfuel : tbl.length + 1 ≤ fuel + path.length) :
    ∃ r, trace_loop_exit id u tbl.length fuel c path = some (.sentinel r) ∧ r.Nodup ∧
      ∀ y ∈ r, has_codice tbl y ∧ abr_lookup u y ≠ none := by
  induction fuel generalizing c path with
  | zero =>
    have := nodup_codes_length_le tbl path hnd (fun y hy => (hpath y hy).1)
    omega
  | succ fuel ih =>
    rw [trace_loop_exit_succ, id_eq]
    by_cases h1 : c = -1
    · rw [if_pos h1]
      exact ⟨path, rfl, hnd, hpath⟩
    · rw [if_neg h1]
      rcases hc with hc | ⟨hb, hcod, hlev⟩
      · exact absurd hc h1
      · have hnd2 : (path ++ [c]).Nodup := by
          rw [List.nodup_append]
          refine ⟨hnd, List.nodup_singleton _, ?_⟩
          intro a ha hb2
          simp only [List.mem_singleton] at hb2
          subst hb2
          exact Nat.lt_irrefl _ (hlev a ha)
        have hpath2 : ∀ y ∈ path ++ [c], has_codice tbl y ∧ abr_lookup u y ≠ none := by
          intro y hy
          rcases List.mem_append.1 hy with hy | hy
          · exact hpath y hy
          · simp only [List.mem_singleton] at hy
            subst hy
            exact ⟨hcod, hb⟩
        have hlen := nodup_codes_length_le tbl (path ++ [c]) hnd2
          (fun y hy => (hpath2 y hy).1)
        simp only [List.length_append, List.length_singleton] at hlen
        have h2 : ¬ path.length ≥ tbl.length := by omega
        rw [if_neg h2]
        cases hl : abr_lookup u c with
        | none => exact absurd hl hb
        | some x =>
          simp only
          refine ih x.2 (path ++ [c]) ?_ hnd2 hpath2 ?_
          · obtain ⟨h1s, h2s, _⟩ := hinv
            rcases (h2s c x hl).2 with hcs | ⟨hpb, hpe, hpl⟩
            · left
              rw [hcs, h1s.1] at hl
              simp only [Option.some.injEq] at hl
              rw [← hl]
            · right
              refine ⟨hpb, ?_, ?_⟩
              · obtain ⟨r, hr, _⟩ := hpe
                obtain ⟨hm, hrc⟩ := find_attore_by_codice_some x.2 tbl r hr
                exact ⟨r, hm, hrc⟩
              · intro y hy
                rcases List.mem_append.1 hy with hy | hy
                · have := hlev y hy
                  omega
                · simp only [List.mem_singleton] at hy
                  subst hy
                  omega
          · simp only [List.length_append, List.length_singleton]
            omega

/-- C24. When the search loop of `bfs_thread_func`, reached with both endpoints found in
the table, has set `path_found`, the reconstruction loop is left by its condition and by
neither error branch: every traced code is found in the index by `abr_search`, every
traced code is the code of a record of the table, the traced codes are pairwise distinct
and at most `tota_attori`, and they are the cells that the worker's loop `trace_loop`
returns. -/
theorem path_reconstruction_no_error (attori_arr : List attore) (s e : Int) (fuel fuel2 : Nat)
    (a b : attore) (st : bfs_state) (h32 : table_int32 attori_arr)
    (hfs : find_attore_by_codice s attori_arr = some a)
    (hfe : find_attore_by_codice e attori_arr = some b)
    (hl : bfs_loop shuffle attori_arr e fuel [s] (abr_insert .NULL (shuffle s) s (-1))
      = some st)
    (hp : st.path_found = true) (hfuel2 : attori_arr.length + 1 ≤ fuel2) :
    ∃ path,
      trace_loop_exit shuffle st.explored_root attori_arr.length fuel2 e []
        = some (.sentinel path) ∧
      trace_loop shuffle st.explored_root attori_arr.length fuel2 e [] = some path ∧
      (∀ c ∈ path, abr_search st.explored_root (shuffle c) ≠ .NULL) ∧
      (∀ c ∈ path, has_codice attori_arr c) ∧
      path.Nodup ∧ path.length ≤ attori_arr.length := by
  have hcs : has_codice attori_arr s :=
    ⟨a, (find_attore_by_codice_some s attori_arr a hfs).1,
      (find_attore_by_codice_some s attori_arr a hfs).2⟩
  have hce : has_codice attori_arr e :=
    ⟨b, (find_attore_by_codice_some e attori_arr b hfe).1,
      (find_attore_by_codice_some e attori_arr b hfe).2⟩
  have hs32 := has_codice_isInt32 attori_arr h32 s hcs
  have he32 := has_codice_isInt32 attori_arr h32 e hce
  have hq : ∀ x ∈ [s], isInt32 x := by
    intro x hx
    simp only [List.mem_singleton] at hx
    rw [hx]; exact hs32
  rcases idx_sim_loop shuffle shuffle_inj attori_arr h32 e fuel [s] hq _ _
      (idx_sim_init shuffle shuffle_inj s hs32) with ⟨h1, _⟩ | ⟨st2, su, h1, h2, h3, _, h5⟩
  · rw [hl] at h1
    simp at h1
  · rw [hl] at h1
    simp only [Option.some.injEq] at h1
    subst h1
    obtain ⟨lev, hinv⟩ := bfs_loop_id_level attori_arr s e fuel su h2 (by rw [← h3]; exact hp)
    have hbe : abr_lookup su.explored_root e ≠ none :=
      hinv.2.2.2.2.1 e (List.mem_cons_self _ _)
    obtain ⟨path, hx, hnd, hpath⟩ := trace_loop_exit_level attori_arr s lev _ _ hinv fuel2 e []
      (Or.inr ⟨hbe, hce, by simp⟩) List.nodup_nil (by simp) (by simpa using hfuel2)
    have hx2 : trace_loop_exit shuffle st.explored_root attori_arr.length fuel2 e []
        = some (.sentinel path) := by
      rw [idx_sim_trace_exit shuffle _ _ h5 _ _ e he32]
      exact hx
    refine ⟨path, hx2, ?_, ?_, fun c hc => (hpath c hc).1, hnd,
      nodup_codes_length_le attori_arr path hnd (fun c hc => (hpath c hc).1)⟩
    · rw [← trace_loop_exit_cells, hx2]
      rfl
    · intro c hc
      rw [ne_eq, abr_search_NULL_iff,
        h5.1 c (has_codice_isInt32 attori_arr h32 c (hpath c hc).1)]
      exact (hpath c hc).2

theorem path_reconstruction_no_error_witness :
    ∃ path,
      trace_loop_exit shuffle abr_two_hop table_two_hop.length 4 3 []
        = some (.sentinel path) ∧
      trace_loop shuffle abr_two_hop table_two_hop.length 4 3 [] = some path ∧
      (∀ c ∈ path, abr_search abr_two_hop (shuffle c) ≠ .NULL) ∧
      (∀ c ∈ path, has_codice table_two_hop c) ∧
      path.Nodup ∧ path.length ≤ table_two_hop.length :=
  path_reconstruction_no_error table_two_hop 1 3 9 4 ⟨1, "Alice", 1970, [2]⟩
    ⟨3, "Carol", 1972, [2]⟩ ⟨true, [], abr_two_hop⟩ (by decide) (by decide) (by decide)
    (by decide) rfl (by decide)

end CreaGrafo
